import Mathlib

/-!
# jntajis-go: a shallow embedding of the JIS X 0208 / JIS X 0213 codec

The development follows the Go sources:

* `decoder.go`  : `JNTAJISDecoder`, `appendReplacement`, `Decode`
* `encoder.go`  : `lookupRevTable`, the mode writers `putJISMen1`, `putJISX0208`,
  `putJISX0208Translit`, `putJISSISO`, the incremental encoder and the batch encoder
* `gen.go`      : the code template of `smRuneToJISMapping` and the table layout

Conventions of the embedding.

* A Go `rune` (int32) and a Go `int` are modelled by `Int`; a `uint32` and a `byte`
  by `Nat` (with an explicit `% 256` where the source converts to `byte`).
* A byte slice is a `List Nat`; the `nil` slice and the empty slice are both `[]`.
* A string is taken as the list of runes that `for _, r := range m` yields.
* A Go function that may end in a run-time panic returns an `Option`; `none` is the
  panic.  An `error` result is an `Option` of an error value next to the returned
  buffer, as in the source.
* The generated tables (`txMappings`, `runeRangeToJISMappings`) and the data the
  generator feeds to the automaton template are parameters, bundled in `Tables`.
* `grow` of `decoder.go` only changes the capacity of a slice, never its contents, so
  `b = grow(b, n)` leaves the modelled buffer as it is.
* Go's `int` is taken to be 64 bits wide, so that `int(c)` of a `uint32` is exact.
-/

namespace Jntajis

/-! ## Data model -/

/-- A Go `rune`. -/
abbrev Rune := Int

/-- A byte buffer (`[]byte`). -/
abbrev Bytes := List Nat

/-- Sentinel `InvalidRune = rune(0x7fffffff)`. -/
def InvalidRune : Rune := 0x7fffffff

/-- Sentinel `InvalidJISCode = uint32(0xffffffff)`. -/
def InvalidJISCode : Nat := 0xffffffff

/-- The constant `JISCharacterClass` values of the generated code. -/
inductive JISCharacterClass where
  | Reserved
  | KanjiLevel1
  | KanjiLevel2
  | KanjiLevel3
  | KanjiLevel4
  | JISX0208NonKanji
  | JISX0213NonKanji
  deriving DecidableEq, Repr

/-- The forward cell `shrinkingTransliterationMapping` of the generated table. -/
structure shrinkingTransliterationMapping where
  /-- packed men-ku-ten code -/
  jis : Nat
  /-- corresponding Unicode characters, `rs[0]` and `rs[1]` -/
  rs : Rune × Rune
  /-- secondary Unicode characters, `srs[0]` and `srs[1]` -/
  srs : Rune × Rune
  /-- JIS character class -/
  «class» : JISCharacterClass
  /-- number of characters of the transliterated form (a `byte`) -/
  txLen : Nat
  /-- transliterated form in packed men-ku-ten code, a `[4]uint32` -/
  txJIS : Fin 4 → Nat
  /-- transliterated form in Unicode, a `[4]rune` -/
  txRunes : Fin 4 → Rune

/-- An entry `runeRangeToJISMapping` of the reverse range table. -/
structure runeRangeToJISMapping where
  start : Rune
  «end» : Rune
  jis : List Nat

/-- The generator's `outer`: a lead scalar `R` and the pair mappings `N` that start
with it.  The automaton template reads `Rs[1]` and `JIS` of every element of `N`. -/
structure outer where
  R : Rune
  N : List shrinkingTransliterationMapping

/-- Length of the array `txMappings`, declared as `[2 * 94 * 94]`. -/
def txMappingsLen : Nat := 2 * 94 * 94

/-- The generated data the runtime reads.  `txMappings i` is the cell at index `i` of
the fixed-size array (only indices below `txMappingsLen` exist);
`runePairsToJisMappings` is the list the template of `smRuneToJISMapping` is
instantiated with. -/
structure Tables where
  txMappings : Nat → shrinkingTransliterationMapping
  runeRangeToJISMappings : List runeRangeToJISMapping
  runePairsToJisMappings : List outer

/-- Array access `txMappings[i]`: an index outside the array panics. -/
def Tables.txAt (t : Tables) (i : Int) : Option shrinkingTransliterationMapping :=
  if 0 ≤ i ∧ i < txMappingsLen then some (t.txMappings i.toNat) else none

/-! ## UTF-8 encoding of one rune (Go's `utf8.EncodeRune`) -/

/-- The bytes `utf8.EncodeRune` writes for `r`: negative runes, runes above
`U+10FFFF` and surrogates are written as `U+FFFD`. -/
def encodeRune (r : Rune) : Bytes :=
  if 0 ≤ r ∧ r ≤ 0x7f then [r.toNat]
  else if 0 ≤ r ∧ r ≤ 0x7ff then
    [0xc0 + r.toNat / 64, 0x80 + r.toNat % 64]
  else if r < 0 ∨ r > 0x10ffff ∨ (0xd800 ≤ r ∧ r ≤ 0xdfff) then [0xef, 0xbf, 0xbd]
  else if r ≤ 0xffff then
    [0xe0 + r.toNat / 4096, 0x80 + r.toNat / 64 % 64, 0x80 + r.toNat % 64]
  else
    [0xf0 + r.toNat / 262144, 0x80 + r.toNat / 4096 % 64, 0x80 + r.toNat / 64 % 64,
      0x80 + r.toNat % 64]

/-! ## Decoder (`decoder.go`) -/

/-- The errors `Decode` builds with `fmt.Errorf`; the numbers are the values
formatted into the message. -/
inductive DecodeError where
  /-- "inconvertible character found at offset %d" -/
  | inconvertible (o : Int)
  /-- "unexpected byte \x%02x after \x%02x at offset %d" -/
  | unexpectedAfter (c1 c0 o : Int)
  /-- "unexpected byte \x%02x at offset %d" -/
  | unexpected (c0 o : Int)
  deriving DecidableEq, Repr

/-- The decoder object. -/
structure JNTAJISDecoder where
  Replacement : Rune
  siso : Bool
  shiftOffset : Int
  upper : Int
  deriving DecidableEq, Repr

/-- What a call of a decoder method leaves: the decoder, the returned buffer and the
returned error. -/
structure DecodeResult where
  d : JNTAJISDecoder
  b : Bytes
  err : Option DecodeError
  deriving DecidableEq, Repr

/-- Method `appendReplacement` of the decoder. -/
def JNTAJISDecoder.appendReplacement (d : JNTAJISDecoder) (b : Bytes) (o : Int) :
    Bytes × Option DecodeError :=
  if d.Replacement = InvalidRune then (b, some (DecodeError.inconvertible o))
  else (b ++ encodeRune d.Replacement, none)

/-- The part of the loop body of `Decode` that runs once both bytes of a pair are
known to lie in `[0x21, 0x7e]`: the table lookup and the output.  `i` is the loop
index after both bytes were read.  The result is `none` when the table index is
outside the array. -/
def JNTAJISDecoder.decodePair (t : Tables) (d : JNTAJISDecoder) (b : Bytes)
    (c0 c1 i : Int) : Option (Bytes × Option DecodeError) :=
  let jis := d.shiftOffset + (c0 - 0x21) * 94 + (c1 - 0x21)
  match t.txAt jis with
  | none => none
  | some m =>
    if m.class = JISCharacterClass.Reserved then some (d.appendReplacement b (i - 2))
    else if m.rs.2 = InvalidRune then some (b ++ encodeRune m.rs.1, none)
    else some (b ++ encodeRune m.rs.1 ++ encodeRune m.rs.2, none)

/-- What one pass through the body of the loop of `Decode` ends in: the next pass
(with the loop variables `d`, `b`, `i` and the unread input `in_[i:]`), or the return
of the method (`none` when it panics). -/
inductive DecodeStep where
  | next (d : JNTAJISDecoder) (b : Bytes) (i : Int) (rest : List Nat)
  | done (r : Option DecodeResult)

/-- The body of the loop `for i < len(in_)` of `Decode`, entered with `in_[i:] = x :: xs`. -/
def JNTAJISDecoder.decodeBody (t : Tables) (d : JNTAJISDecoder) (b : Bytes) (i : Int)
    (x : Nat) (xs : List Nat) : DecodeStep :=
  -- if d.upper > 0 { c0 = d.upper; d.upper = 0 } else { c0 = int(in_[i]); i += 1 }
  let c0 : Int := if d.upper > 0 then d.upper else x
  let d1 : JNTAJISDecoder := if d.upper > 0 then { d with upper := 0 } else d
  let i1 : Int := if d.upper > 0 then i else i + 1
  let rest1 : List Nat := if d.upper > 0 then x :: xs else xs
  if 0x21 ≤ c0 ∧ c0 ≤ 0x7e then
    match rest1 with
    | [] => DecodeStep.done (some ⟨{ d1 with upper := c0 }, b, none⟩)
    | y :: ys =>
      let c1 : Int := y
      let i2 : Int := i1 + 1
      if 0x21 ≤ c1 ∧ c1 ≤ 0x7e then
        match d1.decodePair t b c0 c1 i2 with
        | none => DecodeStep.done none
        | some (b1, some e) => DecodeStep.done (some ⟨d1, b1, some e⟩)
        | some (b1, none) => DecodeStep.next d1 b1 i2 ys
      else DecodeStep.done (some ⟨d1, [], some (DecodeError.unexpectedAfter c1 c0 (i2 - 2))⟩)
  else if c0 = 0x0e ∧ d1.siso then DecodeStep.next { d1 with shiftOffset := 0 } b i1 rest1
  else if c0 = 0x0f ∧ d1.siso then
    DecodeStep.next { d1 with shiftOffset := 94 * 94 } b i1 rest1
  else DecodeStep.done (some ⟨d1, [], some (DecodeError.unexpected c0 i1)⟩)

/-- The loop `for i < len(in_)` of `Decode`; `rest` is `in_[i:]`.  Every pass either
reads a byte or clears the carry, which is the termination argument. -/
def JNTAJISDecoder.decodeLoop (t : Tables) (d : JNTAJISDecoder) (b : Bytes) (i : Int)
    (rest : List Nat) : Option DecodeResult :=
  match rest with
  | [] => some ⟨d, b, none⟩
  | x :: xs =>
    match h : d.decodeBody t b i x xs with
    | DecodeStep.done r => r
    | DecodeStep.next d1 b1 i1 rest1 => decodeLoop t d1 b1 i1 rest1
termination_by 2 * rest.length + (if d.upper > 0 then 1 else 0)
decreasing_by
  simp_wf
  unfold JNTAJISDecoder.decodeBody at h
  by_cases hu : d.upper > 0
  · have hu' : 0 < d.upper := hu
    simp only [hu, if_true] at h
    split at h
    · split at h
      · split at h
        · cases h
        · cases h
        · cases h; simp only [hu', if_true]; simp; omega
      · cases h
    · split at h
      · cases h; simp only [hu', if_true]; simp
      · split at h
        · cases h; simp only [hu', if_true]; simp
        · cases h
  · have hu' : ¬ 0 < d.upper := hu
    simp only [hu, if_false] at h
    split at h
    · split at h
      · cases h
      · split at h
        · split at h
          · cases h
          · cases h
          · cases h; simp only [hu', if_false]; simp; omega
        · cases h
    · split at h
      · cases h; simp only [hu', if_false]; simp
      · split at h
        · cases h; simp only [hu', if_false]; simp
        · cases h

/-- Method `Decode`. -/
def JNTAJISDecoder.Decode (t : Tables) (d : JNTAJISDecoder) (b : Bytes) (in_ : List Nat) :
    Option DecodeResult :=
  d.decodeLoop t b 0 in_

/-! ## Reverse lookup (`encoder.go`, `gen.go`) -/

/-- Conversion of an integer value to Go's `int32` (two's complement wrap-around). -/
def int32 (x : Int) : Int := (x + 2147483648) % 4294967296 - 2147483648

/-- The loop `for s < e && e <= len(runeRangeToJISMappings)` of `lookupRevTable`.
The result is `none` when a slice index is out of range (a run-time panic). -/
def lookupRevLoop (tbl : List runeRangeToJISMapping) (r : Rune) (s e : Nat) :
    Option (Nat × Bool) :=
  if h : s < e ∧ e ≤ tbl.length then
    let m := (s + e) / 2
    let mm := tbl.get ⟨m, by omega⟩
    if r < mm.start then lookupRevLoop tbl r s m
    else if r > mm.end then lookupRevLoop tbl r (m + 1) e
    else
      let o : Int := int32 (r - mm.start)
      if o ≥ mm.jis.length then some (0, false)
      else if o < 0 then none
      else
        match mm.jis.get? o.toNat with
        | none => none
        | some jis => if jis = InvalidJISCode then some (0, false) else some (jis, true)
  else some (0, false)
termination_by e - s
decreasing_by
  all_goals simp_wf
  all_goals omega

/-- Function `lookupRevTable`, over the range table `tbl`. -/
def lookupRevTable (tbl : List runeRangeToJISMapping) (r : Rune) : Option (Nat × Bool) :=
  lookupRevLoop tbl r 0 tbl.length

/-- The `case 0:` arm of the generated `smRuneToJISMapping`: the range pre-check
against the first and the last lead, then the `switch r` over the leads, the `i`-th
of which sets `state = i + 1`. -/
def smCase0 (rpm : List outer) (r : Rune) : Int × Nat :=
  match rpm.head?, rpm.getLast? with
  | some first, some last =>
    if r < first.R ∨ r > last.R then (0, 0)
    else
      match rpm.findIdx? (fun m => decide (m.R = r)) with
      | some i => ((i : Int) + 1, 0)
      | none => (0, 0)
  | _, _ => (0, 0)

/-- The function `smRuneToJISMapping` that the template of `gen.go` expands to for
the pair list `rpm`.  In state `i + 1` the `switch r` runs over the second scalars of
`rpm[i].N`; its `default:` arm sets `state = 0` and jumps back to `reenter`, that is to
the `case 0:` arm.  A state with no `case` leaves `state` and `final` untouched.  (For
an empty `rpm` the template cannot be expanded; the model then knows no lead.) -/
def smRuneToJISMapping (rpm : List outer) (state : Int) (r : Rune) : Int × Nat :=
  if state = 0 then smCase0 rpm r
  else if 1 ≤ state then
    match rpm.get? (state - 1).toNat with
    | some m =>
      match m.N.find? (fun n => decide (n.rs.2 = r)) with
      | some n => (-1, n.jis)
      | none => smCase0 rpm r
    | none => (state, 0)
  else (state, 0)

/-! ## Mode writers (`encoder.go`) -/

/-- The constants `ConversionMode*`. -/
inductive ConversionMode where
  | ConversionModeSISO
  | ConversionModeMen1
  | ConversionModeJISX0208
  | ConversionModeTranslit
  deriving DecidableEq, Repr

/-- The two appended bytes `byte(0x21+ku0), byte(0x21+ten0)` for
`ku0, ten0 := c/94%94, c%94`. -/
def kuTenBytes (c : Nat) : Bytes := [(0x21 + c / 94 % 94) % 256, (0x21 + c % 94) % 256]

/-- Function `putJISMen1`. -/
def putJISMen1 (b : Bytes) (c : Nat) : Bytes × Bool :=
  let men0 := c / (94 * 94)
  if men0 ≠ 0 then (b, false)
  else (b ++ kuTenBytes c, true)

/-- Function `putJISX0208`. -/
def putJISX0208 (t : Tables) (b : Bytes) (c : Nat) : Bytes × Bool :=
  if c ≥ txMappingsLen then (b, false)
  else
    match (t.txMappings c).class with
    | JISCharacterClass.KanjiLevel1 | JISCharacterClass.KanjiLevel2
    | JISCharacterClass.JISX0208NonKanji => (b ++ kuTenBytes c, true)
    | _ => (b, false)

/-- Function `putJISX0208Translit`.  The slice expression `m.txJIS[:m.txLen]` panics
when `m.txLen` exceeds the array length 4. -/
def putJISX0208Translit (t : Tables) (b : Bytes) (c : Nat) : Option (Bytes × Bool) :=
  if c ≥ txMappingsLen then some (b, false)
  else
    let m := t.txMappings c
    match m.class with
    | JISCharacterClass.KanjiLevel1 | JISCharacterClass.KanjiLevel2
    | JISCharacterClass.JISX0208NonKanji => some (b ++ kuTenBytes c, true)
    | _ =>
      if m.txLen > 0 then
        if m.txLen > 4 then none
        else some (((List.ofFn m.txJIS).take m.txLen).foldl (fun b c => b ++ kuTenBytes c) b, true)
      else some (b, false)

/-- The type of the field `putJIS` of the batch encoder, `func([]byte, uint32) ([]byte, bool)`. -/
abbrev PutFunc := Bytes → Nat → Option (Bytes × Bool)

/-- Function `putFuncForConversionMode`; the `default:` arm panics. -/
def putFuncForConversionMode (t : Tables) (mode : ConversionMode) : Option PutFunc :=
  match mode with
  | ConversionMode.ConversionModeMen1 => some (fun b c => some (putJISMen1 b c))
  | ConversionMode.ConversionModeJISX0208 => some (fun b c => some (putJISX0208 t b c))
  | ConversionMode.ConversionModeTranslit => some (putJISX0208Translit t)
  | _ => none

/-- The error `appendReplacement` builds: "%c is not convertible to JISX0208". -/
inductive EncodeError where
  | notConvertible (r : Rune)
  deriving DecidableEq, Repr

/-- Function `appendReplacement` of the encoder.  On `InvalidJISCode` it returns the
`nil` buffer with the error; a replacement that `putJISMen1` rejects panics. -/
def appendReplacement (b : Bytes) (r : Rune) (jis : Nat) : Option (Bytes × Option EncodeError) :=
  if jis = InvalidJISCode then some ([], some (EncodeError.notConvertible r))
  else
    match putJISMen1 b jis with
    | (b1, true) => some (b1, none)
    | (_, false) => none

/-- Method `putShift`, as a function of the field `shiftState` it reads and writes. -/
def putShift (shiftState : Int) (b : Bytes) (nextShiftState : Int) : Option (Int × Bytes) :=
  if nextShiftState ≠ shiftState then
    if nextShiftState = 0 then some (nextShiftState, b ++ [0x0e])
    else if nextShiftState = 1 then some (nextShiftState, b ++ [0x0f])
    else none
  else some (shiftState, b)

/-- Method `putJISSISO`, as a function of the field `shiftState` it reads and writes. -/
def putJISSISO (shiftState : Int) (b : Bytes) (jis : Nat) : Option (Int × Bytes × Bool) :=
  match putShift shiftState b ((jis / (94 * 94) : Nat) : Int) with
  | none => none
  | some (s1, b1) => some (s1, b1 ++ kuTenBytes jis, true)

/-! ## Incremental encoder (`encoder.go`) -/

/-- The incremental encoder object.  The field `putJIS` is either a plain mode writer
or the method value `e.putJISSISO`; it is modelled as a function that is handed the
current `shiftState` and returns the new one. -/
structure JNTAJISIncrementalEncoder where
  Replacement : Nat
  putJIS : Int → Bytes → Nat → Option (Int × Bytes × Bool)
  lookahead : List Rune
  shiftState : Int
  state : Int

/-- What a call of a method of the incremental encoder leaves: the encoder, the
returned buffer and the returned error. -/
structure EncodeResult where
  e : JNTAJISIncrementalEncoder
  b : Bytes
  err : Option EncodeError

/-- A plain mode writer used as `putJIS` of the incremental encoder: `shiftState` is
not touched. -/
def liftPut (put : PutFunc) : Int → Bytes → Nat → Option (Int × Bytes × Bool) :=
  fun s b c =>
    match put b c with
    | none => none
    | some (b1, ok) => some (s, b1, ok)

/-- Function `NewJNTAJISIncrementalEncoder`. -/
def NewJNTAJISIncrementalEncoder (t : Tables) (mode : ConversionMode) (replacement : Nat) :
    Option JNTAJISIncrementalEncoder :=
  if mode = ConversionMode.ConversionModeSISO then
    some ⟨replacement, putJISSISO, [], 0, 0⟩
  else
    match putFuncForConversionMode t mode with
    | none => none
    | some put => some ⟨replacement, liftPut put, [], 0, 0⟩

/-- The statements of the loop body of `flushLookahead` for one buffered scalar `r`:
`lookupRevTable`, the mode writer, and the replacement. An error in the result means
the method returns at once. -/
def JNTAJISIncrementalEncoder.flushOne (t : Tables) (e : JNTAJISIncrementalEncoder)
    (b : Bytes) (r : Rune) : Option EncodeResult :=
  match lookupRevTable t.runeRangeToJISMappings r with
  | none => none
  | some (jis, ok) =>
    match (if ok then e.putJIS e.shiftState b jis else some (e.shiftState, b, false)) with
    | none => none
    | some (s1, b1, ok1) =>
      let e1 := { e with shiftState := s1 }
      if !ok1 then
        match appendReplacement b1 r e1.Replacement with
        | none => none
        | some (b2, err) => some ⟨e1, b2, err⟩
      else some ⟨e1, b1, none⟩

/-- The loop `for _, r := range e.lookahead` of `flushLookahead`. -/
def JNTAJISIncrementalEncoder.flushLoop (t : Tables) (e : JNTAJISIncrementalEncoder)
    (b : Bytes) : List Rune → Option EncodeResult
  | [] => some ⟨e, b, none⟩
  | r :: rs =>
    match e.flushOne t b r with
    | none => none
    | some ⟨e1, b1, some err⟩ => some ⟨e1, b1, some err⟩
    | some ⟨e1, b1, none⟩ => flushLoop t e1 b1 rs

/-- Method `flushLookahead`. -/
def JNTAJISIncrementalEncoder.flushLookahead (t : Tables) (e : JNTAJISIncrementalEncoder)
    (b : Bytes) : Option EncodeResult :=
  match e.flushLoop t b e.lookahead with
  | none => none
  | some ⟨e1, b1, some err⟩ => some ⟨e1, b1, some err⟩
  | some ⟨e1, b1, none⟩ => some ⟨{ e1 with state := 0, lookahead := [] }, b1, none⟩

/-- The loop body of `Encode` for one scalar `r`.  An error in the result means the
method returns at once. -/
def JNTAJISIncrementalEncoder.encodeStep (t : Tables) (e : JNTAJISIncrementalEncoder)
    (b : Bytes) (r : Rune) : Option EncodeResult :=
  let sj := smRuneToJISMapping t.runePairsToJisMappings e.state r
  let e0 := { e with state := sj.1 }
  if e0.state = -1 then
    match e0.putJIS e0.shiftState b sj.2 with
    | none => none
    | some (s1, b1, ok) =>
      let e1 := { e0 with shiftState := s1 }
      match (if !ok then appendReplacement b1 r e1.Replacement else some (b1, none)) with
      | none => none
      | some (b2, some err) => some ⟨e1, b2, some err⟩
      | some (b2, none) =>
        { e1 with lookahead := [], state := 0 }.flushLookahead t b2
  else if e0.state = 0 then
    { e0 with lookahead := e0.lookahead ++ [r] }.flushLookahead t b
  else
    some ⟨{ e0 with lookahead := e0.lookahead ++ [r] }, b, none⟩

/-- Method `Encode`: the loop `for _, r := range m`. -/
def JNTAJISIncrementalEncoder.Encode (t : Tables) (e : JNTAJISIncrementalEncoder)
    (b : Bytes) : List Rune → Option EncodeResult
  | [] => some ⟨e, b, none⟩
  | r :: m =>
    match e.encodeStep t b r with
    | none => none
    | some ⟨e1, b1, some err⟩ => some ⟨e1, b1, some err⟩
    | some ⟨e1, b1, none⟩ => Encode t e1 b1 m

/-- Method `Flush`. -/
def JNTAJISIncrementalEncoder.Flush (t : Tables) (e : JNTAJISIncrementalEncoder)
    (b : Bytes) : Option EncodeResult :=
  match e.flushLookahead t b with
  | none => none
  | some ⟨e1, b1, some err⟩ => some ⟨e1, b1, some err⟩
  | some ⟨e1, b1, none⟩ =>
    match putShift e1.shiftState b1 0 with
    | none => none
    | some (s2, b2) => some ⟨{ e1 with shiftState := s2 }, b2, none⟩

/-! ## Batch encoder (`encoder.go`) -/

/-- The batch encoder object. -/
structure JNTAJISEncoder where
  Replacement : Nat
  putJIS : PutFunc

/-- Function `NewJNTAJISEncoder`. -/
def NewJNTAJISEncoder (t : Tables) (mode : ConversionMode) (replacement : Nat) :
    Option JNTAJISEncoder :=
  match putFuncForConversionMode t mode with
  | none => none
  | some put => some ⟨replacement, put⟩

/-- The body shared by the two loops `for _, r := range rb` of `EncodeAsJISX0213Men1`,
for one buffered scalar. -/
def JNTAJISEncoder.flushOne (t : Tables) (e : JNTAJISEncoder) (b : Bytes) (r : Rune) :
    Option (Bytes × Option EncodeError) :=
  match lookupRevTable t.runeRangeToJISMappings r with
  | none => none
  | some (jis, ok) =>
    match (if ok then e.putJIS b jis else some (b, false)) with
    | none => none
    | some (b1, ok1) =>
      if !ok1 then appendReplacement b1 r e.Replacement
      else some (b1, none)

/-- The loops `for _, r := range rb` of `EncodeAsJISX0213Men1`. -/
def JNTAJISEncoder.flushLoop (t : Tables) (e : JNTAJISEncoder) (b : Bytes) :
    List Rune → Option (Bytes × Option EncodeError)
  | [] => some (b, none)
  | r :: rs =>
    match e.flushOne t b r with
    | none => none
    | some (b1, some err) => some (b1, some err)
    | some (b1, none) => flushLoop t e b1 rs

/-- The local variables `s`, `rb`, `b` of `EncodeAsJISX0213Men1`. -/
structure BatchState where
  s : Int
  rb : List Rune
  b : Bytes
  deriving DecidableEq, Repr

/-- The body of the main loop of `EncodeAsJISX0213Men1` for one scalar `r`.  An error
in the result means the method returns at once, with the buffer of the state. -/
def JNTAJISEncoder.encodeStep (t : Tables) (e : JNTAJISEncoder) (st : BatchState)
    (r : Rune) : Option (BatchState × Option EncodeError) :=
  let sj := smRuneToJISMapping t.runePairsToJisMappings st.s r
  let s := sj.1
  if s = -1 then
    match e.putJIS st.b sj.2 with
    | none => none
    | some (b1, ok) =>
      match (if !ok then appendReplacement b1 r e.Replacement else some (b1, none)) with
      | none => none
      | some (b2, some err) => some (⟨s, st.rb, b2⟩, some err)
      | some (b2, none) =>
        -- rb = rb[:0]; s = 0; the loop over rb; rb = rb[:0]
        match e.flushLoop t b2 [] with
        | none => none
        | some (b3, some err) => some (⟨0, [], b3⟩, some err)
        | some (b3, none) => some (⟨0, [], b3⟩, none)
  else if s = 0 then
    let rb := st.rb ++ [r]
    match e.flushLoop t st.b rb with
    | none => none
    | some (b3, some err) => some (⟨s, rb, b3⟩, some err)
    | some (b3, none) => some (⟨s, [], b3⟩, none)
  else
    some (⟨s, st.rb ++ [r], st.b⟩, none)

/-- The main loop `for _, r := range m` of `EncodeAsJISX0213Men1`. -/
def JNTAJISEncoder.encodeLoop (t : Tables) (e : JNTAJISEncoder) (st : BatchState) :
    List Rune → Option (BatchState × Option EncodeError)
  | [] => some (st, none)
  | r :: m =>
    match e.encodeStep t st r with
    | none => none
    | some (st1, some err) => some (st1, some err)
    | some (st1, none) => encodeLoop t e st1 m

/-- Method `EncodeAsJISX0213Men1`: the main loop, then the loop over what is left in
`rb`. -/
def JNTAJISEncoder.EncodeAsJISX0213Men1 (t : Tables) (e : JNTAJISEncoder) (m : List Rune) :
    Option (Bytes × Option EncodeError) :=
  match e.encodeLoop t ⟨0, [], []⟩ m with
  | none => none
  | some (st, some err) => some (st.b, some err)
  | some (st, none) => e.flushLoop t st.b st.rb

/-! ## Definitions used to state the properties -/

/-- The wire form of a packed code: the two bytes `0x21 + ku`, `0x21 + ten` with
`ku = (c / 94) mod 94` and `ten = c mod 94`. -/
def wirePair (c : Nat) : Bytes := [0x21 + c / 94 % 94, 0x21 + c % 94]

/-- The classes the JISX0208 writer accepts. -/
def isJISX0208Class (k : JISCharacterClass) : Bool :=
  k = JISCharacterClass.KanjiLevel1 || k = JISCharacterClass.KanjiLevel2 ||
    k = JISCharacterClass.JISX0208NonKanji

/-- A table for examples: every cell is `Reserved` except the cell of code 0
(`U+3000`, non-kanji of JIS X 0208), of code 1 (`U+3001`), of code 2 (a level-3 kanji
that transliterates to the codes 0 and 1), of code 3 (the pair `U+304B U+309A`) and of
code 8836 (`U+20089`, the first cell of plane 2).  The range table maps `U+3000` and
`U+3001`, and the pair list holds the one lead `U+304B` with follow `U+309A`. -/
def exampleTables : Tables where
  txMappings := fun i =>
    if i = 0 then
      ⟨0, (0x3000, InvalidRune), (InvalidRune, InvalidRune),
        JISCharacterClass.JISX0208NonKanji, 0, ![0, 0, 0, 0], ![0, 0, 0, 0]⟩
    else if i = 1 then
      ⟨1, (0x3001, InvalidRune), (InvalidRune, InvalidRune),
        JISCharacterClass.JISX0208NonKanji, 0, ![0, 0, 0, 0], ![0, 0, 0, 0]⟩
    else if i = 2 then
      ⟨2, (0x4e02, InvalidRune), (InvalidRune, InvalidRune),
        JISCharacterClass.KanjiLevel3, 2, ![0, 1, 0, 0], ![0x3000, 0x3001, 0, 0]⟩
    else if i = 3 then
      ⟨3, (0x304b, 0x309a), (InvalidRune, InvalidRune),
        JISCharacterClass.JISX0213NonKanji, 0, ![0, 0, 0, 0], ![0, 0, 0, 0]⟩
    else if i = 8836 then
      ⟨8836, (0x20089, InvalidRune), (InvalidRune, InvalidRune),
        JISCharacterClass.KanjiLevel3, 0, ![0, 0, 0, 0], ![0, 0, 0, 0]⟩
    else
      ⟨i, (InvalidRune, InvalidRune), (InvalidRune, InvalidRune),
        JISCharacterClass.Reserved, 0, ![0, 0, 0, 0], ![0, 0, 0, 0]⟩
  runeRangeToJISMappings := [⟨0x3000, 0x3001, [0, 1]⟩]
  runePairsToJisMappings :=
    [⟨0x304b, [⟨3, (0x304b, 0x309a), (InvalidRune, InvalidRune),
      JISCharacterClass.JISX0213NonKanji, 0, ![0, 0, 0, 0], ![0, 0, 0, 0]⟩]⟩]

/-- Feeding the chunks of an input to `Encode` one call after the other, the buffer
returned by a call being handed to the next; the first call that returns an error (or
panics) ends the run. -/
def encodeChunks (t : Tables) (e : JNTAJISIncrementalEncoder) (b : Bytes) :
    List (List Rune) → Option EncodeResult
  | [] => some ⟨e, b, none⟩
  | c :: cs =>
    match e.Encode t b c with
    | none => none
    | some ⟨e1, b1, some err⟩ => some ⟨e1, b1, some err⟩
    | some ⟨e1, b1, none⟩ => encodeChunks t e1 b1 cs

/-- An incremental run: a fresh incremental encoder is fed the chunks, starting from
the `nil` buffer, and then flushed.  The result is the last buffer and error returned. -/
def incrementalEncode (t : Tables) (mode : ConversionMode) (replacement : Nat)
    (chunks : List (List Rune)) : Option (Bytes × Option EncodeError) :=
  match NewJNTAJISIncrementalEncoder t mode replacement with
  | none => none
  | some e =>
    match encodeChunks t e [] chunks with
    | none => none
    | some ⟨_, b1, some err⟩ => some (b1, some err)
    | some ⟨e1, b1, none⟩ =>
      match e1.Flush t b1 with
      | none => none
      | some r => some (r.b, r.err)

/-- A batch run: a fresh batch encoder encodes the whole input. -/
def batchEncode (t : Tables) (mode : ConversionMode) (replacement : Nat) (m : List Rune) :
    Option (Bytes × Option EncodeError) :=
  match NewJNTAJISEncoder t mode replacement with
  | none => none
  | some e => e.EncodeAsJISX0213Men1 t m

/-- The incremental encoder `e` with the automaton state, the lookahead and the
buffer of a state of the batch loop, as a result of a method of `e`. -/
def JNTAJISIncrementalEncoder.withBatch (e : JNTAJISIncrementalEncoder)
    (p : BatchState × Option EncodeError) : EncodeResult :=
  ⟨{ e with state := p.1.s, lookahead := p.1.rb }, p.1.b, p.2⟩

/-- The scalars of a cell as an input of the encoder: `rs[0]`, and `rs[1]` when it is
not `InvalidRune`. -/
def cellRunes (m : shrinkingTransliterationMapping) : List Rune :=
  if m.rs.2 = InvalidRune then [m.rs.1] else [m.rs.1, m.rs.2]

/-- The SISO writer applied to each code of a list in order, threading `shiftState`
and the buffer. -/
def putJISSISOAll (shiftState : Int) (b : Bytes) : List Nat → Option (Int × Bytes)
  | [] => some (shiftState, b)
  | jis :: rest =>
    match putJISSISO shiftState b jis with
    | none => none
    | some (s1, b1, _) => putJISSISOAll s1 b1 rest

/-- The UTF-8 encoding of the scalars `rs` of a cell: `rs[0]`, and `rs[1]` when it is
not `InvalidRune`. -/
def cellUTF8 (m : shrinkingTransliterationMapping) : Bytes :=
  encodeRune m.rs.1 ++ (if m.rs.2 = InvalidRune then [] else encodeRune m.rs.2)

/-- The failure condition of the wire format, in the words of the specification:
scanning the input left to right, a byte outside `[0x21, 0x7e]` is met in lead
position that is not an honoured shift byte (`0x0e` or `0x0f` with `siso`), or a byte
outside `[0x21, 0x7e]` is met as the second byte of a pair. -/
def scanMeetsBadByte (siso : Bool) : List Nat → Bool
  | [] => false
  | c0 :: rest =>
    if 0x21 ≤ c0 ∧ c0 ≤ 0x7e then
      match rest with
      | [] => false
      | c1 :: rest1 =>
        if 0x21 ≤ c1 ∧ c1 ≤ 0x7e then scanMeetsBadByte siso rest1 else true
    else if siso = true ∧ (c0 = 0x0e ∨ c0 = 0x0f) then scanMeetsBadByte siso rest
    else true

/-- The loop of `Decode` over `x` splits off: either it returns without error and the
loop over `x ++ y` continues from the state it leaves, or it does not return without
error and the loop over `x ++ y` ends the same way. -/
def DecodeSplits (t : Tables) (d : JNTAJISDecoder) (b : Bytes) (i : Int) (x : List Nat) :
    Prop :=
  (∃ r1, d.decodeLoop t b i x = some r1 ∧ r1.err = none ∧ 0 ≤ r1.d.upper ∧
      ∀ y, d.decodeLoop t b i (x ++ y) = r1.d.decodeLoop t r1.b (i + x.length) y) ∨
  ((∀ r1, d.decodeLoop t b i x = some r1 → r1.err ≠ none) ∧
      ∀ y, d.decodeLoop t b i (x ++ y) = d.decodeLoop t b i x)

/-- The slot `entry.jis[r - entry.start]` of a range-table entry (the sentinel when
the index is outside the slice). -/
def runeRangeToJISMapping.slot (m : runeRangeToJISMapping) (r : Rune) : Nat :=
  m.jis.getD (r - m.start).toNat InvalidJISCode

/-- What `lookupRevTable` returns for a scalar that lies in the range of the entry
`m`: the slot, or failure when the slot holds the sentinel. -/
def runeRangeToJISMapping.found (m : runeRangeToJISMapping) (r : Rune) : Option (Nat × Bool) :=
  if m.slot r = InvalidJISCode then some (0, false) else some (m.slot r, true)

/-- A cell with no transliteration form, for the sample table. -/
def sampleCell (jis : Nat) (r1 r2 : Rune) (k : JISCharacterClass) :
    shrinkingTransliterationMapping :=
  ⟨jis, (r1, r2), (InvalidRune, InvalidRune), k, 0, ![0, 0, 0, 0], ![0, 0, 0, 0]⟩

/-- A sample of the JIS X 0213 table: the katakana `U+30AF` (1-5-15), `U+30B8`
(1-5-24), `U+30E3` (1-5-67), `U+30F3` (1-5-83), the pair `U+30AF U+309A` (1-5-89), the
tone letters `U+02E5` (1-11-64) and `U+02E9` (1-11-68) and the pairs `U+02E9 U+02E5`
(1-11-69) and `U+02E5 U+02E9` (1-11-70), and the plane-2 kanji `U+20089` (2-1-1).
Every other cell is `Reserved`. -/
def sampleTables : Tables where
  txMappings := fun i =>
    if i = 390 then sampleCell 390 0x30af InvalidRune JISCharacterClass.JISX0208NonKanji
    else if i = 399 then sampleCell 399 0x30b8 InvalidRune JISCharacterClass.JISX0208NonKanji
    else if i = 442 then sampleCell 442 0x30e3 InvalidRune JISCharacterClass.JISX0208NonKanji
    else if i = 458 then sampleCell 458 0x30f3 InvalidRune JISCharacterClass.JISX0208NonKanji
    else if i = 464 then sampleCell 464 0x30af 0x309a JISCharacterClass.JISX0213NonKanji
    else if i = 1003 then sampleCell 1003 0x2e5 InvalidRune JISCharacterClass.JISX0213NonKanji
    else if i = 1007 then sampleCell 1007 0x2e9 InvalidRune JISCharacterClass.JISX0213NonKanji
    else if i = 1008 then sampleCell 1008 0x2e9 0x2e5 JISCharacterClass.JISX0213NonKanji
    else if i = 1009 then sampleCell 1009 0x2e5 0x2e9 JISCharacterClass.JISX0213NonKanji
    else if i = 8836 then sampleCell 8836 0x20089 InvalidRune JISCharacterClass.KanjiLevel3
    else sampleCell i InvalidRune InvalidRune JISCharacterClass.Reserved
  runeRangeToJISMappings :=
    [⟨0x2e5, 0x2e9, [1003, 0xffffffff, 0xffffffff, 0xffffffff, 1007]⟩,
      ⟨0x30af, 0x30af, [390]⟩, ⟨0x30b8, 0x30b8, [399]⟩, ⟨0x30e3, 0x30e3, [442]⟩,
      ⟨0x30f3, 0x30f3, [458]⟩, ⟨0x20089, 0x20089, [8836]⟩]
  runePairsToJisMappings :=
    [⟨0x2e5, [sampleCell 1009 0x2e5 0x2e9 JISCharacterClass.JISX0213NonKanji]⟩,
      ⟨0x2e9, [sampleCell 1008 0x2e9 0x2e5 JISCharacterClass.JISX0213NonKanji]⟩,
      ⟨0x30af, [sampleCell 464 0x30af 0x309a JISCharacterClass.JISX0213NonKanji]⟩]

/-- A property of byte strings that the empty string and every two-byte pair of a
code have, and that concatenation keeps. -/
def PairClosed (P : Bytes → Prop) : Prop :=
  P [] ∧ (∀ u v, P u → P v → P (u ++ v)) ∧ ∀ c, P (wirePair c)

/-- The writer `put` only appends to the buffer it is handed, and what it appends has
the property `P`. -/
def AppendsBy (P : Bytes → Prop) (put : Int → Bytes → Nat → Option (Int × Bytes × Bool)) :
    Prop :=
  ∀ s b c s1 b1 ok, put s b c = some (s1, b1, ok) → ∃ w, b1 = b ++ w ∧ P w

/-- Two-byte pairs only: an even number of bytes, each in `[0x21, 0x7e]`. -/
def pairsOnly (w : Bytes) : Prop :=
  w.length % 2 = 0 ∧ ∀ x ∈ w, 0x21 ≤ x ∧ x ≤ 0x7e

/-- Every shift byte (`0x0e` or `0x0f`) of the byte string is immediately followed by
two bytes in `[0x21, 0x7e]`. -/
def shiftsLeadPairs : Bytes → Bool
  | [] => true
  | c :: rest =>
    if c = 0x0e ∨ c = 0x0f then
      (match rest with
        | c1 :: c2 :: _ =>
          decide ((0x21 ≤ c1 ∧ c1 ≤ 0x7e) ∧ (0x21 ≤ c2 ∧ c2 ≤ 0x7e))
        | _ => false) && shiftsLeadPairs rest
    else shiftsLeadPairs rest

/-- A call of a method of the incremental encoder: `Encode` of a chunk, or `Flush`. -/
inductive EncoderCall where
  | encode (m : List Rune)
  | flush

/-- One call of a method of the incremental encoder. -/
def JNTAJISIncrementalEncoder.call (t : Tables) (e : JNTAJISIncrementalEncoder) (b : Bytes) :
    EncoderCall → Option EncodeResult
  | EncoderCall.encode m => e.Encode t b m
  | EncoderCall.flush => e.Flush t b

/-- A sequence of calls on an incremental encoder, the buffer returned by a call
being handed to the next; the first call that returns an error (or panics) ends the
run. -/
def runCalls (t : Tables) (e : JNTAJISIncrementalEncoder) (b : Bytes) :
    List EncoderCall → Option EncodeResult
  | [] => some ⟨e, b, none⟩
  | c :: cs =>
    match e.call t b c with
    | none => none
    | some ⟨e1, b1, some err⟩ => some ⟨e1, b1, some err⟩
    | some ⟨e1, b1, none⟩ => runCalls t e1 b1 cs

/-- The single-scalar path does not resolve the scalar `r` from the buffer `b`:
`lookupRevTable` does not map it, or maps it to a code that the mode writer rejects. -/
def JNTAJISEncoder.unresolved (t : Tables) (e : JNTAJISEncoder) (b : Bytes) (r : Rune) : Prop :=
  lookupRevTable t.runeRangeToJISMappings r = some (0, false) ∨
    ∃ jis b1, lookupRevTable t.runeRangeToJISMappings r = some (jis, true) ∧
      e.putJIS b jis = some (b1, false)

/-- The state invariant of the decoder with the constructor arguments `repl` and
`siso`: `shiftOffset` is 0 or 8836 (0 when `siso` is off) and the carry is absent (0)
or a byte in `[0x21, 0x7e]`. -/
def decoderInv (repl : Rune) (siso : Bool) (d : JNTAJISDecoder) : Prop :=
  d.Replacement = repl ∧ d.siso = siso ∧
    (d.shiftOffset = 0 ∨ d.shiftOffset = 8836) ∧ (siso = false → d.shiftOffset = 0) ∧
    (d.upper = 0 ∨ (0x21 ≤ d.upper ∧ d.upper ≤ 0x7e))

/-- A sequence of calls of `Decode` on one decoder, each with its own buffer and
input; a call that returns an error leaves the decoder to the next call.  The result
is `none` when a call panics. -/
def decodeCalls (t : Tables) (d : JNTAJISDecoder) :
    List (Bytes × List Nat) → Option JNTAJISDecoder
  | [] => some d
  | c :: cs =>
    match d.Decode t c.1 c.2 with
    | none => none
    | some r => decodeCalls t r.d cs

/-- The code of the pair `r`, `r'` in the words of the specification: `r` is a
registered lead and `r'` is one of its follows. -/
def pairCode (rpm : List outer) (r r' : Rune) : Option Nat :=
  match rpm.find? (fun m => decide (m.R = r)) with
  | none => none
  | some m => (m.N.find? (fun n => decide (n.rs.2 = r'))).map (fun n => n.jis)

/-- The writer output for a pair unit of code `jis` ending in the scalar `r'`: the
mode writer, and the replacement when it rejects the code. -/
def JNTAJISEncoder.putPair (e : JNTAJISEncoder) (b : Bytes) (r' : Rune) (jis : Nat) :
    Option (Bytes × Option EncodeError) :=
  match e.putJIS b jis with
  | none => none
  | some (b1, ok) => if !ok then appendReplacement b1 r' e.Replacement else some (b1, none)

/-- The output the specification describes for the batch encoder: the greedy
left-to-right segmentation of the input, where a registered lead immediately followed
by one of its follows is one unit encoded as the pair's code and every other scalar
is a unit encoded by the single-scalar path; the outputs of the units are
concatenated in input order, and the first error ends the run. -/
def specSegmentedEncode (t : Tables) (e : JNTAJISEncoder) : List Rune → Bytes →
    Option (Bytes × Option EncodeError)
  | [], b => some (b, none)
  | [r], b => e.flushOne t b r
  | r :: r' :: rest, b =>
    match pairCode t.runePairsToJisMappings r r' with
    | some jis =>
      match e.putPair b r' jis with
      | none => none
      | some (b1, some err) => some (b1, some err)
      | some (b1, none) => specSegmentedEncode t e rest b1
    | none =>
      match e.flushOne t b r with
      | none => none
      | some (b1, some err) => some (b1, some err)
      | some (b1, none) => specSegmentedEncode t e (r' :: rest) b1

/-! ## Generator (`gen.go`) -/

/-- The cell `readExcelFile` appends for a code `i` that no row has: the composite
literal sets `JIS`, `Rs`, `SRs` and `Class`, the other fields are zero values.  `rs`
is the local variable `rs` at that point of the loop body. -/
def gapCell (i : Nat) (rs : Rune × Rune) : shrinkingTransliterationMapping :=
  ⟨i, rs, (InvalidRune, InvalidRune), JISCharacterClass.Reserved, 0, fun _ => 0, fun _ => 0⟩

/-- The loop `for ro, row := range rows[2:]` of `readExcelFile`, over the rows after
their columns are parsed: a row is given as the cell the loop appends for it.  `next`
is `lj + 1`.  Before the cell of a row, the loop appends the cells of the codes from
`lj + 1` up to the code of the row; at that point the local `rs` already holds the
scalars of the row (`copy(rs[:], _rs)`) and `srs` still holds `InvalidRune`. -/
def readRows (next : Nat) : List shrinkingTransliterationMapping →
    List shrinkingTransliterationMapping
  | [] => []
  | row :: rows =>
    (List.range' next (row.jis - next)).map (fun i => gapCell i row.rs) ++
      row :: readRows (row.jis + 1) rows

/-- Function `readExcelFile`, from the parsed rows: the loop starts with `lj = -1`. -/
def readExcelFile (rows : List shrinkingTransliterationMapping) :
    List shrinkingTransliterationMapping :=
  readRows 0 rows

/-- The zero value of the cell type. -/
def zeroCell : shrinkingTransliterationMapping :=
  ⟨0, (0, 0), (0, 0), JISCharacterClass.Reserved, 0, fun _ => 0, fun _ => 0⟩

/-- The array literal `[2 * 94 * 94]shrinkingTransliterationMapping{...}` the template
writes from `mappings`: an element the literal does not list is the zero value. -/
def generatedTxMappings (mappings : List shrinkingTransliterationMapping) (i : Nat) :
    shrinkingTransliterationMapping :=
  mappings.getD i zeroCell

/-- The loop `for i, _ := range mappings` of `doIt` that builds `x`: every cell, and
after a cell whose `SRs[0]` is not `InvalidRune` a copy of it with `Rs = SRs`. -/
def expandSecondary (mappings : List shrinkingTransliterationMapping) :
    List shrinkingTransliterationMapping :=
  mappings.flatMap (fun m =>
    if m.srs.1 ≠ InvalidRune then [m, { m with rs := m.srs }] else [m])

/-- The local variables `lr`, `sr`, `js`, `rm` of the block of `doIt` that builds the
range table. -/
structure RangeState where
  lr : Rune
  sr : Rune
  js : List Nat
  rm : List runeRangeToJISMapping

/-- The values before the loop: `lr := rune(-1)`, `sr := rune(-1)`, an empty `js`, a
`nil` `rm`. -/
def rangeInit : RangeState := ⟨-1, -1, [], []⟩

/-- The body of the loop `for _, m := range x` once the two `continue` tests are
passed, for the scalar `r = m.Rs[0]` and the code `m.JIS`.  `g` is `int(r - lr)`, a
subtraction of two `rune` values. -/
def rangeAdd (st : RangeState) (r : Rune) (jis : Nat) : RangeState :=
  if st.lr = -1 then { st with sr := r, js := st.js ++ [jis], lr := r }
  else
    let g : Int := int32 (r - st.lr)
    if g ≥ 256 then
      { rm := st.rm ++ [⟨st.sr, st.lr, st.js⟩], js := [jis], sr := r, lr := r }
    else
      { st with js := st.js ++ List.replicate (g - 1).toNat 0xffffffff ++ [jis], lr := r }

/-- The body of the loop `for _, m := range x` of the range-table block: cells of
class `Reserved` and cells with a second scalar are skipped. -/
def rangeStep (st : RangeState) (m : shrinkingTransliterationMapping) : RangeState :=
  if m.class = JISCharacterClass.Reserved then st
  else if m.rs.2 ≠ InvalidRune then st
  else rangeAdd st m.rs.1 m.jis

/-- The statement after the loop: the last entry is appended when `lr != -1`. -/
def rangeFinish (st : RangeState) : List runeRangeToJISMapping :=
  if st.lr ≠ -1 then st.rm ++ [⟨st.sr, st.lr, st.js⟩] else st.rm

/-- The range table `rm` that `doIt` builds from the sorted list `x`. -/
def buildRangeTable (x : List shrinkingTransliterationMapping) : List runeRangeToJISMapping :=
  rangeFinish (x.foldl rangeStep rangeInit)

/-- The cells of `x` the range-table loop does not skip: the non-Reserved
single-scalar mappings. -/
def singleScalar (m : shrinkingTransliterationMapping) : Bool :=
  decide (m.class ≠ JISCharacterClass.Reserved ∧ m.rs.2 = InvalidRune)

/-- The mapped scalars with their codes, in the order of `x`. -/
def mappedScalars (x : List shrinkingTransliterationMapping) : List (Rune × Nat) :=
  (x.filter singleScalar).map (fun m => (m.rs.1, m.jis))

/-- The two scalars lie in the range of one entry of the range table. -/
def sameEntry (tbl : List runeRangeToJISMapping) (r r' : Rune) : Prop :=
  ∃ e ∈ tbl, e.start ≤ r ∧ r ≤ e.end ∧ e.start ≤ r' ∧ r' ≤ e.end

/-- The code that the mapped scalars give the scalar `r`: the code of the first pair
with that scalar, `0xFFFFFFFF` when there is none. -/
def codeOf (q : List (Rune × Nat)) (r : Rune) : Nat :=
  match q.find? (fun p => decide (p.1 = r)) with
  | some p => p.2
  | none => InvalidJISCode

/-- The invariant of the range-table loop after the mapped scalars `s` (not empty)
were processed: `lr` is the last of them and the largest, the open entry `[sr, lr]`
lies at least 256 above the entries already in `rm`, these lie at least 256 apart,
every processed scalar lies in an entry, and two consecutive processed scalars lie in
the same entry exactly when they differ by less than 256. -/
def RangeInv (s : List Rune) (st : RangeState) : Prop :=
  s.getLast? = some st.lr ∧
    (0 ≤ st.sr ∧ st.sr ≤ st.lr ∧ st.lr < 2147483648) ∧
    (∀ q ∈ s, q ≤ st.lr) ∧
    (∀ e ∈ st.rm, 0 ≤ e.start ∧ e.start ≤ e.end ∧ e.end + 256 ≤ st.sr) ∧
    st.rm.Pairwise (fun a b => a.end + 256 ≤ b.start) ∧
    (∀ q ∈ s, sameEntry (st.rm ++ [⟨st.sr, st.lr, st.js⟩]) q q) ∧
    (∀ l1 a a' l2, s = l1 ++ a :: a' :: l2 →
      (sameEntry (st.rm ++ [⟨st.sr, st.lr, st.js⟩]) a a' ↔ a' - a < 256))

/-- The invariant of the range-table loop on the slots, for strictly ascending mapped
scalars `q`: every entry has `end - start + 1` slots, and the slot of a scalar of its
range holds the code of that scalar, `0xFFFFFFFF` when the scalar is not mapped. -/
def RangeContent (q : List (Rune × Nat)) (st : RangeState) : Prop :=
  (∀ e ∈ st.rm ++ [⟨st.sr, st.lr, st.js⟩], (e.jis.length : Int) = e.end - e.start + 1) ∧
    ∀ e ∈ st.rm ++ [⟨st.sr, st.lr, st.js⟩], ∀ r : Rune, e.start ≤ r → r ≤ e.end →
      e.slot r = codeOf q r

/-- A sorted list `x` for examples: the tone letters `U+02E5` and `U+02E9`, the pair
`U+02E5 U+02E9` (skipped by the range-table loop), a reserved cell (skipped), and
the katakana `U+30AF` and `U+30B8`. -/
def sampleSorted : List shrinkingTransliterationMapping :=
  [sampleCell 1003 0x2e5 InvalidRune JISCharacterClass.JISX0213NonKanji,
    sampleCell 1009 0x2e5 0x2e9 JISCharacterClass.JISX0213NonKanji,
    sampleCell 1007 0x2e9 InvalidRune JISCharacterClass.JISX0213NonKanji,
    gapCell 8930 (0x2e9, InvalidRune),
    sampleCell 390 0x30af InvalidRune JISCharacterClass.JISX0208NonKanji,
    sampleCell 399 0x30b8 InvalidRune JISCharacterClass.JISX0208NonKanji]

/-- Two forward cells for an example: the single-scalar cell of `U+304C` (1-4-12) and
the pair cell `U+304B U+309A` (1-4-87) with the secondary scalar `U+304C`. -/
def clashCells : List shrinkingTransliterationMapping :=
  [sampleCell 293 0x304c InvalidRune JISCharacterClass.JISX0208NonKanji,
    ⟨368, (0x304b, 0x309a), (0x304c, InvalidRune), JISCharacterClass.JISX0213NonKanji, 0,
      ![0, 0, 0, 0], ![0, 0, 0, 0]⟩]

/-- The list `x` built from `clashCells`, sorted by first scalar, with the tie of the
two elements of scalar `U+304C` in the order of `x`. -/
def clashSorted1 : List shrinkingTransliterationMapping :=
  [⟨368, (0x304b, 0x309a), (0x304c, InvalidRune), JISCharacterClass.JISX0213NonKanji, 0,
      ![0, 0, 0, 0], ![0, 0, 0, 0]⟩,
    sampleCell 293 0x304c InvalidRune JISCharacterClass.JISX0208NonKanji,
    ⟨368, (0x304c, InvalidRune), (0x304c, InvalidRune), JISCharacterClass.JISX0213NonKanji, 0,
      ![0, 0, 0, 0], ![0, 0, 0, 0]⟩]

/-- The list `x` built from `clashCells`, sorted by first scalar, with the tie of the
two elements of scalar `U+304C` in the other order. -/
def clashSorted2 : List shrinkingTransliterationMapping :=
  [⟨368, (0x304b, 0x309a), (0x304c, InvalidRune), JISCharacterClass.JISX0213NonKanji, 0,
      ![0, 0, 0, 0], ![0, 0, 0, 0]⟩,
    ⟨368, (0x304c, InvalidRune), (0x304c, InvalidRune), JISCharacterClass.JISX0213NonKanji, 0,
      ![0, 0, 0, 0], ![0, 0, 0, 0]⟩,
    sampleCell 293 0x304c InvalidRune JISCharacterClass.JISX0208NonKanji]

/-- Two forward cells for an example: the cell of `U+30AF` (1-5-15) and the cell of
`U+30B8` (1-5-24) with the secondary scalar `U+30B7`. -/
def secondaryCells : List shrinkingTransliterationMapping :=
  [sampleCell 390 0x30af InvalidRune JISCharacterClass.JISX0208NonKanji,
    ⟨399, (0x30b8, InvalidRune), (0x30b7, InvalidRune), JISCharacterClass.JISX0208NonKanji, 0,
      ![0, 0, 0, 0], ![0, 0, 0, 0]⟩]

/-- The list `x` built from `secondaryCells`, sorted by first scalar. -/
def secondarySorted : List shrinkingTransliterationMapping :=
  [sampleCell 390 0x30af InvalidRune JISCharacterClass.JISX0208NonKanji,
    ⟨399, (0x30b7, InvalidRune), (0x30b7, InvalidRune), JISCharacterClass.JISX0208NonKanji, 0,
      ![0, 0, 0, 0], ![0, 0, 0, 0]⟩,
    ⟨399, (0x30b8, InvalidRune), (0x30b7, InvalidRune), JISCharacterClass.JISX0208NonKanji, 0,
      ![0, 0, 0, 0], ![0, 0, 0, 0]⟩]

/-! ## Theorems -/

/-! ### The mode writers -/

theorem kuTenBytes_eq_wirePair (c : Nat) : kuTenBytes c = wirePair c := by
  unfold kuTenBytes wirePair
  have h1 : (0x21 + c / 94 % 94) % 256 = 0x21 + c / 94 % 94 := by omega
  have h2 : (0x21 + c % 94) % 256 = 0x21 + c % 94 := by omega
  rw [h1, h2]

theorem putJISMen1_eq (b : Bytes) (c : Nat) :
    putJISMen1 b c = if c < 8836 then (b ++ wirePair c, true) else (b, false) := by
  unfold putJISMen1
  rw [kuTenBytes_eq_wirePair]
  by_cases h : c < 8836
  · have h0 : c / (94 * 94) = 0 := by omega
    simp [h, h0]
  · have h0 : ¬ c / (94 * 94) = 0 := by omega
    simp [h, h0]

/-- C5. The Men1 writer accepts a code exactly when `c / 8836 = 0`; then it returns
the buffer followed by the two bytes `0x21 + (c/94) mod 94`, `0x21 + c mod 94`, and
otherwise it returns the buffer unchanged with `ok = false`.  The rejected codes are
exactly the codes at or above 8836, `InvalidJISCode` among them. -/
theorem putJISMen1_spec (b : Bytes) (c : Nat) :
    putJISMen1 b c =
        (if c / 8836 = 0 then (b ++ [0x21 + c / 94 % 94, 0x21 + c % 94], true)
         else (b, false)) ∧
      ((putJISMen1 b c).2 = true ↔ c / 8836 = 0) ∧
      (c / 8836 = 0 ↔ c < 8836) ∧
      putJISMen1 b InvalidJISCode = (b, false) := by
  have hpair := kuTenBytes_eq_wirePair c
  unfold wirePair at hpair
  have hdiv : c / 8836 = 0 ↔ c < 8836 := by
    constructor
    · intro h; omega
    · intro h; omega
  refine ⟨?_, ?_, hdiv, ?_⟩
  · unfold putJISMen1
    by_cases h : c / 8836 = 0
    · simp [h, hpair]
    · simp [h]
  · unfold putJISMen1
    by_cases h : c / 8836 = 0
    · simp [h]
    · simp [h]
  · unfold putJISMen1 InvalidJISCode
    simp

/-- C6. The JISX0208 writer accepts a code exactly when it is below the table length
17672 and the class of its cell is `KanjiLevel1`, `KanjiLevel2` or `JISX0208NonKanji`;
then it returns the buffer followed by the two bytes of the code, otherwise the buffer
unchanged with `ok = false`.  For a code below 8836 these two bytes are the ones the
Men1 writer appends. -/
theorem putJISX0208_spec (t : Tables) (b : Bytes) (c : Nat) :
    putJISX0208 t b c =
        (if c < 17672 ∧ isJISX0208Class (t.txMappings c).class = true then
          (b ++ [0x21 + c / 94 % 94, 0x21 + c % 94], true)
         else (b, false)) ∧
      ((putJISX0208 t b c).2 = true ↔
        (c < 17672 ∧ isJISX0208Class (t.txMappings c).class = true)) ∧
      (if c < 8836 then
          putJISMen1 b c = (b ++ [0x21 + c / 94 % 94, 0x21 + c % 94], true)
        else putJISMen1 b c = (b, false)) := by
  have hpair := kuTenBytes_eq_wirePair c
  unfold wirePair at hpair
  have hmain : putJISX0208 t b c =
      (if c < 17672 ∧ isJISX0208Class (t.txMappings c).class = true then
        (b ++ [0x21 + c / 94 % 94, 0x21 + c % 94], true)
       else (b, false)) := by
    unfold putJISX0208 txMappingsLen isJISX0208Class
    by_cases h : c < 17672
    · have h' : ¬ c ≥ 2 * 94 * 94 := by omega
      simp only [h', if_false]
      cases hc : (t.txMappings c).class <;> simp [h, hpair]
    · have h' : c ≥ 2 * 94 * 94 := by omega
      simp [h', h]
  refine ⟨hmain, ?_, ?_⟩
  · rw [hmain]
    by_cases h : c < 17672 ∧ isJISX0208Class (t.txMappings c).class = true
    · simp [h]
    · simp only [h, if_false]
      simp
  · rw [putJISMen1_eq]
    by_cases h : c < 8836
    · simp [h, wirePair]
    · simp [h]

theorem foldl_kuTenBytes (l : List Nat) (b : Bytes) :
    l.foldl (fun b c => b ++ kuTenBytes c) b = b ++ l.flatMap wirePair := by
  induction l generalizing b with
  | nil => simp
  | cons c l ih =>
    simp only [List.foldl_cons, List.flatMap_cons]
    rw [ih, kuTenBytes_eq_wirePair, List.append_assoc]

/-- C7. For a code below 17672 whose cell has `txLen ≤ 4`, the transliterating writer
(i) does what the JISX0208 writer does when the class of the cell is `KanjiLevel1`,
`KanjiLevel2` or `JISX0208NonKanji`; (ii) otherwise, when `txLen > 0`, succeeds and
appends `txLen` two-byte pairs, the one of `txJIS[i]` being
`0x21 + (txJIS[i]/94) mod 94`, `0x21 + txJIS[i] mod 94`, in order; (iii) otherwise
returns the buffer unchanged with `ok = false`. -/
theorem putJISX0208Translit_spec (t : Tables) (b : Bytes) (c : Nat) (hc : c < 17672)
    (hlen : (t.txMappings c).txLen ≤ 4) :
    putJISX0208Translit t b c =
        some (if isJISX0208Class (t.txMappings c).class = true then putJISX0208 t b c
          else if 0 < (t.txMappings c).txLen then
            (b ++ ((List.ofFn (t.txMappings c).txJIS).take (t.txMappings c).txLen).flatMap
                (fun j => [0x21 + j / 94 % 94, 0x21 + j % 94]), true)
          else (b, false)) ∧
      ((List.ofFn (t.txMappings c).txJIS).take (t.txMappings c).txLen).length =
        (t.txMappings c).txLen := by
  constructor
  · have h' : ¬ c ≥ 2 * 94 * 94 := by omega
    have hlen' : ¬ (t.txMappings c).txLen > 4 := by omega
    have hw : wirePair = fun j => [0x21 + j / 94 % 94, 0x21 + j % 94] := rfl
    have hf : ∀ (l : List Nat) (b : Bytes),
        l.foldl (fun b c => b ++ [0x21 + c / 94 % 94, 0x21 + c % 94]) b =
          b ++ l.flatMap (fun j => [0x21 + j / 94 % 94, 0x21 + j % 94]) := by
      intro l b
      have h := foldl_kuTenBytes l b
      simp only [kuTenBytes_eq_wirePair, hw] at h
      exact h
    unfold putJISX0208Translit putJISX0208 txMappingsLen isJISX0208Class
    simp only [h', if_false, hlen', kuTenBytes_eq_wirePair, hw, hf]
    by_cases h0 : 0 < (t.txMappings c).txLen
    · have h1 : (t.txMappings c).txLen > 0 := h0
      cases hcl : (t.txMappings c).class <;> simp [h0]
    · have h1 : ¬ (t.txMappings c).txLen > 0 := h0
      cases hcl : (t.txMappings c).class <;> simp [h0]
  · simp only [List.length_take, List.length_ofFn]
    omega

/-- C7, at a concrete cell: code 2 of `exampleTables` is a level-3 kanji with the
transliteration `[0, 1]`. -/
theorem putJISX0208Translit_spec_witness :
    (2 : Nat) < 17672 ∧ (exampleTables.txMappings 2).txLen ≤ 4 ∧
      putJISX0208Translit exampleTables [] 2 = some ([0x21, 0x21, 0x21, 0x22], true) :=
  ⟨by decide, by decide, by
    rw [(putJISX0208Translit_spec exampleTables [] 2 (by decide) (by decide)).1]
    decide⟩

/-- C8. For `shiftState ∈ {0, 1}` and a code below 17672 the SISO writer succeeds;
with `p = jis / 8836` it appends one shift byte (`0x0e` if `p = 0`, `0x0f` if `p = 1`)
exactly when `p` differs from `shiftState`, then the two bytes of the code, and it
leaves `shiftState = p`. -/
theorem putJISSISO_spec (s : Int) (b : Bytes) (jis : Nat) (hs : s = 0 ∨ s = 1)
    (hj : jis < 17672) :
    putJISSISO s b jis =
      some (((jis / 8836 : Nat) : Int),
        b ++ (if ((jis / 8836 : Nat) : Int) ≠ s then [if jis / 8836 = 0 then 0x0e else 0x0f]
              else []) ++ [0x21 + jis / 94 % 94, 0x21 + jis % 94],
        true) := by
  have hp : jis / 8836 = 0 ∨ jis / 8836 = 1 := by omega
  unfold putJISSISO putShift
  rw [kuTenBytes_eq_wirePair]
  have e : (94 * 94 : Nat) = 8836 := by norm_num
  rw [e]
  rcases hp with hp | hp <;> rcases hs with hs | hs <;> simp [hp, hs, wirePair]

/-- C8, at a concrete input: the plane-2 code 8836 written from `shiftState = 0` gives
`0x0f` followed by its pair, and leaves `shiftState = 1`. -/
theorem putJISSISO_spec_witness :
    ((0 : Int) = 0 ∨ (0 : Int) = 1) ∧ (8836 : Nat) < 17672 ∧
      putJISSISO 0 [] 8836 = some (1, [0x0f, 0x21, 0x21], true) :=
  ⟨by decide, by decide, by
    rw [putJISSISO_spec 0 [] 8836 (by decide) (by decide)]
    decide⟩

/-! ## Decoder: unfolding the loop of `Decode` -/

theorem decodeLoop_nil (t : Tables) (d : JNTAJISDecoder) (b : Bytes) (i : Int) :
    d.decodeLoop t b i [] = some ⟨d, b, none⟩ := by
  rw [JNTAJISDecoder.decodeLoop]

theorem decodeLoop_cons (t : Tables) (d : JNTAJISDecoder) (b : Bytes) (i : Int) (x : Nat)
    (xs : List Nat) :
    d.decodeLoop t b i (x :: xs) =
      match d.decodeBody t b i x xs with
      | DecodeStep.done r => r
      | DecodeStep.next d1 b1 i1 rest1 => JNTAJISDecoder.decodeLoop t d1 b1 i1 rest1 := by
  rw [JNTAJISDecoder.decodeLoop]
  split <;> rename_i h <;> simp [h]

/-- No carry, a lone lead byte: it becomes the carry. -/
theorem decodeLoop_lead (t : Tables) (d : JNTAJISDecoder) (b : Bytes) (i : Int) (c0 : Nat)
    (hu : ¬ d.upper > 0) (h0 : 0x21 ≤ c0 ∧ c0 ≤ 0x7e) :
    d.decodeLoop t b i [c0] = some ⟨{ d with upper := (c0 : Int) }, b, none⟩ := by
  have h0' : (0x21 : Int) ≤ (c0 : Int) ∧ (c0 : Int) ≤ 0x7e := by omega
  rw [decodeLoop_cons]
  simp only [JNTAJISDecoder.decodeBody, hu, h0', and_self, if_true, if_false]

/-- No carry, two bytes in range: the pair is looked up. -/
theorem decodeLoop_pair (t : Tables) (d : JNTAJISDecoder) (b : Bytes) (i : Int)
    (c0 c1 : Nat) (ys : List Nat)
    (hu : ¬ d.upper > 0) (h0 : 0x21 ≤ c0 ∧ c0 ≤ 0x7e) (h1 : 0x21 ≤ c1 ∧ c1 ≤ 0x7e) :
    d.decodeLoop t b i (c0 :: c1 :: ys) =
      match d.decodePair t b c0 c1 (i + 1 + 1) with
      | none => none
      | some (b1, some e) => some ⟨d, b1, some e⟩
      | some (b1, none) => d.decodeLoop t b1 (i + 1 + 1) ys := by
  have h0' : (0x21 : Int) ≤ (c0 : Int) ∧ (c0 : Int) ≤ 0x7e := by omega
  have h1' : (0x21 : Int) ≤ (c1 : Int) ∧ (c1 : Int) ≤ 0x7e := by omega
  rw [decodeLoop_cons]
  simp only [JNTAJISDecoder.decodeBody, hu, h0', h1', and_self, if_true, if_false]
  rcases hp : d.decodePair t b c0 c1 (i + 1 + 1) with _ | ⟨b1, _ | e⟩ <;> rfl

/-- No carry, a lead byte followed by a byte out of range: error. -/
theorem decodeLoop_badSecond (t : Tables) (d : JNTAJISDecoder) (b : Bytes) (i : Int)
    (c0 c1 : Nat) (ys : List Nat)
    (hu : ¬ d.upper > 0) (h0 : 0x21 ≤ c0 ∧ c0 ≤ 0x7e) (h1 : ¬ (0x21 ≤ c1 ∧ c1 ≤ 0x7e)) :
    d.decodeLoop t b i (c0 :: c1 :: ys) =
      some ⟨d, [], some (DecodeError.unexpectedAfter c1 c0 (i + 1 + 1 - 2))⟩ := by
  have h0' : (0x21 : Int) ≤ (c0 : Int) ∧ (c0 : Int) ≤ 0x7e := by omega
  have h1' : ¬ ((0x21 : Int) ≤ (c1 : Int) ∧ (c1 : Int) ≤ 0x7e) := by omega
  rw [decodeLoop_cons]
  simp only [JNTAJISDecoder.decodeBody, hu, h0', h1', and_self, if_true, if_false]

/-- No carry, a byte out of range in lead position: a shift byte if `siso`, else an
error. -/
theorem decodeLoop_control (t : Tables) (d : JNTAJISDecoder) (b : Bytes) (i : Int)
    (c0 : Nat) (xs : List Nat)
    (hu : ¬ d.upper > 0) (h0 : ¬ (0x21 ≤ c0 ∧ c0 ≤ 0x7e)) :
    d.decodeLoop t b i (c0 :: xs) =
      if c0 = 0x0e ∧ d.siso = true then
        JNTAJISDecoder.decodeLoop t { d with shiftOffset := 0 } b (i + 1) xs
      else if c0 = 0x0f ∧ d.siso = true then
        JNTAJISDecoder.decodeLoop t { d with shiftOffset := 94 * 94 } b (i + 1) xs
      else some ⟨d, [], some (DecodeError.unexpected c0 (i + 1))⟩ := by
  have h0' : ¬ ((0x21 : Int) ≤ (c0 : Int) ∧ (c0 : Int) ≤ 0x7e) := by omega
  have e1 : ((c0 : Int) = 0x0e) = (c0 = 0x0e) := by
    apply propext; constructor <;> intro h <;> omega
  have e2 : ((c0 : Int) = 0x0f) = (c0 = 0x0f) := by
    apply propext; constructor <;> intro h <;> omega
  rw [decodeLoop_cons]
  simp only [JNTAJISDecoder.decodeBody, hu, h0', if_false, e1, e2]
  split_ifs <;> rfl

/-- A carry in range and a next byte in range: the pair is looked up. -/
theorem decodeLoop_carry_pair (t : Tables) (d : JNTAJISDecoder) (b : Bytes) (i : Int)
    (c1 : Nat) (xs : List Nat)
    (h0 : 0x21 ≤ d.upper ∧ d.upper ≤ 0x7e) (h1 : 0x21 ≤ c1 ∧ c1 ≤ 0x7e) :
    d.decodeLoop t b i (c1 :: xs) =
      match JNTAJISDecoder.decodePair t { d with upper := 0 } b d.upper c1 (i + 1) with
      | none => none
      | some (b1, some e) => some ⟨{ d with upper := 0 }, b1, some e⟩
      | some (b1, none) => JNTAJISDecoder.decodeLoop t { d with upper := 0 } b1 (i + 1) xs := by
  have hu : d.upper > 0 := by omega
  have h1' : (0x21 : Int) ≤ (c1 : Int) ∧ (c1 : Int) ≤ 0x7e := by omega
  rw [decodeLoop_cons]
  simp only [JNTAJISDecoder.decodeBody, hu, h0, h1', and_self, if_true, if_false]
  rcases hp : JNTAJISDecoder.decodePair t { d with upper := 0 } b d.upper c1 (i + 1)
    with _ | ⟨b1, _ | e⟩ <;> rfl

/-- A carry in range and a next byte out of range: error. -/
theorem decodeLoop_carry_badSecond (t : Tables) (d : JNTAJISDecoder) (b : Bytes) (i : Int)
    (c1 : Nat) (xs : List Nat)
    (h0 : 0x21 ≤ d.upper ∧ d.upper ≤ 0x7e) (h1 : ¬ (0x21 ≤ c1 ∧ c1 ≤ 0x7e)) :
    d.decodeLoop t b i (c1 :: xs) =
      some ⟨{ d with upper := 0 }, [],
        some (DecodeError.unexpectedAfter c1 d.upper (i + 1 - 2))⟩ := by
  have hu : d.upper > 0 := by omega
  have h1' : ¬ ((0x21 : Int) ≤ (c1 : Int) ∧ (c1 : Int) ≤ 0x7e) := by omega
  rw [decodeLoop_cons]
  simp only [JNTAJISDecoder.decodeBody, hu, h0, h1', and_self, if_true, if_false]

/-- A positive carry out of range: a shift byte if `siso`, else an error; no input
byte is consumed. -/
theorem decodeLoop_carry_control (t : Tables) (d : JNTAJISDecoder) (b : Bytes) (i : Int)
    (x : Nat) (xs : List Nat)
    (hu : d.upper > 0) (h0 : ¬ (0x21 ≤ d.upper ∧ d.upper ≤ 0x7e)) :
    d.decodeLoop t b i (x :: xs) =
      if d.upper = 0x0e ∧ d.siso = true then
        JNTAJISDecoder.decodeLoop t { d with upper := 0, shiftOffset := 0 } b i (x :: xs)
      else if d.upper = 0x0f ∧ d.siso = true then
        JNTAJISDecoder.decodeLoop t { d with upper := 0, shiftOffset := 94 * 94 } b i (x :: xs)
      else some ⟨{ d with upper := 0 }, [], some (DecodeError.unexpected d.upper i)⟩ := by
  rw [decodeLoop_cons]
  simp only [JNTAJISDecoder.decodeBody, hu, h0, if_true, if_false]
  split_ifs <;> rfl

/-! ## Decoder: one pair, and the failure conditions -/

theorem txAt_of_lt (t : Tables) (j : Int) (h : 0 ≤ j ∧ j < 17672) :
    t.txAt j = some (t.txMappings j.toNat) := by
  unfold Tables.txAt txMappingsLen
  have h' : 0 ≤ j ∧ j < ((2 * 94 * 94 : Nat) : Int) := by
    constructor
    · exact h.1
    · have := h.2
      norm_num
      exact this
  simp only [h', and_self, if_true]

/-- C9. For a decoder with no carry byte and two bytes `c0`, `c1` in `[0x21, 0x7e]`,
`Decode(b, [c0, c1])` reads the forward cell at index
`shiftOffset + (c0 - 0x21) * 94 + (c1 - 0x21)` (an index of the table, as it is for
both offsets 0 and 8836): a cell that is not `Reserved` gives `b` followed by the
UTF-8 of `rs[0]`, and of `rs[1]` exactly when `rs[1]` is not `InvalidRune`; a
`Reserved` cell gives `b` followed by the UTF-8 of `Replacement` when that is not
`InvalidRune`, and an error otherwise. -/
theorem Decode_pair_spec (t : Tables) (d : JNTAJISDecoder) (b : Bytes) (c0 c1 : Nat)
    (hu : d.upper ≤ 0) (h0 : 0x21 ≤ c0 ∧ c0 ≤ 0x7e) (h1 : 0x21 ≤ c1 ∧ c1 ≤ 0x7e)
    (hidx : 0 ≤ d.shiftOffset + ((c0 : Int) - 0x21) * 94 + ((c1 : Int) - 0x21) ∧
      d.shiftOffset + ((c0 : Int) - 0x21) * 94 + ((c1 : Int) - 0x21) < 17672) :
    d.Decode t b [c0, c1] =
      (if (t.txMappings
            (d.shiftOffset + ((c0 : Int) - 0x21) * 94 + ((c1 : Int) - 0x21)).toNat).class ≠
          JISCharacterClass.Reserved then
        some ⟨d, b ++ encodeRune (t.txMappings
              (d.shiftOffset + ((c0 : Int) - 0x21) * 94 + ((c1 : Int) - 0x21)).toNat).rs.1 ++
            (if (t.txMappings
                (d.shiftOffset + ((c0 : Int) - 0x21) * 94 + ((c1 : Int) - 0x21)).toNat).rs.2 ≠
                InvalidRune then
              encodeRune (t.txMappings
                (d.shiftOffset + ((c0 : Int) - 0x21) * 94 + ((c1 : Int) - 0x21)).toNat).rs.2
             else []), none⟩
      else if d.Replacement ≠ InvalidRune then
        some ⟨d, b ++ encodeRune d.Replacement, none⟩
      else some ⟨d, b, some (DecodeError.inconvertible 0)⟩) := by
  have hu' : ¬ d.upper > 0 := by omega
  unfold JNTAJISDecoder.Decode
  rw [decodeLoop_pair t d b 0 c0 c1 [] hu' h0 h1]
  unfold JNTAJISDecoder.decodePair
  simp only [txAt_of_lt t _ hidx]
  generalize t.txMappings
    (d.shiftOffset + ((c0 : Int) - 0x21) * 94 + ((c1 : Int) - 0x21)).toNat = m
  by_cases hc : m.class = JISCharacterClass.Reserved
  · by_cases hr : d.Replacement = InvalidRune
    · simp [hc, hr, JNTAJISDecoder.appendReplacement]
    · simp [hc, hr, JNTAJISDecoder.appendReplacement, decodeLoop_nil]
  · by_cases h2 : m.rs.2 = InvalidRune
    · simp [hc, h2, decodeLoop_nil]
    · simp [hc, h2, decodeLoop_nil]

/-- C9, at a concrete input: over `exampleTables` the bytes `0x21 0x22` decode to the
UTF-8 of `U+3001`. -/
theorem Decode_pair_spec_witness :
    ((0 : Int) ≤ 0) ∧ (0x21 ≤ 0x21 ∧ 0x21 ≤ 0x7e) ∧ (0x21 ≤ 0x22 ∧ 0x22 ≤ 0x7e) ∧
      JNTAJISDecoder.Decode exampleTables ⟨InvalidRune, false, 0, 0⟩ [] [0x21, 0x22] =
        some ⟨⟨InvalidRune, false, 0, 0⟩, [0xe3, 0x80, 0x81], none⟩ :=
  ⟨by decide, by decide, by decide, by
    rw [Decode_pair_spec exampleTables ⟨InvalidRune, false, 0, 0⟩ [] 0x21 0x22
      (by decide) (by decide) (by decide) (by decide)]
    decide⟩

theorem decodePair_of_replacement (t : Tables) (d : JNTAJISDecoder) (b : Bytes)
    (c0 c1 : Nat) (i : Int) (hr : d.Replacement ≠ InvalidRune)
    (hs : d.shiftOffset = 0 ∨ d.shiftOffset = 8836)
    (h0 : 0x21 ≤ c0 ∧ c0 ≤ 0x7e) (h1 : 0x21 ≤ c1 ∧ c1 ≤ 0x7e) :
    ∃ b1, d.decodePair t b c0 c1 i = some (b1, none) := by
  have hidx : 0 ≤ d.shiftOffset + ((c0 : Int) - 0x21) * 94 + ((c1 : Int) - 0x21) ∧
      d.shiftOffset + ((c0 : Int) - 0x21) * 94 + ((c1 : Int) - 0x21) < 17672 := by
    rcases hs with hs | hs <;> rw [hs] <;> omega
  unfold JNTAJISDecoder.decodePair
  simp only [txAt_of_lt t _ hidx]
  generalize t.txMappings
    (d.shiftOffset + ((c0 : Int) - 0x21) * 94 + ((c1 : Int) - 0x21)).toNat = m
  by_cases hc : m.class = JISCharacterClass.Reserved
  · exact ⟨b ++ encodeRune d.Replacement, by simp [hc, hr, JNTAJISDecoder.appendReplacement]⟩
  · by_cases h2 : m.rs.2 = InvalidRune
    · exact ⟨b ++ encodeRune m.rs.1, by simp [hc, h2]⟩
    · exact ⟨b ++ encodeRune m.rs.1 ++ encodeRune m.rs.2, by simp [hc, h2]⟩

theorem scan_control (siso : Bool) (c0 : Nat) (rest : List Nat)
    (h0 : ¬ (0x21 ≤ c0 ∧ c0 ≤ 0x7e)) :
    scanMeetsBadByte siso (c0 :: rest) =
      if siso = true ∧ (c0 = 0x0e ∨ c0 = 0x0f) then scanMeetsBadByte siso rest else true := by
  rw [scanMeetsBadByte.eq_def]
  simp only [h0, if_false]

theorem scan_pair (siso : Bool) (c0 c1 : Nat) (rest : List Nat)
    (h0 : 0x21 ≤ c0 ∧ c0 ≤ 0x7e) :
    scanMeetsBadByte siso (c0 :: c1 :: rest) =
      if 0x21 ≤ c1 ∧ c1 ≤ 0x7e then scanMeetsBadByte siso rest else true := by
  rw [scanMeetsBadByte.eq_def]
  simp only [h0, and_self, if_true]

theorem scan_lead (siso : Bool) (c0 : Nat) (h0 : 0x21 ≤ c0 ∧ c0 ≤ 0x7e) :
    scanMeetsBadByte siso [c0] = false := by
  rw [scanMeetsBadByte.eq_def]
  simp only [h0, and_self, if_true]

/-- The loop of `Decode`, started without a carry on a valid shift offset and with a
replacement configured, returns; it returns an error exactly when the scan of the
input meets a bad byte. -/
theorem decodeLoop_fails_iff (t : Tables) (n : Nat) :
    ∀ (inp : List Nat), inp.length ≤ n → ∀ (d : JNTAJISDecoder) (b : Bytes) (i : Int),
      ¬ d.upper > 0 → (d.shiftOffset = 0 ∨ d.shiftOffset = 8836) →
      d.Replacement ≠ InvalidRune →
      ∃ r, d.decodeLoop t b i inp = some r ∧
        (r.err.isSome = true ↔ scanMeetsBadByte d.siso inp = true) := by
  induction n with
  | zero =>
    intro inp hlen d b i _ _ _
    have : inp = [] := List.eq_nil_of_length_eq_zero (by omega)
    subst this
    exact ⟨_, decodeLoop_nil t d b i, by simp [scanMeetsBadByte]⟩
  | succ n ih =>
    intro inp hlen d b i hu hs hr
    match inp, hlen with
    | [], _ => exact ⟨_, decodeLoop_nil t d b i, by simp [scanMeetsBadByte]⟩
    | c0 :: rest, hlen =>
      have hrest : rest.length ≤ n := by simp at hlen; omega
      by_cases h0 : 0x21 ≤ c0 ∧ c0 ≤ 0x7e
      · match rest, hrest with
        | [], _ =>
          exact ⟨_, decodeLoop_lead t d b i c0 hu h0, by simp [scan_lead, h0]⟩
        | c1 :: rest1, hrest =>
          have hrest1 : rest1.length ≤ n := by simp at hrest; omega
          by_cases h1 : 0x21 ≤ c1 ∧ c1 ≤ 0x7e
          · obtain ⟨b1, hb1⟩ := decodePair_of_replacement t d b c0 c1 (i + 1 + 1) hr hs h0 h1
            obtain ⟨r, hr1, hr2⟩ := ih rest1 hrest1 d b1 (i + 1 + 1) hu hs hr
            refine ⟨r, ?_, ?_⟩
            · rw [decodeLoop_pair t d b i c0 c1 rest1 hu h0 h1, hb1]
              exact hr1
            · rw [hr2, scan_pair _ _ _ _ h0, if_pos h1]
          · exact ⟨_, decodeLoop_badSecond t d b i c0 c1 rest1 hu h0 h1,
              by rw [scan_pair _ _ _ _ h0, if_neg h1]; simp⟩
      · rw [decodeLoop_control t d b i c0 rest hu h0]
        by_cases he : c0 = 0x0e ∧ d.siso = true
        · obtain ⟨r, hr1, hr2⟩ :=
            ih rest hrest { d with shiftOffset := 0 } b (i + 1) hu (Or.inl rfl) hr
          refine ⟨r, ?_, ?_⟩
          · rw [if_pos he]
            exact hr1
          · rw [hr2, scan_control _ _ _ h0, if_pos ⟨he.2, Or.inl he.1⟩]
        · by_cases hf : c0 = 0x0f ∧ d.siso = true
          · obtain ⟨r, hr1, hr2⟩ :=
              ih rest hrest { d with shiftOffset := 94 * 94 } b (i + 1) hu
                (Or.inr (by norm_num)) hr
            refine ⟨r, ?_, ?_⟩
            · rw [if_neg he, if_pos hf]
              exact hr1
            · rw [hr2, scan_control _ _ _ h0, if_pos ⟨hf.2, Or.inr hf.1⟩]
          · refine ⟨_, by rw [if_neg he, if_neg hf], ?_⟩
            have hno : ¬ (d.siso = true ∧ (c0 = 0x0e ∨ c0 = 0x0f)) := by
              rintro ⟨hsi, h | h⟩
              · exact he ⟨h, hsi⟩
              · exact hf ⟨h, hsi⟩
            rw [scan_control _ _ _ h0, if_neg hno]
            simp

/-- C10. A fresh decoder whose `Replacement` is not `InvalidRune` returns from
`Decode`, and it returns an error exactly when the left-to-right scan of the input
meets, in lead position, a byte outside `[0x21, 0x7e]` that is not an honoured shift
byte, or, as second byte of a pair, a byte outside `[0x21, 0x7e]`.  With `siso = false`
a leading `0x0e` or `0x0f` makes decoding fail; with `siso = true` they produce no
output and set `shiftOffset` to 0 and to 8836. -/
theorem Decode_fails_iff (t : Tables) (repl : Rune) (siso : Bool) (b : Bytes)
    (inp : List Nat) (hr : repl ≠ InvalidRune) :
    (∃ r, JNTAJISDecoder.Decode t ⟨repl, siso, 0, 0⟩ b inp = some r ∧
        (r.err.isSome = true ↔ scanMeetsBadByte siso inp = true)) ∧
      JNTAJISDecoder.Decode t ⟨repl, false, 0, 0⟩ b (0x0e :: inp) =
        some ⟨⟨repl, false, 0, 0⟩, [], some (DecodeError.unexpected 0x0e 1)⟩ ∧
      JNTAJISDecoder.Decode t ⟨repl, false, 0, 0⟩ b (0x0f :: inp) =
        some ⟨⟨repl, false, 0, 0⟩, [], some (DecodeError.unexpected 0x0f 1)⟩ ∧
      JNTAJISDecoder.Decode t ⟨repl, true, 0, 0⟩ b [0x0e] =
        some ⟨⟨repl, true, 0, 0⟩, b, none⟩ ∧
      JNTAJISDecoder.Decode t ⟨repl, true, 0, 0⟩ b [0x0f] =
        some ⟨⟨repl, true, 8836, 0⟩, b, none⟩ := by
  have hz : ∀ (si : Bool), ¬ (JNTAJISDecoder.mk repl si 0 0).upper > 0 := by
    intro si; simp
  refine ⟨?_, ?_, ?_, ?_, ?_⟩
  · exact decodeLoop_fails_iff t inp.length inp (le_refl _) ⟨repl, siso, 0, 0⟩ b 0
      (hz siso) (Or.inl rfl) hr
  · unfold JNTAJISDecoder.Decode
    rw [decodeLoop_control t _ b 0 0x0e inp (hz false) (by decide)]
    simp
  · unfold JNTAJISDecoder.Decode
    rw [decodeLoop_control t _ b 0 0x0f inp (hz false) (by decide)]
    simp
  · unfold JNTAJISDecoder.Decode
    rw [decodeLoop_control t _ b 0 0x0e [] (hz true) (by decide)]
    simp [decodeLoop_nil]
  · unfold JNTAJISDecoder.Decode
    rw [decodeLoop_control t _ b 0 0x0f [] (hz true) (by decide)]
    simp [decodeLoop_nil]

/-- C10, at a concrete input: with a replacement configured and `siso = false` the
input `0x0e 0x21` fails on its first byte, and the scan meets that byte. -/
theorem Decode_fails_iff_witness :
    ((0xfffd : Rune) ≠ InvalidRune) ∧
      JNTAJISDecoder.Decode exampleTables ⟨0xfffd, false, 0, 0⟩ [] [0x0e, 0x21] =
        some ⟨⟨0xfffd, false, 0, 0⟩, [], some (DecodeError.unexpected 0x0e 1)⟩ ∧
      scanMeetsBadByte false [0x0e, 0x21] = true :=
  ⟨by decide,
    (Decode_fails_iff exampleTables 0xfffd false [] [0x21] (by decide)).2.1,
    by decide⟩

/-! ## Decoder: decoding in chunks -/

theorem decodePair_index (t : Tables) (d : JNTAJISDecoder) (b b1 : Bytes) (c0 c1 i i1 : Int)
    (h : d.decodePair t b c0 c1 i = some (b1, none)) :
    d.decodePair t b c0 c1 i1 = some (b1, none) := by
  unfold JNTAJISDecoder.decodePair at h ⊢
  cases hm : t.txAt (d.shiftOffset + (c0 - 0x21) * 94 + (c1 - 0x21)) with
  | none => simp [hm] at h
  | some m =>
    simp only [hm] at h ⊢
    by_cases hc : m.class = JISCharacterClass.Reserved
    · simp only [hc, if_true, JNTAJISDecoder.appendReplacement] at h ⊢
      by_cases hr : d.Replacement = InvalidRune
      · simp [hr] at h
      · simpa [hr] using h
    · simpa [hc] using h

theorem decodePair_upper (t : Tables) (d : JNTAJISDecoder) (b : Bytes) (c0 c1 i u : Int) :
    JNTAJISDecoder.decodePair t { d with upper := u } b c0 c1 i = d.decodePair t b c0 c1 i := by
  unfold JNTAJISDecoder.decodePair JNTAJISDecoder.appendReplacement
  rfl

/-- A successful run of the loop of `Decode` does not depend on the start index, which
only enters the error values. -/
theorem decodeLoop_index (t : Tables) (n : Nat) :
    ∀ (z : List Nat) (d : JNTAJISDecoder) (b : Bytes) (i i1 : Int) (r : DecodeResult),
      2 * z.length + (if d.upper > 0 then 1 else 0) ≤ n →
      d.decodeLoop t b i z = some r → r.err = none → d.decodeLoop t b i1 z = some r := by
  induction n with
  | zero =>
    intro z d b i i1 r hm h _
    have : z = [] := List.eq_nil_of_length_eq_zero (by omega)
    subst this
    rw [decodeLoop_nil] at h ⊢
    exact h
  | succ n ih =>
    intro z d b i i1 r hm h herr
    match z, hm, h with
    | [], _, h =>
      rw [decodeLoop_nil] at h ⊢
      exact h
    | a :: xs, hm, h =>
      simp only [List.length_cons] at hm
      by_cases hu : d.upper > 0
      · simp only [hu, if_true] at hm
        by_cases h0 : 0x21 ≤ d.upper ∧ d.upper ≤ 0x7e
        · by_cases h1 : 0x21 ≤ a ∧ a ≤ 0x7e
          · rw [decodeLoop_carry_pair t d b _ a xs h0 h1] at h ⊢
            rcases hp : JNTAJISDecoder.decodePair t { d with upper := 0 } b d.upper a (i + 1)
              with _ | ⟨b1, _ | e⟩
            · simp [hp] at h
            · rw [hp] at h
              rw [decodePair_index t _ b b1 _ _ _ (i1 + 1) hp]
              exact ih xs _ b1 (i + 1) (i1 + 1) r (by simp; omega) h herr
            · rw [hp] at h
              simp only [Option.some.injEq] at h
              rw [← h] at herr
              simp at herr
          · rw [decodeLoop_carry_badSecond t d b _ a xs h0 h1] at h
            simp only [Option.some.injEq] at h
            rw [← h] at herr
            simp at herr
        · rw [decodeLoop_carry_control t d b _ a xs hu h0] at h ⊢
          by_cases he : d.upper = 0x0e ∧ d.siso = true
          · rw [if_pos he] at h ⊢
            exact ih (a :: xs) _ b i i1 r (by simp; omega) h herr
          · rw [if_neg he] at h ⊢
            by_cases hf : d.upper = 0x0f ∧ d.siso = true
            · rw [if_pos hf] at h ⊢
              exact ih (a :: xs) _ b i i1 r (by simp; omega) h herr
            · rw [if_neg hf] at h
              simp only [Option.some.injEq] at h
              rw [← h] at herr
              simp at herr
      · simp only [hu, if_false] at hm
        by_cases h0 : 0x21 ≤ a ∧ a ≤ 0x7e
        · match xs, hm, h with
          | [], _, h =>
            rw [decodeLoop_lead t d b _ a hu h0] at h ⊢
            exact h
          | c1 :: ys, hm, h =>
            simp only [List.length_cons] at hm
            by_cases h1 : 0x21 ≤ c1 ∧ c1 ≤ 0x7e
            · rw [decodeLoop_pair t d b _ a c1 ys hu h0 h1] at h ⊢
              rcases hp : d.decodePair t b a c1 (i + 1 + 1) with _ | ⟨b1, _ | e⟩
              · simp [hp] at h
              · rw [hp] at h
                rw [decodePair_index t _ b b1 _ _ _ (i1 + 1 + 1) hp]
                exact ih ys _ b1 (i + 1 + 1) (i1 + 1 + 1) r (by simp [hu]; omega) h herr
              · rw [hp] at h
                simp only [Option.some.injEq] at h
                rw [← h] at herr
                simp at herr
            · rw [decodeLoop_badSecond t d b _ a c1 ys hu h0 h1] at h
              simp only [Option.some.injEq] at h
              rw [← h] at herr
              simp at herr
        · rw [decodeLoop_control t d b _ a xs hu h0] at h ⊢
          by_cases he : a = 0x0e ∧ d.siso = true
          · rw [if_pos he] at h ⊢
            exact ih xs _ b (i + 1) (i1 + 1) r (by simp [hu]; omega) h herr
          · rw [if_neg he] at h ⊢
            by_cases hf : a = 0x0f ∧ d.siso = true
            · rw [if_pos hf] at h ⊢
              exact ih xs _ b (i + 1) (i1 + 1) r (by simp [hu]; omega) h herr
            · rw [if_neg hf] at h
              simp only [Option.some.injEq] at h
              rw [← h] at herr
              simp at herr

theorem DecodeSplits.of_fail (t : Tables) (d : JNTAJISDecoder) (b : Bytes) (i : Int)
    (x : List Nat) (res : Option DecodeResult)
    (hres : ∀ r1, res = some r1 → r1.err ≠ none)
    (h : ∀ z, d.decodeLoop t b i (x ++ z) = res) : DecodeSplits t d b i x := by
  have hx : d.decodeLoop t b i x = res := by simpa using h []
  refine Or.inr ⟨?_, ?_⟩
  · intro r1 h1
    exact hres r1 (by rw [← hx]; exact h1)
  · intro y
    rw [h y, hx]

theorem DecodeSplits.transfer (t : Tables) (d d1 : JNTAJISDecoder) (b b1 : Bytes)
    (i i1 : Int) (x x1 : List Nat)
    (h : ∀ z, d.decodeLoop t b i (x ++ z) = d1.decodeLoop t b1 i1 (x1 ++ z))
    (hi : i1 + x1.length = i + x.length)
    (hs : DecodeSplits t d1 b1 i1 x1) : DecodeSplits t d b i x := by
  have hx : d.decodeLoop t b i x = d1.decodeLoop t b1 i1 x1 := by simpa using h []
  rcases hs with ⟨r1, h1, h2, h3, h4⟩ | ⟨h1, h2⟩
  · refine Or.inl ⟨r1, by rw [hx]; exact h1, h2, h3, ?_⟩
    intro y
    rw [h y, h4 y, hi]
  · refine Or.inr ⟨?_, ?_⟩
    · intro r1 hr1
      exact h1 r1 (by rw [← hx]; exact hr1)
    · intro y
      rw [h y, h2 y, hx]

/-- Every run of the loop of `Decode` splits off, see `DecodeSplits`. -/
theorem decodeLoop_splits (t : Tables) (n : Nat) :
    ∀ (x : List Nat) (d : JNTAJISDecoder) (b : Bytes) (i : Int),
      2 * x.length + (if d.upper > 0 then 1 else 0) ≤ n → 0 ≤ d.upper →
      DecodeSplits t d b i x := by
  induction n with
  | zero =>
    intro x d b i hm hd
    have : x = [] := List.eq_nil_of_length_eq_zero (by omega)
    subst this
    exact Or.inl ⟨_, decodeLoop_nil t d b i, rfl, hd, by intro y; simp⟩
  | succ n ih =>
    intro x d b i hm hd
    match x, hm with
    | [], _ => exact Or.inl ⟨_, decodeLoop_nil t d b i, rfl, hd, by intro y; simp⟩
    | a :: xs, hm =>
      simp only [List.length_cons] at hm
      by_cases hu : d.upper > 0
      · simp only [hu, if_true] at hm
        by_cases h0 : 0x21 ≤ d.upper ∧ d.upper ≤ 0x7e
        · by_cases h1 : 0x21 ≤ a ∧ a ≤ 0x7e
          · rcases hp : JNTAJISDecoder.decodePair t { d with upper := 0 } b d.upper a (i + 1)
              with _ | ⟨b1, _ | e⟩
            · apply DecodeSplits.of_fail t d b i (a :: xs) none (by simp)
              intro z
              rw [List.cons_append, decodeLoop_carry_pair t d b _ a _ h0 h1, hp]
            · apply DecodeSplits.transfer t d { d with upper := 0 } b b1 i (i + 1) (a :: xs) xs
              · intro z
                rw [List.cons_append, decodeLoop_carry_pair t d b _ a _ h0 h1, hp]
              · simp only [List.length_cons]; push_cast; ring
              · exact ih xs _ b1 (i + 1) (by simp; omega) (by simp)
            · apply DecodeSplits.of_fail t d b i (a :: xs)
                (some ⟨{ d with upper := 0 }, b1, some e⟩) (by simp)
              intro z
              rw [List.cons_append, decodeLoop_carry_pair t d b _ a _ h0 h1, hp]
          · apply DecodeSplits.of_fail t d b i (a :: xs) _ _
              (fun z => by
                rw [List.cons_append, decodeLoop_carry_badSecond t d b _ a _ h0 h1])
            simp
        · by_cases he : d.upper = 0x0e ∧ d.siso = true
          · apply DecodeSplits.transfer t d { d with upper := 0, shiftOffset := 0 } b b i i
              (a :: xs) (a :: xs)
            · intro z
              rw [List.cons_append, decodeLoop_carry_control t d b _ a _ hu h0, if_pos he]
            · rfl
            · exact ih (a :: xs) _ b i (by simp; omega) (by simp)
          · by_cases hf : d.upper = 0x0f ∧ d.siso = true
            · apply DecodeSplits.transfer t d { d with upper := 0, shiftOffset := 94 * 94 } b b
                i i (a :: xs) (a :: xs)
              · intro z
                rw [List.cons_append, decodeLoop_carry_control t d b _ a _ hu h0, if_neg he,
                  if_pos hf]
              · rfl
              · exact ih (a :: xs) _ b i (by simp; omega) (by simp)
            · apply DecodeSplits.of_fail t d b i (a :: xs) _ _
                (fun z => by
                  rw [List.cons_append, decodeLoop_carry_control t d b _ a _ hu h0, if_neg he,
                    if_neg hf])
              simp
      · simp only [hu, if_false] at hm
        have hz : d.upper = 0 := by omega
        have hd0 : ({ d with upper := 0 } : JNTAJISDecoder) = d := by
          cases d; simp_all
        by_cases h0 : 0x21 ≤ a ∧ a ≤ 0x7e
        · match xs, hm with
          | [], _ =>
            refine Or.inl ⟨_, decodeLoop_lead t d b i a hu h0, rfl, by simp, ?_⟩
            intro y
            have h0' : 0x21 ≤ (JNTAJISDecoder.mk d.Replacement d.siso d.shiftOffset a).upper ∧
                (JNTAJISDecoder.mk d.Replacement d.siso d.shiftOffset a).upper ≤ 0x7e := by
              simp; omega
            match y with
            | [] =>
              simp only [List.append_nil]
              rw [decodeLoop_lead t d b i a hu h0, decodeLoop_nil]
            | c1 :: ys =>
              simp only [List.cons_append, List.nil_append, List.length_cons, List.length_nil]
              by_cases h1 : 0x21 ≤ c1 ∧ c1 ≤ 0x7e
              · rw [decodeLoop_pair t d b _ a c1 ys hu h0 h1,
                  decodeLoop_carry_pair t _ b _ c1 ys h0' h1]
                simp only [hd0, decodePair_upper]
                norm_num
              · rw [decodeLoop_badSecond t d b _ a c1 ys hu h0 h1,
                  decodeLoop_carry_badSecond t _ b _ c1 ys h0' h1]
                simp only [hd0]
                norm_num
          | c1 :: ys, hm =>
            simp only [List.length_cons] at hm
            by_cases h1 : 0x21 ≤ c1 ∧ c1 ≤ 0x7e
            · rcases hp : d.decodePair t b a c1 (i + 1 + 1) with _ | ⟨b1, _ | e⟩
              · apply DecodeSplits.of_fail t d b i (a :: c1 :: ys) none (by simp)
                intro z
                rw [List.cons_append, List.cons_append,
                  decodeLoop_pair t d b _ a c1 _ hu h0 h1, hp]
              · apply DecodeSplits.transfer t d d b b1 i (i + 1 + 1) (a :: c1 :: ys) ys
                · intro z
                  rw [List.cons_append, List.cons_append,
                    decodeLoop_pair t d b _ a c1 _ hu h0 h1, hp]
                · simp only [List.length_cons]; push_cast; ring
                · exact ih ys _ b1 (i + 1 + 1) (by simp [hu]; omega) hd
              · apply DecodeSplits.of_fail t d b i (a :: c1 :: ys)
                  (some ⟨d, b1, some e⟩) (by simp)
                intro z
                rw [List.cons_append, List.cons_append,
                  decodeLoop_pair t d b _ a c1 _ hu h0 h1, hp]
            · apply DecodeSplits.of_fail t d b i (a :: c1 :: ys) _ _
                (fun z => by
                  rw [List.cons_append, List.cons_append,
                    decodeLoop_badSecond t d b _ a c1 _ hu h0 h1])
              simp
        · by_cases he : a = 0x0e ∧ d.siso = true
          · apply DecodeSplits.transfer t d { d with shiftOffset := 0 } b b i (i + 1)
              (a :: xs) xs
            · intro z
              rw [List.cons_append, decodeLoop_control t d b _ a _ hu h0, if_pos he]
            · simp only [List.length_cons]; push_cast; ring
            · exact ih xs _ b (i + 1) (by simp [hu]; omega) (by simp [hz])
          · by_cases hf : a = 0x0f ∧ d.siso = true
            · apply DecodeSplits.transfer t d { d with shiftOffset := 94 * 94 } b b i (i + 1)
                (a :: xs) xs
              · intro z
                rw [List.cons_append, decodeLoop_control t d b _ a _ hu h0, if_neg he,
                  if_pos hf]
              · simp only [List.length_cons]; push_cast; ring
              · exact ih xs _ b (i + 1) (by simp [hu]; omega) (by simp [hz])
            · apply DecodeSplits.of_fail t d b i (a :: xs) _ _
                (fun z => by
                  rw [List.cons_append, decodeLoop_control t d b _ a _ hu h0, if_neg he,
                    if_neg hf])
              simp

/-- The bytes `0x21 0x22` decode, over `exampleTables`, to the UTF-8 of `U+3001`. -/
theorem Decode_example :
    JNTAJISDecoder.Decode exampleTables ⟨InvalidRune, false, 0, 0⟩ [] [0x21, 0x22] =
      some ⟨⟨InvalidRune, false, 0, 0⟩, [0xe3, 0x80, 0x81], none⟩ := by
  unfold JNTAJISDecoder.Decode
  rw [decodeLoop_pair exampleTables _ [] 0 0x21 0x22 [] (by decide) (by decide) (by decide)]
  have hp : JNTAJISDecoder.decodePair exampleTables ⟨InvalidRune, false, 0, 0⟩ []
      ((0x21 : Nat) : Int) ((0x22 : Nat) : Int) (0 + 1 + 1) = some ([0xe3, 0x80, 0x81], none) := by
    decide
  rw [hp]
  exact decodeLoop_nil _ _ _ _

/-- C2. Chunked decoding equals one-shot decoding.  For every decoder state (the carry
`upper` being 0 when absent), buffer `b` and inputs `x`, `y`: if `Decode(b, x ++ y)`
succeeds with result `r`, then `Decode(b, x)` succeeds, and `Decode` of `y` on the
decoder and buffer it leaves succeeds with the same buffer and the same decoder state
as `r`.  A lead byte in `[0x21, 0x7e]` that ends `x` in lead position is returned
without error and without output, it is held in `upper`, and the next call looks up
the pair it forms with the first byte of its input. -/
theorem Decode_chunked (t : Tables) (d : JNTAJISDecoder) (b : Bytes) (x y : List Nat)
    (r : DecodeResult) (hd : 0 ≤ d.upper)
    (h : d.Decode t b (x ++ y) = some r) (hok : r.err = none) :
    (∃ r1, d.Decode t b x = some r1 ∧ r1.err = none ∧ r1.d.Decode t r1.b y = some r) ∧
      (∀ (x0 : List Nat) (c0 : Nat) (r0 : DecodeResult), x = x0 ++ [c0] →
        (0x21 ≤ c0 ∧ c0 ≤ 0x7e) → d.Decode t b x0 = some r0 → r0.err = none →
        r0.d.upper = 0 →
        d.Decode t b x = some ⟨{ r0.d with upper := (c0 : Int) }, r0.b, none⟩) ∧
      (∀ (d1 : JNTAJISDecoder) (b1 : Bytes) (c1 : Nat) (ys : List Nat),
        (0x21 ≤ d1.upper ∧ d1.upper ≤ 0x7e) → (0x21 ≤ c1 ∧ c1 ≤ 0x7e) →
        d1.Decode t b1 (c1 :: ys) =
          match JNTAJISDecoder.decodePair t { d1 with upper := 0 } b1 d1.upper c1 1 with
          | none => none
          | some (b2, some e) => some ⟨{ d1 with upper := 0 }, b2, some e⟩
          | some (b2, none) => JNTAJISDecoder.decodeLoop t { d1 with upper := 0 } b2 1 ys) := by
  refine ⟨?_, ?_, ?_⟩
  · unfold JNTAJISDecoder.Decode at h ⊢
    rcases decodeLoop_splits t _ x d b 0 (le_refl _) hd with ⟨r1, h1, h2, _, h4⟩ | ⟨h1, h2⟩
    · refine ⟨r1, h1, h2, ?_⟩
      rw [h4 y] at h
      exact decodeLoop_index t _ y r1.d r1.b _ 0 r (le_refl _) h hok
    · rw [h2 y] at h
      exact absurd hok (h1 r h)
  · intro x0 c0 r0 hx h0 hx0 hr0 hu0
    unfold JNTAJISDecoder.Decode at hx0 ⊢
    subst hx
    rcases decodeLoop_splits t _ x0 d b 0 (le_refl _) hd with ⟨r1, h1, _, _, h4⟩ | ⟨h1, _⟩
    · rw [hx0] at h1
      simp only [Option.some.injEq] at h1
      subst h1
      rw [h4 [c0], decodeLoop_lead t r0.d r0.b _ c0 (by omega) h0]
    · exact absurd hr0 (h1 r0 hx0)
  · intro d1 b1 c1 ys h0 h1
    unfold JNTAJISDecoder.Decode
    rw [decodeLoop_carry_pair t d1 b1 0 c1 ys h0 h1]
    norm_num

/-- C2, at a concrete input: the bytes `0x21 0x22`, fed as `[0x21]` then `[0x22]`. -/
theorem Decode_chunked_witness :
    (0 : Int) ≤ 0 ∧
      JNTAJISDecoder.Decode exampleTables ⟨InvalidRune, false, 0, 0⟩ [] ([0x21] ++ [0x22]) =
        some ⟨⟨InvalidRune, false, 0, 0⟩, [0xe3, 0x80, 0x81], none⟩ ∧
      (∃ r1, JNTAJISDecoder.Decode exampleTables ⟨InvalidRune, false, 0, 0⟩ [] [0x21] = some r1 ∧
        r1.err = none ∧
        r1.d.Decode exampleTables r1.b [0x22] =
          some ⟨⟨InvalidRune, false, 0, 0⟩, [0xe3, 0x80, 0x81], none⟩) :=
  ⟨by decide, Decode_example,
    (Decode_chunked exampleTables ⟨InvalidRune, false, 0, 0⟩ [] [0x21] [0x22]
      ⟨⟨InvalidRune, false, 0, 0⟩, [0xe3, 0x80, 0x81], none⟩ (by decide) Decode_example rfl).1⟩

/-! ## The SISO wire format read back by the decoder -/

theorem wirePair_range (j : Nat) :
    (0x21 ≤ 0x21 + j / 94 % 94 ∧ 0x21 + j / 94 % 94 ≤ 0x7e) ∧
      (0x21 ≤ 0x21 + j % 94 ∧ 0x21 + j % 94 ≤ 0x7e) := by
  omega

/-- A decoder on plane `j / 8836` reads the pair of the code `j` as the cell `j`. -/
theorem decodeLoop_wirePair (t : Tables) (repl : Rune) (si : Bool) (j : Nat) (bo : Bytes)
    (i : Int) (tail : List Nat) (hj : j < 17672)
    (hc : (t.txMappings j).class ≠ JISCharacterClass.Reserved) :
    JNTAJISDecoder.decodeLoop t ⟨repl, si, 8836 * ((j / 8836 : Nat) : Int), 0⟩ bo i
        (wirePair j ++ tail) =
      JNTAJISDecoder.decodeLoop t ⟨repl, si, 8836 * ((j / 8836 : Nat) : Int), 0⟩
        (bo ++ cellUTF8 (t.txMappings j)) (i + 1 + 1) tail := by
  have hr := wirePair_range j
  unfold wirePair
  simp only [List.cons_append, List.nil_append]
  rw [decodeLoop_pair t _ bo i _ _ tail (by simp) hr.1 hr.2]
  have hidx : (8836 * ((j / 8836 : Nat) : Int) + (((0x21 + j / 94 % 94 : Nat) : Int) - 0x21) * 94 +
      (((0x21 + j % 94 : Nat) : Int) - 0x21)) = (j : Int) := by
    push_cast
    omega
  have hp : JNTAJISDecoder.decodePair t ⟨repl, si, 8836 * ((j / 8836 : Nat) : Int), 0⟩ bo
      ((0x21 + j / 94 % 94 : Nat) : Int) ((0x21 + j % 94 : Nat) : Int) (i + 1 + 1) =
      some (bo ++ cellUTF8 (t.txMappings j), none) := by
    unfold JNTAJISDecoder.decodePair
    simp only [hidx]
    rw [txAt_of_lt t (j : Int) (by omega)]
    simp only [Int.toNat_ofNat, hc, if_false, cellUTF8]
    by_cases h2 : (t.txMappings j).rs.2 = InvalidRune
    · simp [h2]
    · simp [h2]
  rw [hp]

/-- One step of the SISO writer, and how the decoder reads what it appended. -/
theorem putJISSISO_decoded (t : Tables) (repl : Rune) (s : Int) (j : Nat)
    (hs : s = 0 ∨ s = 1) (hj : j < 17672)
    (hc : (t.txMappings j).class ≠ JISCharacterClass.Reserved) :
    ∃ w : Bytes, (∀ b, putJISSISO s b j = some (((j / 8836 : Nat) : Int), b ++ w, true)) ∧
      ∀ (bo : Bytes) (i : Int) (tail : List Nat), ∃ i1,
        JNTAJISDecoder.decodeLoop t ⟨repl, true, 8836 * s, 0⟩ bo i (w ++ tail) =
          JNTAJISDecoder.decodeLoop t ⟨repl, true, 8836 * ((j / 8836 : Nat) : Int), 0⟩
            (bo ++ cellUTF8 (t.txMappings j)) i1 tail := by
  have hp : j / 8836 = 0 ∨ j / 8836 = 1 := by omega
  have e : (94 * 94 : Nat) = 8836 := by norm_num
  have hctl : ∀ c : Nat, c = 0x0e ∨ c = 0x0f → ¬ (0x21 ≤ c ∧ c ≤ 0x7e) := by
    intro c hc; omega
  rcases hp with hp | hp <;> rcases hs with hs | hs
  · -- plane 1, no shift
    refine ⟨wirePair j, ?_, ?_⟩
    · intro b
      unfold putJISSISO putShift
      simp [e, hp, hs, kuTenBytes_eq_wirePair]
    · intro bo i tail
      refine ⟨i + 1 + 1, ?_⟩
      have := decodeLoop_wirePair t repl true j bo i tail hj hc
      rw [hp] at this
      rw [hs, hp]
      exact this
  · -- back to plane 1
    refine ⟨0x0e :: wirePair j, ?_, ?_⟩
    · intro b
      unfold putJISSISO putShift
      simp [e, hp, hs, kuTenBytes_eq_wirePair]
    · intro bo i tail
      refine ⟨i + 1 + 1 + 1, ?_⟩
      have := decodeLoop_wirePair t repl true j bo (i + 1) tail hj hc
      rw [hp] at this
      rw [hs, hp, List.cons_append,
        decodeLoop_control t _ bo i 0x0e _ (by simp) (hctl _ (Or.inl rfl))]
      simp only [and_self, if_true]
      exact this
  · -- to plane 2
    refine ⟨0x0f :: wirePair j, ?_, ?_⟩
    · intro b
      unfold putJISSISO putShift
      simp [e, hp, hs, kuTenBytes_eq_wirePair]
    · intro bo i tail
      refine ⟨i + 1 + 1 + 1, ?_⟩
      have := decodeLoop_wirePair t repl true j bo (i + 1) tail hj hc
      rw [hp] at this
      rw [hs, hp, List.cons_append,
        decodeLoop_control t _ bo i 0x0f _ (by simp) (hctl _ (Or.inr rfl))]
      simp only [and_self, if_true]
      norm_num at this ⊢
      exact this
  · -- plane 2, no shift
    refine ⟨wirePair j, ?_, ?_⟩
    · intro b
      unfold putJISSISO putShift
      simp [e, hp, hs, kuTenBytes_eq_wirePair]
    · intro bo i tail
      refine ⟨i + 1 + 1, ?_⟩
      have := decodeLoop_wirePair t repl true j bo i tail hj hc
      rw [hp] at this
      rw [hs, hp]
      exact this

/-- The SISO writer over a list of codes, and how the decoder reads what it appended. -/
theorem putJISSISOAll_decoded (t : Tables) (repl : Rune) :
    ∀ (codes : List Nat) (s : Int) (b : Bytes), (s = 0 ∨ s = 1) →
      (∀ j ∈ codes, j < 17672 ∧ (t.txMappings j).class ≠ JISCharacterClass.Reserved) →
      ∃ (s1 : Int) (w : Bytes), (s1 = 0 ∨ s1 = 1) ∧
        putJISSISOAll s b codes = some (s1, b ++ w) ∧
        ∀ (bo : Bytes) (i : Int) (tail : List Nat), ∃ i1,
          JNTAJISDecoder.decodeLoop t ⟨repl, true, 8836 * s, 0⟩ bo i (w ++ tail) =
            JNTAJISDecoder.decodeLoop t ⟨repl, true, 8836 * s1, 0⟩
              (bo ++ codes.flatMap (fun j => cellUTF8 (t.txMappings j))) i1 tail := by
  intro codes
  induction codes with
  | nil =>
    intro s b hs _
    exact ⟨s, [], hs, by simp [putJISSISOAll], fun bo i tail => ⟨i, by simp⟩⟩
  | cons j rest ih =>
    intro s b hs hall
    have hj := hall j (List.mem_cons_self j rest)
    have hrest : ∀ k ∈ rest, k < 17672 ∧
        (t.txMappings k).class ≠ JISCharacterClass.Reserved :=
      fun k hk => hall k (List.mem_cons_of_mem j hk)
    obtain ⟨w, hw1, hw2⟩ := putJISSISO_decoded t repl s j hs hj.1 hj.2
    have hp : ((j / 8836 : Nat) : Int) = 0 ∨ ((j / 8836 : Nat) : Int) = 1 := by
      have := hj.1
      omega
    obtain ⟨s1, w1, hs1, hput, hdec⟩ := ih ((j / 8836 : Nat) : Int) (b ++ w) hp hrest
    refine ⟨s1, w ++ w1, hs1, ?_, ?_⟩
    · simp only [putJISSISOAll, hw1 b, hput, List.append_assoc]
    · intro bo i tail
      obtain ⟨i1, h1⟩ := hw2 bo i (w1 ++ tail)
      obtain ⟨i2, h2⟩ := hdec (bo ++ cellUTF8 (t.txMappings j)) i1 tail
      refine ⟨i2, ?_⟩
      rw [List.append_assoc, h1, h2]
      simp only [List.flatMap_cons, List.append_assoc]

/-- C3. SISO wire round trip.  For every list of codes below 17672 whose forward cells
are not `Reserved`: the SISO writer applied to each code in order from
`shiftState = 0`, followed by `Flush`, succeeds, and a fresh decoder with
`siso = true` decodes the bytes without error into the concatenation, in order, of the
UTF-8 of each cell's `rs`, and ends with `shiftOffset = 0` and no carry byte. -/
theorem siso_round_trip (t : Tables) (replacement : Nat) (repl : Rune) (codes : List Nat)
    (h : ∀ j ∈ codes, j < 17672 ∧ (t.txMappings j).class ≠ JISCharacterClass.Reserved) :
    ∃ (s : Int) (b : Bytes) (e1 : JNTAJISIncrementalEncoder) (out : Bytes),
      putJISSISOAll 0 [] codes = some (s, b) ∧
      JNTAJISIncrementalEncoder.Flush t ⟨replacement, putJISSISO, [], s, 0⟩ b =
        some ⟨e1, out, none⟩ ∧
      e1.shiftState = 0 ∧
      JNTAJISDecoder.Decode t ⟨repl, true, 0, 0⟩ [] out =
        some ⟨⟨repl, true, 0, 0⟩,
          codes.flatMap (fun j => cellUTF8 (t.txMappings j)), none⟩ := by
  obtain ⟨s1, w, hs1, hput, hdec⟩ :=
    putJISSISOAll_decoded t repl codes 0 [] (Or.inl rfl) h
  simp only [List.nil_append] at hput
  have hctl : ¬ (0x21 ≤ (0x0e : Nat) ∧ (0x0e : Nat) ≤ 0x7e) := by decide
  rcases hs1 with hs1 | hs1
  · subst hs1
    refine ⟨0, w, ⟨replacement, putJISSISO, [], 0, 0⟩, w, hput, ?_, rfl, ?_⟩
    · simp [JNTAJISIncrementalEncoder.Flush, JNTAJISIncrementalEncoder.flushLookahead,
        JNTAJISIncrementalEncoder.flushLoop, putShift]
    · obtain ⟨i1, h1⟩ := hdec [] 0 []
      simp only [List.append_nil, List.nil_append, mul_zero] at h1
      unfold JNTAJISDecoder.Decode
      rw [h1, decodeLoop_nil]
  · subst hs1
    refine ⟨1, w, ⟨replacement, putJISSISO, [], 0, 0⟩, w ++ [0x0e], hput, ?_, rfl, ?_⟩
    · simp [JNTAJISIncrementalEncoder.Flush, JNTAJISIncrementalEncoder.flushLookahead,
        JNTAJISIncrementalEncoder.flushLoop, putShift]
    · obtain ⟨i1, h1⟩ := hdec [] 0 [0x0e]
      simp only [List.nil_append, mul_zero] at h1
      unfold JNTAJISDecoder.Decode
      rw [h1, decodeLoop_control t _ _ i1 0x0e [] (by simp) hctl]
      simp [decodeLoop_nil]

/-- C3, at a concrete input: the codes 0, 8836 and 1 of `exampleTables`. -/
theorem siso_round_trip_witness :
    (∀ j ∈ [0, 8836, 1], j < 17672 ∧
        (exampleTables.txMappings j).class ≠ JISCharacterClass.Reserved) ∧
      ∃ (s : Int) (b : Bytes) (e1 : JNTAJISIncrementalEncoder) (out : Bytes),
        putJISSISOAll 0 [] [0, 8836, 1] = some (s, b) ∧
        JNTAJISIncrementalEncoder.Flush exampleTables ⟨InvalidJISCode, putJISSISO, [], s, 0⟩ b =
          some ⟨e1, out, none⟩ ∧
        e1.shiftState = 0 ∧
        JNTAJISDecoder.Decode exampleTables ⟨InvalidRune, true, 0, 0⟩ [] out =
          some ⟨⟨InvalidRune, true, 0, 0⟩,
            [0, 8836, 1].flatMap (fun j => cellUTF8 (exampleTables.txMappings j)), none⟩ :=
  ⟨by decide,
    siso_round_trip exampleTables InvalidJISCode InvalidRune [0, 8836, 1] (by decide)⟩

/-! ## The incremental encoder against the batch encoder -/

theorem flushOne_liftPut (t : Tables) (e : JNTAJISIncrementalEncoder) (put : PutFunc)
    (he : e.putJIS = liftPut put) (b : Bytes) (r : Rune) :
    e.flushOne t b r =
      (JNTAJISEncoder.flushOne t ⟨e.Replacement, put⟩ b r).map (fun p => ⟨e, p.1, p.2⟩) := by
  unfold JNTAJISIncrementalEncoder.flushOne JNTAJISEncoder.flushOne
  rcases lookupRevTable t.runeRangeToJISMappings r with _ | ⟨jis, ok⟩
  · rfl
  · cases ok
    · simp only [Bool.false_eq_true, if_false, Bool.not_false, if_true]
      rcases appendReplacement b r e.Replacement with _ | ⟨b2, err⟩ <;> rfl
    · have hp : e.putJIS e.shiftState b jis = liftPut put e.shiftState b jis := by rw [he]
      simp only [if_true, hp, liftPut]
      rcases put b jis with _ | ⟨b1, ok1⟩
      · rfl
      · cases ok1
        · simp only [Bool.not_false, if_true]
          rcases appendReplacement b1 r e.Replacement with _ | ⟨b2, err⟩ <;> rfl
        · rfl

theorem flushLoop_liftPut (t : Tables) (e : JNTAJISIncrementalEncoder) (put : PutFunc)
    (he : e.putJIS = liftPut put) (rs : List Rune) :
    ∀ b, e.flushLoop t b rs =
      (JNTAJISEncoder.flushLoop t ⟨e.Replacement, put⟩ b rs).map (fun p => ⟨e, p.1, p.2⟩) := by
  induction rs with
  | nil => intro b; rfl
  | cons r rs ih =>
    intro b
    unfold JNTAJISIncrementalEncoder.flushLoop JNTAJISEncoder.flushLoop
    rw [flushOne_liftPut t e put he]
    rcases JNTAJISEncoder.flushOne t ⟨e.Replacement, put⟩ b r with _ | ⟨b1, _ | err⟩
    · rfl
    · simp only [Option.map_some']
      exact ih b1
    · rfl

theorem flushLookahead_liftPut (t : Tables) (e : JNTAJISIncrementalEncoder) (put : PutFunc)
    (he : e.putJIS = liftPut put) (b : Bytes) :
    e.flushLookahead t b =
      match JNTAJISEncoder.flushLoop t ⟨e.Replacement, put⟩ b e.lookahead with
      | none => none
      | some (b1, some err) => some ⟨e, b1, some err⟩
      | some (b1, none) => some ⟨{ e with state := 0, lookahead := [] }, b1, none⟩ := by
  unfold JNTAJISIncrementalEncoder.flushLookahead
  rw [flushLoop_liftPut t e put he]
  rcases JNTAJISEncoder.flushLoop t ⟨e.Replacement, put⟩ b e.lookahead with _ | ⟨b1, _ | err⟩ <;>
    rfl

/-- One pass of the loop of `Encode` is one pass of the main loop of the batch encoder
on the same automaton state, lookahead and buffer. -/
theorem encodeStep_liftPut (t : Tables) (e : JNTAJISIncrementalEncoder) (put : PutFunc)
    (he : e.putJIS = liftPut put) (b : Bytes) (r : Rune) :
    e.encodeStep t b r =
      (JNTAJISEncoder.encodeStep t ⟨e.Replacement, put⟩ ⟨e.state, e.lookahead, b⟩ r).map
        e.withBatch := by
  unfold JNTAJISIncrementalEncoder.encodeStep JNTAJISEncoder.encodeStep
  simp only []
  generalize smRuneToJISMapping t.runePairsToJisMappings e.state r = sj
  obtain ⟨s, jis⟩ := sj
  by_cases h1 : s = -1
  · have hp : e.putJIS e.shiftState b jis = liftPut put e.shiftState b jis := by rw [he]
    simp only [h1, if_true, hp, liftPut]
    rcases put b jis with _ | ⟨b1, ok⟩
    · rfl
    · cases ok
      · simp only [Bool.not_false, if_true]
        rcases appendReplacement b1 r e.Replacement with _ | ⟨b2, _ | err⟩
        · rfl
        · simp [JNTAJISIncrementalEncoder.flushLookahead,
            JNTAJISIncrementalEncoder.flushLoop, JNTAJISEncoder.flushLoop,
            JNTAJISIncrementalEncoder.withBatch]
        · rfl
      · simp [JNTAJISIncrementalEncoder.flushLookahead,
          JNTAJISIncrementalEncoder.flushLoop, JNTAJISEncoder.flushLoop,
          JNTAJISIncrementalEncoder.withBatch]
  · by_cases h0 : s = 0
    · subst h0
      simp only [h1, if_false, if_true]
      rw [flushLookahead_liftPut t
        ⟨e.Replacement, e.putJIS, e.lookahead ++ [r], e.shiftState, 0⟩ put he]
      simp only []
      rcases JNTAJISEncoder.flushLoop t ⟨e.Replacement, put⟩ b (e.lookahead ++ [r])
        with _ | ⟨b1, _ | err⟩ <;> rfl
    · simp only [h1, h0, if_false]
      rfl

/-- A call of `Encode` is a run of the main loop of the batch encoder from the
automaton state, the lookahead and the buffer the call starts with. -/
theorem Encode_liftPut (t : Tables) (put : PutFunc) (m : List Rune) :
    ∀ (e : JNTAJISIncrementalEncoder) (b : Bytes), e.putJIS = liftPut put →
      e.Encode t b m =
        (JNTAJISEncoder.encodeLoop t ⟨e.Replacement, put⟩ ⟨e.state, e.lookahead, b⟩ m).map
          e.withBatch := by
  induction m with
  | nil => intro e b _; rfl
  | cons r m ih =>
    intro e b he
    unfold JNTAJISIncrementalEncoder.Encode JNTAJISEncoder.encodeLoop
    rw [encodeStep_liftPut t e put he]
    rcases JNTAJISEncoder.encodeStep t ⟨e.Replacement, put⟩ ⟨e.state, e.lookahead, b⟩ r
      with _ | ⟨st1, _ | err⟩
    · rfl
    · simp only [Option.map_some', JNTAJISIncrementalEncoder.withBatch]
      rw [ih ⟨e.Replacement, e.putJIS, st1.rb, e.shiftState, st1.s⟩ st1.b he]
      rfl
    · rfl

theorem encodeLoop_append (t : Tables) (e : JNTAJISEncoder) (m1 m2 : List Rune) :
    ∀ st, e.encodeLoop t st (m1 ++ m2) =
      match e.encodeLoop t st m1 with
      | none => none
      | some (st1, some err) => some (st1, some err)
      | some (st1, none) => e.encodeLoop t st1 m2 := by
  induction m1 with
  | nil => intro st; rfl
  | cons r m1 ih =>
    intro st
    simp only [List.cons_append, JNTAJISEncoder.encodeLoop]
    rcases e.encodeStep t st r with _ | ⟨st1, _ | err⟩
    · rfl
    · exact ih st1
    · rfl

/-- Feeding chunks to `Encode` is a run of the main loop of the batch encoder over
their concatenation. -/
theorem encodeChunks_liftPut (t : Tables) (put : PutFunc) (chunks : List (List Rune)) :
    ∀ (e : JNTAJISIncrementalEncoder) (b : Bytes), e.putJIS = liftPut put →
      encodeChunks t e b chunks =
        (JNTAJISEncoder.encodeLoop t ⟨e.Replacement, put⟩ ⟨e.state, e.lookahead, b⟩
          chunks.flatten).map e.withBatch := by
  induction chunks with
  | nil => intro e b _; rfl
  | cons c cs ih =>
    intro e b he
    simp only [encodeChunks, List.flatten_cons]
    rw [Encode_liftPut t put c e b he, encodeLoop_append]
    rcases JNTAJISEncoder.encodeLoop t ⟨e.Replacement, put⟩ ⟨e.state, e.lookahead, b⟩ c
      with _ | ⟨st1, _ | err⟩
    · rfl
    · simp only [Option.map_some', JNTAJISIncrementalEncoder.withBatch]
      rw [ih ⟨e.Replacement, e.putJIS, st1.rb, e.shiftState, st1.s⟩ st1.b he]
      rfl
    · rfl

/-- C1. Incremental encoding equals batch encoding.  For every mode other than SISO
(that is Men1, JISX0208 or Translit), every replacement value and every way of cutting
an input into chunks, feeding the chunks to a fresh incremental encoder and then
calling `Flush` returns what `EncodeAsJISX0213Men1` of a fresh batch encoder returns
for the whole input: the same bytes, an error in the one exactly when there is an
error in the other (and then the same error), and a panic in the one exactly when the
other panics. -/
theorem incrementalEncode_eq_batchEncode (t : Tables) (mode : ConversionMode)
    (replacement : Nat) (chunks : List (List Rune))
    (hmode : mode ≠ ConversionMode.ConversionModeSISO) :
    incrementalEncode t mode replacement chunks =
      batchEncode t mode replacement chunks.flatten := by
  unfold incrementalEncode batchEncode NewJNTAJISIncrementalEncoder NewJNTAJISEncoder
  simp only [hmode, if_false]
  rcases hput : putFuncForConversionMode t mode with _ | put
  · rfl
  · simp only []
    rw [encodeChunks_liftPut t put chunks ⟨replacement, liftPut put, [], 0, 0⟩ [] rfl]
    unfold JNTAJISEncoder.EncodeAsJISX0213Men1
    simp only []
    rcases JNTAJISEncoder.encodeLoop t ⟨replacement, put⟩ ⟨0, [], []⟩ chunks.flatten
      with _ | ⟨st1, _ | err⟩
    · rfl
    · simp only [Option.map_some', JNTAJISIncrementalEncoder.withBatch,
        JNTAJISIncrementalEncoder.Flush]
      rw [flushLookahead_liftPut t ⟨replacement, liftPut put, st1.rb, 0, st1.s⟩ put rfl]
      simp only []
      rcases JNTAJISEncoder.flushLoop t ⟨replacement, put⟩ st1.b st1.rb
        with _ | ⟨b1, _ | err⟩
      · rfl
      · simp [putShift]
      · rfl
    · rfl

/-! ## Men1 round trip -/

theorem lookupRevLoop_eq (tbl : List runeRangeToJISMapping) (r : Rune) (s e : Nat) :
    lookupRevLoop tbl r s e =
      if h : s < e ∧ e ≤ tbl.length then
        if r < (tbl.get ⟨(s + e) / 2, by omega⟩).start then lookupRevLoop tbl r s ((s + e) / 2)
        else if r > (tbl.get ⟨(s + e) / 2, by omega⟩).end then
          lookupRevLoop tbl r ((s + e) / 2 + 1) e
        else
          if int32 (r - (tbl.get ⟨(s + e) / 2, by omega⟩).start) ≥
              (tbl.get ⟨(s + e) / 2, by omega⟩).jis.length then some (0, false)
          else if int32 (r - (tbl.get ⟨(s + e) / 2, by omega⟩).start) < 0 then none
          else
            match (tbl.get ⟨(s + e) / 2, by omega⟩).jis.get?
                (int32 (r - (tbl.get ⟨(s + e) / 2, by omega⟩).start)).toNat with
            | none => none
            | some jis => if jis = InvalidJISCode then some (0, false) else some (jis, true)
      else some (0, false) := by
  rw [lookupRevLoop]

theorem smCase0_nonneg (rpm : List outer) (r : Rune) : 0 ≤ (smCase0 rpm r).1 := by
  unfold smCase0
  split
  · split
    · simp
    · split
      · simp only []; omega
      · simp
  · simp

theorem flushLoop_single_men1 (t : Tables) (replacement : Nat) (r : Rune) (jis : Nat)
    (b : Bytes) (hj : jis < 8836)
    (hl : lookupRevTable t.runeRangeToJISMappings r = some (jis, true)) :
    JNTAJISEncoder.flushLoop t ⟨replacement, fun b c => some (putJISMen1 b c)⟩ b [r] =
      some (b ++ [0x21 + jis / 94, 0x21 + jis % 94], none) := by
  have hw : wirePair jis = [0x21 + jis / 94, 0x21 + jis % 94] := by
    unfold wirePair
    have : jis / 94 % 94 = jis / 94 := by omega
    rw [this]
  simp [JNTAJISEncoder.flushLoop, JNTAJISEncoder.flushOne, hl, putJISMen1_eq, hj, hw]

/-- C4. Men1 encode/decode round trip.  For every forward cell `c` that is not
`Reserved`, is stored at index `c.jis` and has `c.jis < 8836`, and that the reverse
engine maps back to `c.jis` (by `lookupRevTable` on `rs[0]` for a single scalar, by
the pair automaton on `rs[0]`, `rs[1]` for a pair): the batch encoder in Men1 mode
with `Replacement = InvalidJISCode` encodes the scalars of `c.rs` without error to
the two bytes `0x21 + c.jis / 94`, `0x21 + c.jis mod 94`, and a fresh decoder with
`siso = false` decodes these bytes to the UTF-8 of `c.rs`. -/
theorem men1_round_trip (t : Tables) (c : shrinkingTransliterationMapping) (repl : Rune)
    (hcell : t.txMappings c.jis = c) (hj : c.jis < 8836)
    (hc : c.class ≠ JISCharacterClass.Reserved)
    (hrev : (c.rs.2 = InvalidRune ∧
          lookupRevTable t.runeRangeToJISMappings c.rs.1 = some (c.jis, true)) ∨
        (c.rs.2 ≠ InvalidRune ∧
          smRuneToJISMapping t.runePairsToJisMappings
            (smRuneToJISMapping t.runePairsToJisMappings 0 c.rs.1).1 c.rs.2 = (-1, c.jis))) :
    batchEncode t ConversionMode.ConversionModeMen1 InvalidJISCode (cellRunes c) =
        some ([0x21 + c.jis / 94, 0x21 + c.jis % 94], none) ∧
      JNTAJISDecoder.Decode t ⟨repl, false, 0, 0⟩ [] [0x21 + c.jis / 94, 0x21 + c.jis % 94] =
        some ⟨⟨repl, false, 0, 0⟩, cellUTF8 c, none⟩ := by
  have hw : wirePair c.jis = [0x21 + c.jis / 94, 0x21 + c.jis % 94] := by
    unfold wirePair
    have : c.jis / 94 % 94 = c.jis / 94 := by omega
    rw [this]
  constructor
  · unfold batchEncode NewJNTAJISEncoder putFuncForConversionMode
    simp only []
    unfold JNTAJISEncoder.EncodeAsJISX0213Men1
    rcases hrev with ⟨h2, hl⟩ | ⟨h2, hsm⟩
    · -- a single scalar
      have hfl := flushLoop_single_men1 t InvalidJISCode c.rs.1 c.jis [] hj hl
      simp only [List.nil_append] at hfl
      have h0 := smCase0_nonneg t.runePairsToJisMappings c.rs.1
      simp only [cellRunes, h2, if_true, JNTAJISEncoder.encodeLoop, JNTAJISEncoder.encodeStep,
        smRuneToJISMapping, List.nil_append]
      have hne : ¬ (smCase0 t.runePairsToJisMappings c.rs.1).1 = -1 := by omega
      simp only [hne, if_false]
      by_cases hz : (smCase0 t.runePairsToJisMappings c.rs.1).1 = 0
      · simp only [hz, if_true, hfl]
        rfl
      · simp only [hz, if_false, hfl]
    · -- a pair
      have h0 := smCase0_nonneg t.runePairsToJisMappings c.rs.1
      have hk : smRuneToJISMapping t.runePairsToJisMappings 0 c.rs.1 =
          smCase0 t.runePairsToJisMappings c.rs.1 := by
        simp [smRuneToJISMapping]
      rw [hk] at hsm
      have hne : ¬ (smCase0 t.runePairsToJisMappings c.rs.1).1 = -1 := by omega
      have hz : ¬ (smCase0 t.runePairsToJisMappings c.rs.1).1 = 0 := by
        intro hz
        rw [hz] at hsm
        have h1 := smCase0_nonneg t.runePairsToJisMappings c.rs.2
        have : (smRuneToJISMapping t.runePairsToJisMappings 0 c.rs.2).1 = -1 := by rw [hsm]
        simp [smRuneToJISMapping] at this
        omega
      simp only [cellRunes, h2, if_false, JNTAJISEncoder.encodeLoop,
        JNTAJISEncoder.encodeStep, hk, hne, hz, hsm, if_true, List.nil_append]
      simp [putJISMen1_eq, hj, hw, JNTAJISEncoder.flushLoop]
  · unfold JNTAJISDecoder.Decode
    have hd := decodeLoop_wirePair t repl false c.jis [] 0 [] (by omega)
      (by rw [hcell]; exact hc)
    have hp : c.jis / 8836 = 0 := by omega
    simp only [hp, hw, List.append_nil, List.nil_append, Nat.cast_zero, mul_zero, hcell,
      decodeLoop_nil] at hd
    exact hd

theorem lookupRevTable_example_3000 :
    lookupRevTable exampleTables.runeRangeToJISMappings 0x3000 = some (0, true) := by
  unfold lookupRevTable
  rw [lookupRevLoop_eq]
  decide

theorem lookupRevTable_example_3001 :
    lookupRevTable exampleTables.runeRangeToJISMappings 0x3001 = some (1, true) := by
  unfold lookupRevTable
  rw [lookupRevLoop_eq]
  decide

/-- The batch encoder in Men1 mode over `exampleTables`, on `U+3000`, the pair
`U+304B U+309A` and `U+3001`. -/
theorem batchEncode_example :
    batchEncode exampleTables ConversionMode.ConversionModeMen1 InvalidJISCode
        [0x3000, 0x304b, 0x309a, 0x3001] =
      some ([0x21, 0x21, 0x21, 0x24, 0x21, 0x22], none) := by
  have hsm0 : smRuneToJISMapping exampleTables.runePairsToJisMappings 0 0x3000 = (0, 0) := by
    decide
  have hsm1 : smRuneToJISMapping exampleTables.runePairsToJisMappings 0 0x304b = (1, 0) := by
    decide
  have hsm2 : smRuneToJISMapping exampleTables.runePairsToJisMappings 1 0x309a = (-1, 3) := by
    decide
  have hsm3 : smRuneToJISMapping exampleTables.runePairsToJisMappings 0 0x3001 = (0, 0) := by
    decide
  simp [batchEncode, NewJNTAJISEncoder, putFuncForConversionMode,
    JNTAJISEncoder.EncodeAsJISX0213Men1, JNTAJISEncoder.encodeLoop,
    JNTAJISEncoder.encodeStep, JNTAJISEncoder.flushLoop, JNTAJISEncoder.flushOne,
    hsm0, hsm1, hsm2, hsm3, lookupRevTable_example_3000, lookupRevTable_example_3001,
    putJISMen1_eq, wirePair]

/-- C4, at a concrete cell: the cell of code 1 of `exampleTables`, `U+3001`. -/
theorem men1_round_trip_witness :
    (exampleTables.txMappings 1).jis < 8836 ∧
      (exampleTables.txMappings 1).class ≠ JISCharacterClass.Reserved ∧
      lookupRevTable exampleTables.runeRangeToJISMappings 0x3001 = some (1, true) ∧
      batchEncode exampleTables ConversionMode.ConversionModeMen1 InvalidJISCode [0x3001] =
        some ([0x21, 0x22], none) ∧
      JNTAJISDecoder.Decode exampleTables ⟨InvalidRune, false, 0, 0⟩ [] [0x21, 0x22] =
        some ⟨⟨InvalidRune, false, 0, 0⟩, [0xe3, 0x80, 0x81], none⟩ :=
  ⟨by decide, by decide, lookupRevTable_example_3001,
    (men1_round_trip exampleTables (exampleTables.txMappings 1) InvalidRune rfl (by decide)
      (by decide) (Or.inl ⟨by decide, lookupRevTable_example_3001⟩)).1,
    (men1_round_trip exampleTables (exampleTables.txMappings 1) InvalidRune rfl (by decide)
      (by decide) (Or.inl ⟨by decide, lookupRevTable_example_3001⟩)).2⟩

/-- C1, at a concrete input: Men1 mode over `exampleTables`, the input `U+3000`,
`U+304B`, `U+309A`, `U+3001` cut between the lead `U+304B` and its follow. -/
theorem incrementalEncode_eq_batchEncode_witness :
    ConversionMode.ConversionModeMen1 ≠ ConversionMode.ConversionModeSISO ∧
      batchEncode exampleTables ConversionMode.ConversionModeMen1 InvalidJISCode
          [0x3000, 0x304b, 0x309a, 0x3001] =
        some ([0x21, 0x21, 0x21, 0x24, 0x21, 0x22], none) ∧
      incrementalEncode exampleTables ConversionMode.ConversionModeMen1 InvalidJISCode
          [[0x3000, 0x304b], [0x309a, 0x3001]] =
        some ([0x21, 0x21, 0x21, 0x24, 0x21, 0x22], none) :=
  ⟨by decide, batchEncode_example, by
    rw [incrementalEncode_eq_batchEncode exampleTables ConversionMode.ConversionModeMen1
      InvalidJISCode [[0x3000, 0x304b], [0x309a, 0x3001]] (by decide)]
    exact batchEncode_example⟩

/-! ### The reverse lookup -/

theorem int32_of_range (x : Int) (h : 0 ≤ x ∧ x < 2147483648) : int32 x = x := by
  unfold int32
  omega

/-- The binary search of `lookupRevTable`, with its loop invariant: the entries left
of `s` end before `r` and the entries from `e` on start after `r`. -/
theorem lookupRevLoop_spec (tbl : List runeRangeToJISMapping) (r : Rune)
    (hp : tbl.Pairwise (fun a b => a.end < b.start))
    (hlen : ∀ m ∈ tbl, (m.jis.length : Int) = m.end - m.start + 1)
    (hnn : ∀ m ∈ tbl, 0 ≤ m.start) (hr : r < 2147483648) (n : Nat) :
    ∀ (s e : Nat), e - s ≤ n → e ≤ tbl.length →
      (∀ (i : Nat) (h : i < tbl.length), i < s → (tbl.get ⟨i, h⟩).end < r) →
      (∀ (i : Nat) (h : i < tbl.length), e ≤ i → r < (tbl.get ⟨i, h⟩).start) →
      (∀ (i : Nat) (h : i < tbl.length), (tbl.get ⟨i, h⟩).start ≤ r →
          r ≤ (tbl.get ⟨i, h⟩).end → lookupRevLoop tbl r s e = (tbl.get ⟨i, h⟩).found r) ∧
        ((∀ (i : Nat) (h : i < tbl.length),
            ¬ ((tbl.get ⟨i, h⟩).start ≤ r ∧ r ≤ (tbl.get ⟨i, h⟩).end)) →
          lookupRevLoop tbl r s e = some (0, false)) := by
  have hpg := List.pairwise_iff_get.mp hp
  have hord : ∀ (i j : Nat) (hi : i < tbl.length) (hj : j < tbl.length), i < j →
      (tbl.get ⟨i, hi⟩).end < (tbl.get ⟨j, hj⟩).start := by
    intro i j hi hj hij
    exact hpg ⟨i, hi⟩ ⟨j, hj⟩ hij
  have hne : ∀ (i : Nat) (hi : i < tbl.length),
      (tbl.get ⟨i, hi⟩).start ≤ (tbl.get ⟨i, hi⟩).end + 1 := by
    intro i hi
    have := hlen _ (List.get_mem tbl i hi)
    first | omega | (unfold Rune at *; omega)
  induction n with
  | zero =>
    intro s e hn he hl hrgt
    have hse : ¬ (s < e ∧ e ≤ tbl.length) := by first | omega | (unfold Rune at *; omega)
    rw [lookupRevLoop_eq, dif_neg hse]
    refine ⟨?_, fun _ => rfl⟩
    intro i h h1 h2
    by_cases his : i < s
    · have := hl i h his; first | omega | (unfold Rune at *; omega)
    · have := hrgt i h (by first | omega | (unfold Rune at *; omega)); first | omega | (unfold Rune at *; omega)
  | succ n ih =>
    intro s e hn he hl hrgt
    by_cases hse : s < e ∧ e ≤ tbl.length
    · have hm : (s + e) / 2 < tbl.length := by first | omega | (unfold Rune at *; omega)
      rw [lookupRevLoop_eq, dif_pos hse]
      by_cases h1 : r < (tbl.get ⟨(s + e) / 2, hm⟩).start
      · rw [if_pos h1]
        apply ih s ((s + e) / 2) (by first | omega | (unfold Rune at *; omega)) (by first | omega | (unfold Rune at *; omega)) hl
        intro i h hi
        by_cases hi' : i = (s + e) / 2
        · subst hi'; exact h1
        · have h3 := hord ((s + e) / 2) i hm h (by first | omega | (unfold Rune at *; omega))
          have h4 := hne _ hm
          first | omega | (unfold Rune at *; omega)
      · rw [if_neg h1]
        by_cases h2 : r > (tbl.get ⟨(s + e) / 2, hm⟩).end
        · rw [if_pos h2]
          apply ih ((s + e) / 2 + 1) e (by first | omega | (unfold Rune at *; omega)) he _ hrgt
          intro i h hi
          by_cases hi' : i = (s + e) / 2
          · subst hi'; exact h2
          · have h3 := hord i ((s + e) / 2) h hm (by first | omega | (unfold Rune at *; omega))
            have h4 := hne _ hm
            first | omega | (unfold Rune at *; omega)
        · rw [if_neg h2]
          have hmem := List.get_mem tbl ((s + e) / 2) hm
          have hl1 := hlen _ hmem
          have hn1 := hnn _ hmem
          have ho : int32 (r - (tbl.get ⟨(s + e) / 2, hm⟩).start) =
              r - (tbl.get ⟨(s + e) / 2, hm⟩).start := int32_of_range _ (by first | omega | (unfold Rune at *; omega))
          have hfound : (if int32 (r - (tbl.get ⟨(s + e) / 2, hm⟩).start) ≥
                (tbl.get ⟨(s + e) / 2, hm⟩).jis.length then some (0, false)
              else if int32 (r - (tbl.get ⟨(s + e) / 2, hm⟩).start) < 0 then none
              else
                match (tbl.get ⟨(s + e) / 2, hm⟩).jis.get?
                    (int32 (r - (tbl.get ⟨(s + e) / 2, hm⟩).start)).toNat with
                | none => none
                | some jis => if jis = InvalidJISCode then some (0, false) else some (jis, true)) =
              (tbl.get ⟨(s + e) / 2, hm⟩).found r := by
            rw [ho]
            have hlt : (r - (tbl.get ⟨(s + e) / 2, hm⟩).start).toNat <
                (tbl.get ⟨(s + e) / 2, hm⟩).jis.length := by first | omega | (unfold Rune at *; omega)
            have c1 : ¬ (r - (tbl.get ⟨(s + e) / 2, hm⟩).start ≥
                ((tbl.get ⟨(s + e) / 2, hm⟩).jis.length : Int)) := by first | omega | (unfold Rune at *; omega)
            have c2 : ¬ (r - (tbl.get ⟨(s + e) / 2, hm⟩).start < 0) := by first | omega | (unfold Rune at *; omega)
            rw [if_neg c1, if_neg c2]
            unfold runeRangeToJISMapping.found runeRangeToJISMapping.slot
            rw [List.get?_eq_get hlt, List.getD_eq_getElem _ _ hlt]
            rfl
          rw [hfound]
          refine ⟨?_, ?_⟩
          · intro i h hi1 hi2
            have hi' : i = (s + e) / 2 := by
              by_contra hne'
              rcases Nat.lt_or_gt_of_ne hne' with hlt | hgt
              · have := hord i ((s + e) / 2) h hm hlt; first | omega | (unfold Rune at *; omega)
              · have := hord ((s + e) / 2) i hm h hgt; first | omega | (unfold Rune at *; omega)
            subst hi'
            rfl
          · intro hnone
            exact absurd ⟨not_lt.mp h1, not_lt.mp h2⟩ (hnone _ hm)
    · rw [lookupRevLoop_eq, dif_neg hse]
      refine ⟨?_, fun _ => rfl⟩
      intro i h h1 h2
      by_cases his : i < s
      · have := hl i h his; first | omega | (unfold Rune at *; omega)
      · have := hrgt i h (by first | omega | (unfold Rune at *; omega)); first | omega | (unfold Rune at *; omega)

/-- `lookupRevTable` over a table whose entries lie one after the other. -/
theorem lookupRevTable_of_pairwise (tbl : List runeRangeToJISMapping) (r : Rune)
    (hp : tbl.Pairwise (fun a b => a.end < b.start))
    (hlen : ∀ m ∈ tbl, (m.jis.length : Int) = m.end - m.start + 1)
    (hnn : ∀ m ∈ tbl, 0 ≤ m.start) (hr : r < 2147483648) :
    (∀ (i : Nat) (h : i < tbl.length), (tbl.get ⟨i, h⟩).start ≤ r →
        r ≤ (tbl.get ⟨i, h⟩).end → lookupRevTable tbl r = (tbl.get ⟨i, h⟩).found r) ∧
      ((∀ (i : Nat) (h : i < tbl.length),
          ¬ ((tbl.get ⟨i, h⟩).start ≤ r ∧ r ≤ (tbl.get ⟨i, h⟩).end)) →
        lookupRevTable tbl r = some (0, false)) := by
  unfold lookupRevTable
  exact lookupRevLoop_spec tbl r hp hlen hnn hr tbl.length 0 tbl.length (by omega)
    (le_refl _) (fun i _ hi => absurd hi (by omega)) (fun i h hi => absurd h (by omega))

/-- C17. Single-scalar reverse lookup.  For every range table whose entries are
sorted by `start`, pairwise disjoint, non-empty ranges of scalars with
`len(jis) = end - start + 1`, and every scalar `r` (a rune, so below `2^31`):
`lookupRevTable(r)` returns (it never indexes outside the table or a slice); it
returns `(entry.jis[r - entry.start], true)` when an entry has `start ≤ r ≤ end` and
that slot is not `0xFFFFFFFF`, and failure otherwise. -/
theorem lookupRevTable_spec (tbl : List runeRangeToJISMapping) (r : Rune)
    (hsorted : tbl.Pairwise (fun a b => a.start ≤ b.start))
    (hdisj : tbl.Pairwise (fun a b =>
      ∀ x : Rune, ¬ (a.start ≤ x ∧ x ≤ a.end ∧ b.start ≤ x ∧ x ≤ b.end)))
    (hrange : ∀ m ∈ tbl, 0 ≤ m.start ∧ m.start ≤ m.end)
    (hlen : ∀ m ∈ tbl, (m.jis.length : Int) = m.end - m.start + 1)
    (hr : r < 2147483648) :
    lookupRevTable tbl r ≠ none ∧
      (∀ m ∈ tbl, m.start ≤ r → r ≤ m.end →
        m.jis.get? (r - m.start).toNat = some (m.slot r) ∧
        lookupRevTable tbl r =
          if m.slot r = InvalidJISCode then some (0, false) else some (m.slot r, true)) ∧
      ((∀ m ∈ tbl, ¬ (m.start ≤ r ∧ r ≤ m.end)) → lookupRevTable tbl r = some (0, false)) := by
  have hp : tbl.Pairwise (fun a b => a.end < b.start) := by
    refine List.Pairwise.imp_of_mem ?_ (hsorted.and hdisj)
    intro a b _ hb hab
    by_contra hcon
    have hb' := hrange b hb
    exact hab.2 b.start ⟨hab.1, not_lt.mp hcon, le_refl _, hb'.2⟩
  have hmain := lookupRevTable_of_pairwise tbl r hp hlen (fun m hm => (hrange m hm).1) hr
  have hin : ∀ m ∈ tbl, m.start ≤ r → r ≤ m.end →
      m.jis.get? (r - m.start).toNat = some (m.slot r) ∧
      lookupRevTable tbl r =
        if m.slot r = InvalidJISCode then some (0, false) else some (m.slot r, true) := by
    intro m hm h1 h2
    obtain ⟨⟨i, hi⟩, hget⟩ := List.mem_iff_get.mp hm
    subst hget
    refine ⟨?_, ?_⟩
    · have hl := hlen _ hm
      have hlt : (r - (tbl.get ⟨i, hi⟩).start).toNat < (tbl.get ⟨i, hi⟩).jis.length := by
        unfold Rune at *; omega
      unfold runeRangeToJISMapping.slot
      rw [List.get?_eq_get hlt, List.getD_eq_getElem _ _ hlt]
      rfl
    · exact hmain.1 i hi h1 h2
  have hout : (∀ m ∈ tbl, ¬ (m.start ≤ r ∧ r ≤ m.end)) →
      lookupRevTable tbl r = some (0, false) := by
    intro hno
    exact hmain.2 (fun i hi => hno _ (List.get_mem tbl i hi))
  refine ⟨?_, hin, hout⟩
  by_cases hex : ∃ m ∈ tbl, m.start ≤ r ∧ r ≤ m.end
  · obtain ⟨m, hm, h1, h2⟩ := hex
    rw [(hin m hm h1 h2).2]
    split <;> simp
  · rw [hout (fun m hm hc => hex ⟨m, hm, hc⟩)]
    simp

/-- C17, at a concrete input: `U+3001` in the range table of `exampleTables`. -/
theorem lookupRevTable_spec_witness :
    exampleTables.runeRangeToJISMappings.Pairwise (fun a b => a.start ≤ b.start) ∧
      exampleTables.runeRangeToJISMappings.Pairwise (fun a b =>
        ∀ x : Rune, ¬ (a.start ≤ x ∧ x ≤ a.end ∧ b.start ≤ x ∧ x ≤ b.end)) ∧
      (∀ m ∈ exampleTables.runeRangeToJISMappings, 0 ≤ m.start ∧ m.start ≤ m.end) ∧
      (∀ m ∈ exampleTables.runeRangeToJISMappings,
        (m.jis.length : Int) = m.end - m.start + 1) ∧
      ((0x3001 : Rune) < 2147483648) ∧
      lookupRevTable exampleTables.runeRangeToJISMappings 0x3001 = some (1, true) :=
  ⟨List.pairwise_singleton _ _, List.pairwise_singleton _ _, by decide, by decide, by decide,
    ((lookupRevTable_spec exampleTables.runeRangeToJISMappings 0x3001
      (List.pairwise_singleton _ _) (List.pairwise_singleton _ _) (by decide) (by decide)
      (by decide)).2.1 ⟨0x3000, 0x3001, [0, 1]⟩ (List.mem_singleton_self _) (by decide)
      (by decide)).2⟩

/-! ### The pair automaton -/

theorem findIdx?_lead (rpm : List outer) (hasc : rpm.Pairwise (fun a b => a.R < b.R)) :
    ∀ (i : Nat) (h : i < rpm.length) (s : Nat),
      rpm.findIdx? (fun m => decide (m.R = (rpm.get ⟨i, h⟩).R)) s = some (s + i) := by
  induction rpm with
  | nil => intro i h; exact absurd h (by simp)
  | cons a l ih =>
    intro i h s
    have hp := List.pairwise_cons.mp hasc
    cases i with
    | zero => simp [List.findIdx?_cons]
    | succ i =>
      have hi : i < l.length := by simpa using h
      have hlt : a.R < (l.get ⟨i, hi⟩).R := hp.1 _ (List.get_mem l i hi)
      have hne : ¬ a.R = (l.get ⟨i, hi⟩).R := ne_of_lt hlt
      rw [List.findIdx?_cons]
      simp only [List.get_cons_succ, hne, decide_False, Bool.false_eq_true, if_false]
      rw [ih hp.2 i hi (s + 1)]
      congr 1
      omega

theorem head_le_of_mem (rpm : List outer) (hasc : rpm.Pairwise (fun a b => a.R < b.R))
    (first m : outer) (hf : rpm.head? = some first) (hm : m ∈ rpm) : first.R ≤ m.R := by
  cases rpm with
  | nil => simp at hf
  | cons a l =>
    simp only [List.head?_cons, Option.some.injEq] at hf
    subst hf
    rcases List.mem_cons.mp hm with h | h
    · subst h; exact le_refl _
    · exact le_of_lt ((List.pairwise_cons.mp hasc).1 m h)

theorem le_last_of_mem (rpm : List outer) (hasc : rpm.Pairwise (fun a b => a.R < b.R))
    (last m : outer) (hl : rpm.getLast? = some last) (hm : m ∈ rpm) : m.R ≤ last.R := by
  obtain ⟨ys, hys⟩ := List.getLast?_eq_some_iff.mp hl
  subst hys
  rcases List.mem_append.mp hm with h | h
  · have := (List.pairwise_append.mp hasc).2.2 m h last (List.mem_singleton_self _)
    exact le_of_lt this
  · rw [List.mem_singleton.mp h]

/-- From state 0 a scalar that is no lead gives `(0, 0)`. -/
theorem smCase0_not_lead (rpm : List outer) (r : Rune) (hno : ∀ m ∈ rpm, m.R ≠ r) :
    smCase0 rpm r = (0, 0) := by
  unfold smCase0
  have hnone : rpm.findIdx? (fun m => decide (m.R = r)) = none := by
    rw [List.findIdx?_eq_none_iff]
    intro x hx
    simp [hno x hx]
  split
  · rw [hnone]; split <;> rfl
  · rfl

/-- From state 0 the `i`-th lead of an ascending pair list gives `(i + 1, 0)`. -/
theorem smCase0_lead (rpm : List outer) (hasc : rpm.Pairwise (fun a b => a.R < b.R))
    (i : Nat) (h : i < rpm.length) :
    smCase0 rpm (rpm.get ⟨i, h⟩).R = ((i : Int) + 1, 0) := by
  unfold smCase0
  have hmem := List.get_mem rpm i h
  have hne : rpm ≠ [] := List.ne_nil_of_mem hmem
  have hidx := findIdx?_lead rpm hasc i h 0
  rw [List.head?_eq_head hne, List.getLast?_eq_getLast rpm hne]
  simp only []
  have h1 := head_le_of_mem rpm hasc _ _ (List.head?_eq_head hne) hmem
  have h2 := le_last_of_mem rpm hasc _ _ (List.getLast?_eq_getLast rpm hne) hmem
  have hc : ¬ ((rpm.get ⟨i, h⟩).R < (rpm.head hne).R ∨
      (rpm.get ⟨i, h⟩).R > (rpm.getLast hne).R) := by
    rintro (hc | hc)
    · exact absurd h1 (not_le.mpr hc)
    · exact absurd h2 (not_le.mpr hc)
  rw [if_neg hc, hidx]
  simp

/-- From the state of the `i`-th lead, a scalar that is none of its follows is stepped
as from state 0 (the `goto reenter`). -/
theorem sm_reenter (rpm : List outer) (i : Nat) (h : i < rpm.length) (r : Rune)
    (hnf : ∀ n ∈ (rpm.get ⟨i, h⟩).N, n.rs.2 ≠ r) :
    smRuneToJISMapping rpm ((i : Int) + 1) r = smCase0 rpm r := by
  unfold smRuneToJISMapping
  have h0 : ¬ ((i : Int) + 1 = 0) := by omega
  have h1 : (1 : Int) ≤ (i : Int) + 1 := by omega
  have hi : ((i : Int) + 1 - 1).toNat = i := by omega
  have hfind : (rpm.get ⟨i, h⟩).N.find? (fun n => decide (n.rs.2 = r)) = none := by
    rw [List.find?_eq_none]
    intro x hx
    simp [hnf x hx]
  rw [if_neg h0, if_pos h1, hi, List.get?_eq_get h]
  simp only [hfind]

/-- From the state of the `i`-th lead, a follow of that lead is accepted with the
code of the first mapping of the lead that has this follow. -/
theorem sm_accept (rpm : List outer) (i : Nat) (h : i < rpm.length)
    (n : shrinkingTransliterationMapping) (hn : n ∈ (rpm.get ⟨i, h⟩).N)
    (hdist : (rpm.get ⟨i, h⟩).N.Pairwise (fun a b => a.rs.2 ≠ b.rs.2)) :
    smRuneToJISMapping rpm ((i : Int) + 1) n.rs.2 = (-1, n.jis) := by
  unfold smRuneToJISMapping
  have h0 : ¬ ((i : Int) + 1 = 0) := by omega
  have h1 : (1 : Int) ≤ (i : Int) + 1 := by omega
  have hi : ((i : Int) + 1 - 1).toNat = i := by omega
  rw [if_neg h0, if_pos h1, hi, List.get?_eq_get h]
  simp only []
  cases hfind : (rpm.get ⟨i, h⟩).N.find? (fun a => decide (a.rs.2 = n.rs.2)) with
  | none =>
    have := List.find?_eq_none.mp hfind n hn
    simp at this
  | some a =>
    have ha : a ∈ (rpm.get ⟨i, h⟩).N := List.mem_of_find?_eq_some hfind
    have hpa : a.rs.2 = n.rs.2 := by simpa using List.find?_some hfind
    have hsym : Symmetric (fun a b : shrinkingTransliterationMapping => a.rs.2 ≠ b.rs.2) :=
      fun _ _ hab => fun hba => hab hba.symm
    have hEq : a = n := by
      by_contra hne
      exact hdist.forall hsym ha hn hne hpa
    rw [hEq]

/-- C18. Pair automaton, accepting steps.  For the step function expanded from a pair
list grouped by lead in ascending order of lead (state `i + 1` for the `i`-th lead):
(i) from state 0 a scalar that is no registered lead returns `(0, 0)`; (ii) from
state 0 the `i`-th lead returns `(i + 1, 0)`, the first and the last lead, which
bound the range pre-check, among them; (iii) from the state `i + 1` a follow of the
`i`-th lead returns `(-1, jis)`, `jis` the code of the mapping (lead, follow), the
follows of one lead being distinct. -/
theorem smRuneToJISMapping_accepting (rpm : List outer)
    (hasc : rpm.Pairwise (fun a b => a.R < b.R)) :
    (∀ r : Rune, (∀ m ∈ rpm, m.R ≠ r) → smRuneToJISMapping rpm 0 r = (0, 0)) ∧
      (∀ (i : Nat) (h : i < rpm.length),
        smRuneToJISMapping rpm 0 (rpm.get ⟨i, h⟩).R = ((i : Int) + 1, 0)) ∧
      (∀ (first last : outer), rpm.head? = some first → rpm.getLast? = some last →
        smRuneToJISMapping rpm 0 first.R = (1, 0) ∧
        smRuneToJISMapping rpm 0 last.R = ((rpm.length : Int), 0)) ∧
      (∀ (i : Nat) (h : i < rpm.length) (n : shrinkingTransliterationMapping),
        n ∈ (rpm.get ⟨i, h⟩).N →
        (rpm.get ⟨i, h⟩).N.Pairwise (fun a b => a.rs.2 ≠ b.rs.2) →
        smRuneToJISMapping rpm ((i : Int) + 1) n.rs.2 = (-1, n.jis)) := by
  have hz : ∀ r : Rune, smRuneToJISMapping rpm 0 r = smCase0 rpm r := by
    intro r; simp [smRuneToJISMapping]
  refine ⟨?_, ?_, ?_, ?_⟩
  · intro r hno
    rw [hz, smCase0_not_lead rpm r hno]
  · intro i h
    rw [hz, smCase0_lead rpm hasc i h]
  · intro first last hf hl
    have hne : rpm ≠ [] := by
      intro hnil; rw [hnil] at hf; simp at hf
    have hpos : 0 < rpm.length := List.length_pos.mpr hne
    have hf' : first = rpm.get ⟨0, hpos⟩ := by
      rw [List.head?_eq_getElem?, List.getElem?_eq_getElem hpos] at hf
      simpa using hf.symm
    have hl' : last = rpm.get ⟨rpm.length - 1, by omega⟩ := by
      rw [List.getLast?_eq_getElem?, List.getElem?_eq_getElem (by omega)] at hl
      simpa using hl.symm
    refine ⟨?_, ?_⟩
    · rw [hz, hf', smCase0_lead rpm hasc 0 hpos]
      simp
    · rw [hz, hl', smCase0_lead rpm hasc (rpm.length - 1) (by omega)]
      have : ((rpm.length - 1 : Nat) : Int) + 1 = (rpm.length : Int) := by omega
      rw [this]
  · intro i h n hn hdist
    exact sm_accept rpm i h n hn hdist

/-- C19 as stated fails: over `exampleTables`, in the state of the lead `U+304B` the
scalar `U+304B`, which is no follow of that lead, is stepped to `(1, 0)`, not to
`(0, 0)`. -/
theorem sm_mismatch_counterexample :
    (∀ n ∈ (exampleTables.runePairsToJisMappings.get ⟨0, by decide⟩).N, n.rs.2 ≠ 0x304b) ∧
      smRuneToJISMapping exampleTables.runePairsToJisMappings 1 0x304b = (1, 0) ∧
      smRuneToJISMapping exampleTables.runePairsToJisMappings 1 0x304b ≠ (0, 0) := by
  decide

/-- C19, amended.  For every lead state `i + 1` and every scalar `r` that is no follow
of that lead, `smRuneToJISMapping(i + 1, r)` returns what the step from state 0
returns for `r`: `(0, 0)` when `r` is no registered lead and `(j + 1, 0)` when `r` is
the `j`-th registered lead. -/
theorem sm_mismatch (rpm : List outer) (hasc : rpm.Pairwise (fun a b => a.R < b.R))
    (i : Nat) (h : i < rpm.length) (r : Rune)
    (hnf : ∀ n ∈ (rpm.get ⟨i, h⟩).N, n.rs.2 ≠ r) :
    smRuneToJISMapping rpm ((i : Int) + 1) r = smRuneToJISMapping rpm 0 r ∧
      ((∀ m ∈ rpm, m.R ≠ r) → smRuneToJISMapping rpm ((i : Int) + 1) r = (0, 0)) ∧
      (∀ (j : Nat) (hj : j < rpm.length), (rpm.get ⟨j, hj⟩).R = r →
        smRuneToJISMapping rpm ((i : Int) + 1) r = ((j : Int) + 1, 0)) := by
  have hz : smRuneToJISMapping rpm 0 r = smCase0 rpm r := by
    simp [smRuneToJISMapping]
  have hre := sm_reenter rpm i h r hnf
  refine ⟨by rw [hre, hz], ?_, ?_⟩
  · intro hno
    rw [hre, smCase0_not_lead rpm r hno]
  · intro j hj hjr
    rw [hre, ← hjr, smCase0_lead rpm hasc j hj]

/-- C19 amended, at concrete inputs over `exampleTables`: in the state of the lead
`U+304B`, the non-lead `U+3000` gives `(0, 0)` and the lead `U+304B` gives `(1, 0)`. -/
theorem sm_mismatch_witness :
    exampleTables.runePairsToJisMappings.Pairwise (fun a b => a.R < b.R) ∧
      (∀ n ∈ (exampleTables.runePairsToJisMappings.get ⟨0, by decide⟩).N, n.rs.2 ≠ 0x3000) ∧
      smRuneToJISMapping exampleTables.runePairsToJisMappings ((0 : Nat) + 1) 0x3000 =
        smRuneToJISMapping exampleTables.runePairsToJisMappings 0 0x3000 ∧
      smRuneToJISMapping exampleTables.runePairsToJisMappings 0 0x3000 = (0, 0) :=
  ⟨by decide, by decide,
    (sm_mismatch exampleTables.runePairsToJisMappings (by decide) 0 (by decide) 0x3000
      (by decide)).1, by decide⟩

/-- C18, at concrete inputs over `exampleTables`: the lead `U+304B` steps state 0 to
state 1, and its follow `U+309A` is accepted there with the code 3. -/
theorem smRuneToJISMapping_accepting_witness :
    exampleTables.runePairsToJisMappings.Pairwise (fun a b => a.R < b.R) ∧
      smRuneToJISMapping exampleTables.runePairsToJisMappings 0 0x304b = (1, 0) ∧
      smRuneToJISMapping exampleTables.runePairsToJisMappings 1 0x309a = (-1, 3) ∧
      smRuneToJISMapping exampleTables.runePairsToJisMappings 0 0x3000 = (0, 0) :=
  ⟨by decide,
    (smRuneToJISMapping_accepting exampleTables.runePairsToJisMappings (by decide)).2.1 0
      (by decide),
    (smRuneToJISMapping_accepting exampleTables.runePairsToJisMappings (by decide)).2.2.2 0
      (by decide) _ (List.mem_singleton_self _) (List.pairwise_singleton _ _),
    (smRuneToJISMapping_accepting exampleTables.runePairsToJisMappings (by decide)).1 0x3000
      (by decide)⟩

/-! ### What a failing call of the incremental encoder leaves -/

theorem appendReplacement_cases (b : Bytes) (r : Rune) (c : Nat) (b1 : Bytes)
    (err : Option EncodeError) (h : appendReplacement b r c = some (b1, err)) :
    (err = none ∧ c ≠ InvalidJISCode ∧ c < 8836 ∧ b1 = b ++ wirePair c) ∨
      (err = some (EncodeError.notConvertible r) ∧ c = InvalidJISCode ∧ b1 = []) := by
  unfold appendReplacement at h
  by_cases hc : c = InvalidJISCode
  · simp only [hc, if_true, Option.some.injEq, Prod.mk.injEq] at h
    exact Or.inr ⟨h.2.symm, hc, h.1.symm⟩
  · rw [if_neg hc, putJISMen1_eq] at h
    by_cases h8 : c < 8836
    · simp only [h8, if_true, Option.some.injEq, Prod.mk.injEq] at h
      exact Or.inl ⟨h.2.symm, hc, h8, h.1.symm⟩
    · simp [h8] at h

/-- One buffered scalar of `flushLookahead`: only `shiftState` of the encoder may
change, and an error comes with the `nil` buffer, from `Replacement = InvalidJISCode`. -/
theorem flushOne_frame (t : Tables) (e : JNTAJISIncrementalEncoder) (b : Bytes) (r : Rune)
    (res : EncodeResult) (h : e.flushOne t b r = some res) :
    res.e.putJIS = e.putJIS ∧ res.e.Replacement = e.Replacement ∧
      res.e.lookahead = e.lookahead ∧ res.e.state = e.state ∧
      (res.err ≠ none → res.b = [] ∧ e.Replacement = InvalidJISCode ∧
        res.err = some (EncodeError.notConvertible r)) := by
  unfold JNTAJISIncrementalEncoder.flushOne at h
  rcases hl : lookupRevTable t.runeRangeToJISMappings r with _ | ⟨jis, ok⟩
  · simp [hl] at h
  · simp only [hl] at h
    rcases hp : (if ok = true then e.putJIS e.shiftState b jis else some (e.shiftState, b, false))
      with _ | ⟨s1, b1, ok1⟩
    · simp [hp] at h
    · simp only [hp] at h
      cases ok1
      · simp only [Bool.not_false, if_true] at h
        rcases ha : appendReplacement b1 r e.Replacement with _ | ⟨b2, err⟩
        · simp [ha] at h
        · simp only [ha, Option.some.injEq] at h
          subst h
          refine ⟨rfl, rfl, rfl, rfl, ?_⟩
          intro herr
          rcases appendReplacement_cases b1 r e.Replacement b2 err ha with hc | hc
          · exact absurd hc.1 herr
          · exact ⟨hc.2.2, hc.2.1, hc.1⟩
      · simp only [Bool.not_true, Bool.false_eq_true, if_false, Option.some.injEq] at h
        subst h
        exact ⟨rfl, rfl, rfl, rfl, fun herr => absurd rfl herr⟩

theorem flushLoop_frame (t : Tables) (rs : List Rune) :
    ∀ (e : JNTAJISIncrementalEncoder) (b : Bytes) (res : EncodeResult),
      e.flushLoop t b rs = some res →
      res.e.putJIS = e.putJIS ∧ res.e.Replacement = e.Replacement ∧
        res.e.lookahead = e.lookahead ∧ res.e.state = e.state ∧
        (res.err ≠ none → res.b = [] ∧ e.Replacement = InvalidJISCode ∧
          ∃ r ∈ rs, res.err = some (EncodeError.notConvertible r)) := by
  induction rs with
  | nil =>
    intro e b res h
    simp only [JNTAJISIncrementalEncoder.flushLoop, Option.some.injEq] at h
    subst h
    exact ⟨rfl, rfl, rfl, rfl, fun herr => absurd rfl herr⟩
  | cons r rs ih =>
    intro e b res h
    unfold JNTAJISIncrementalEncoder.flushLoop at h
    rcases h1 : e.flushOne t b r with _ | ⟨e1, b1, _ | err⟩
    · simp [h1] at h
    · simp only [h1] at h
      have hf := flushOne_frame t e b r _ h1
      have hr := ih e1 b1 res h
      simp only [] at hf
      refine ⟨hr.1.trans hf.1, hr.2.1.trans hf.2.1, hr.2.2.1.trans hf.2.2.1,
        hr.2.2.2.1.trans hf.2.2.2.1, ?_⟩
      intro herr
      obtain ⟨h2, h3, r1, hr1, h4⟩ := hr.2.2.2.2 herr
      exact ⟨h2, by rw [← hf.2.1]; exact h3, r1, List.mem_cons_of_mem _ hr1, h4⟩
    · simp only [h1, Option.some.injEq] at h
      subst h
      have hf := flushOne_frame t e b r _ h1
      simp only [] at hf
      refine ⟨hf.1, hf.2.1, hf.2.2.1, hf.2.2.2.1, ?_⟩
      intro herr
      obtain ⟨h2, h3, h4⟩ := hf.2.2.2.2 herr
      exact ⟨h2, h3, r, List.mem_cons_self _ _, h4⟩

/-- `flushLookahead`: a failing call leaves automaton state and lookahead as they
were and returns the `nil` buffer; a successful call leaves state 0 and an empty
lookahead. -/
theorem flushLookahead_frame (t : Tables) (e : JNTAJISIncrementalEncoder) (b : Bytes)
    (res : EncodeResult) (h : e.flushLookahead t b = some res) :
    res.e.putJIS = e.putJIS ∧ res.e.Replacement = e.Replacement ∧
      (res.err ≠ none → res.b = [] ∧ e.Replacement = InvalidJISCode ∧
        res.e.lookahead = e.lookahead ∧ res.e.state = e.state) ∧
      (res.err = none → res.e.lookahead = [] ∧ res.e.state = 0) := by
  unfold JNTAJISIncrementalEncoder.flushLookahead at h
  rcases h1 : e.flushLoop t b e.lookahead with _ | ⟨e1, b1, _ | err⟩
  · simp [h1] at h
  · simp only [h1, Option.some.injEq] at h
    subst h
    have hf := flushLoop_frame t e.lookahead e b _ h1
    simp only [] at hf
    exact ⟨hf.1, hf.2.1, fun herr => absurd rfl herr, fun _ => ⟨rfl, rfl⟩⟩
  · simp only [h1, Option.some.injEq] at h
    subst h
    have hf := flushLoop_frame t e.lookahead e b _ h1
    simp only [] at hf
    obtain ⟨h2, h3, _⟩ := hf.2.2.2.2 (by simp)
    exact ⟨hf.1, hf.2.1, fun _ => ⟨h2, h3, hf.2.2.1, hf.2.2.2.1⟩, fun hn => by simp at hn⟩

/-- One pass of the loop of `Encode`: a failing pass returns the `nil` buffer and
leaves either state `-1` with the lookahead untouched (the mode writer rejected an
accepted pair) or state 0 with the scalar appended to the lookahead (the flush of
the lookahead failed). -/
theorem encodeStep_frame (t : Tables) (e : JNTAJISIncrementalEncoder) (b : Bytes) (r : Rune)
    (res : EncodeResult) (h : e.encodeStep t b r = some res) :
    res.e.putJIS = e.putJIS ∧ res.e.Replacement = e.Replacement ∧
      (res.err ≠ none → res.b = [] ∧ e.Replacement = InvalidJISCode ∧
        ((res.e.state = -1 ∧ res.e.lookahead = e.lookahead) ∨
          (res.e.state = 0 ∧ res.e.lookahead = e.lookahead ++ [r]))) := by
  unfold JNTAJISIncrementalEncoder.encodeStep at h
  simp only [] at h
  generalize smRuneToJISMapping t.runePairsToJisMappings e.state r = sj at h
  obtain ⟨s, jis⟩ := sj
  by_cases h1 : s = -1
  · subst h1
    simp only [if_true] at h
    rcases hp : e.putJIS e.shiftState b jis with _ | ⟨s1, b1, ok⟩
    · simp [hp] at h
    · simp only [hp] at h
      have hempty : ∀ (e2 : JNTAJISIncrementalEncoder) (b2 : Bytes), e2.lookahead = [] →
          e2.flushLookahead t b2 = some res → res.err = none ∧ res.e.putJIS = e2.putJIS ∧
            res.e.Replacement = e2.Replacement := by
        intro e2 b2 hl2 h2
        have hf := flushLookahead_frame t e2 b2 res h2
        refine ⟨?_, hf.1, hf.2.1⟩
        simp only [JNTAJISIncrementalEncoder.flushLookahead, hl2,
          JNTAJISIncrementalEncoder.flushLoop, Option.some.injEq] at h2
        subst h2
        rfl
      cases ok
      · simp only [Bool.not_false, if_true] at h
        rcases ha : appendReplacement b1 r e.Replacement with _ | ⟨b2, _ | err⟩
        · simp [ha] at h
        · simp only [ha] at h
          obtain ⟨h2, h3, h4⟩ := hempty _ b2 rfl h
          exact ⟨h3, h4, fun herr => absurd h2 herr⟩
        · simp only [ha, Option.some.injEq] at h
          subst h
          refine ⟨rfl, rfl, ?_⟩
          intro _
          rcases appendReplacement_cases b1 r e.Replacement b2 (some err) ha with hc | hc
          · simp at hc
          · exact ⟨hc.2.2, hc.2.1, Or.inl ⟨rfl, rfl⟩⟩
      · simp only [Bool.not_true, Bool.false_eq_true, if_false] at h
        obtain ⟨h2, h3, h4⟩ := hempty _ b1 rfl h
        exact ⟨h3, h4, fun herr => absurd h2 herr⟩
  · by_cases h0 : s = 0
    · subst h0
      simp only [h1, if_false, if_true] at h
      have hf := flushLookahead_frame t _ b res h
      simp only [] at hf
      refine ⟨hf.1, hf.2.1, ?_⟩
      intro herr
      obtain ⟨h2, h3, h4, h5⟩ := hf.2.2.1 herr
      exact ⟨h2, h3, Or.inr ⟨h5, h4⟩⟩
    · simp only [h1, h0, if_false, Option.some.injEq] at h
      subst h
      exact ⟨rfl, rfl, fun herr => absurd rfl herr⟩

theorem Encode_frame (t : Tables) (m : List Rune) :
    ∀ (e : JNTAJISIncrementalEncoder) (b : Bytes) (res : EncodeResult),
      e.Encode t b m = some res →
      res.e.putJIS = e.putJIS ∧ res.e.Replacement = e.Replacement ∧
        (res.err ≠ none → res.b = [] ∧ e.Replacement = InvalidJISCode) := by
  induction m with
  | nil =>
    intro e b res h
    simp only [JNTAJISIncrementalEncoder.Encode, Option.some.injEq] at h
    subst h
    exact ⟨rfl, rfl, fun herr => absurd rfl herr⟩
  | cons r m ih =>
    intro e b res h
    unfold JNTAJISIncrementalEncoder.Encode at h
    rcases h1 : e.encodeStep t b r with _ | ⟨e1, b1, _ | err⟩
    · simp [h1] at h
    · simp only [h1] at h
      have hf := encodeStep_frame t e b r _ h1
      have hr := ih e1 b1 res h
      simp only [] at hf
      refine ⟨hr.1.trans hf.1, hr.2.1.trans hf.2.1, ?_⟩
      intro herr
      obtain ⟨h2, h3⟩ := hr.2.2 herr
      exact ⟨h2, by rw [← hf.2.1]; exact h3⟩
    · simp only [h1, Option.some.injEq] at h
      subst h
      have hf := encodeStep_frame t e b r _ h1
      simp only [] at hf
      obtain ⟨h2, h3, _⟩ := hf.2.2 (by simp)
      exact ⟨hf.1, hf.2.1, fun _ => ⟨h2, h3⟩⟩

theorem Encode_append (t : Tables) (m1 m2 : List Rune) :
    ∀ (e : JNTAJISIncrementalEncoder) (b : Bytes), e.Encode t b (m1 ++ m2) =
      match e.Encode t b m1 with
      | none => none
      | some ⟨e1, b1, some err⟩ => some ⟨e1, b1, some err⟩
      | some ⟨e1, b1, none⟩ => e1.Encode t b1 m2 := by
  induction m1 with
  | nil => intro e b; rfl
  | cons r m1 ih =>
    intro e b
    simp only [List.cons_append, JNTAJISIncrementalEncoder.Encode]
    rcases e.encodeStep t b r with _ | ⟨e1, b1, _ | err⟩
    · rfl
    · exact ih e1 b1
    · rfl

/-- A batch run that returns an error returns the `nil` buffer, and its replacement is
`InvalidJISCode`. -/
theorem batchEncode_error (t : Tables) (mode : ConversionMode) (replacement : Nat)
    (m : List Rune) (bs : Bytes) (err : EncodeError)
    (h : batchEncode t mode replacement m = some (bs, some err)) :
    bs = [] ∧ replacement = InvalidJISCode := by
  unfold batchEncode NewJNTAJISEncoder at h
  rcases hput : putFuncForConversionMode t mode with _ | put
  · simp [hput] at h
  · simp only [hput] at h
    unfold JNTAJISEncoder.EncodeAsJISX0213Men1 at h
    have hE := Encode_liftPut t put m ⟨replacement, liftPut put, [], 0, 0⟩ [] rfl
    simp only [] at hE
    rcases hloop : JNTAJISEncoder.encodeLoop t ⟨replacement, put⟩ ⟨0, [], []⟩ m
      with _ | ⟨st, _ | err1⟩
    · simp [hloop] at h
    · simp only [hloop] at h
      have hF := flushLoop_liftPut t ⟨replacement, liftPut put, st.rb, 0, st.s⟩ put rfl
        st.rb st.b
      simp only [h, Option.map_some'] at hF
      have hf := flushLoop_frame t st.rb _ st.b _ hF
      simp only [] at hf
      obtain ⟨h2, h3, _⟩ := hf.2.2.2.2 (by simp)
      exact ⟨h2, h3⟩
    · simp only [hloop, Option.some.injEq, Prod.mk.injEq] at h
      rw [hloop] at hE
      simp only [Option.map_some', JNTAJISIncrementalEncoder.withBatch] at hE
      have hf := Encode_frame t m _ [] _ hE
      simp only [] at hf
      obtain ⟨h2, h3⟩ := hf.2.2 (by simp)
      exact ⟨by rw [← h.1]; exact h2, h3⟩

/-! ### Partial output and encoder state after a failure -/

theorem lookupRevTable_example_3002 :
    lookupRevTable exampleTables.runeRangeToJISMappings 0x3002 = some (0, false) :=
  (lookupRevTable_of_pairwise exampleTables.runeRangeToJISMappings 0x3002
    (List.pairwise_singleton _ _) (by decide) (by decide) (by decide)).2 (by decide)

/-- The batch encoder in Men1 mode over `exampleTables`, without replacement, on
`U+3000` followed by the unmapped `U+3002`. -/
theorem batchEncode_example_error :
    batchEncode exampleTables ConversionMode.ConversionModeMen1 InvalidJISCode
        [0x3000, 0x3002] =
      some ([], some (EncodeError.notConvertible 0x3002)) := by
  have hsm0 : smRuneToJISMapping exampleTables.runePairsToJisMappings 0 0x3000 = (0, 0) := by
    decide
  have hsm1 : smRuneToJISMapping exampleTables.runePairsToJisMappings 0 0x3002 = (0, 0) := by
    decide
  simp [batchEncode, NewJNTAJISEncoder, putFuncForConversionMode,
    JNTAJISEncoder.EncodeAsJISX0213Men1, JNTAJISEncoder.encodeLoop,
    JNTAJISEncoder.encodeStep, JNTAJISEncoder.flushLoop, JNTAJISEncoder.flushOne,
    hsm0, hsm1, lookupRevTable_example_3000, lookupRevTable_example_3002,
    putJISMen1_eq, wirePair, appendReplacement]

theorem batchEncode_example_first :
    batchEncode exampleTables ConversionMode.ConversionModeMen1 InvalidJISCode [0x3000] =
      some ([0x21, 0x21], none) := by
  have hsm0 : smRuneToJISMapping exampleTables.runePairsToJisMappings 0 0x3000 = (0, 0) := by
    decide
  simp [batchEncode, NewJNTAJISEncoder, putFuncForConversionMode,
    JNTAJISEncoder.EncodeAsJISX0213Men1, JNTAJISEncoder.encodeLoop,
    JNTAJISEncoder.encodeStep, JNTAJISEncoder.flushLoop, JNTAJISEncoder.flushOne,
    hsm0, lookupRevTable_example_3000, putJISMen1_eq, wirePair]

/-- The fresh incremental Men1 encoder over `exampleTables`, without replacement. -/
theorem NewJNTAJISIncrementalEncoder_example :
    NewJNTAJISIncrementalEncoder exampleTables ConversionMode.ConversionModeMen1
        InvalidJISCode =
      some ⟨InvalidJISCode, liftPut (fun b c => some (putJISMen1 b c)), [], 0, 0⟩ := by
  simp [NewJNTAJISIncrementalEncoder, putFuncForConversionMode]

/-- `Encode` of the fresh incremental Men1 encoder over `exampleTables` on `U+3000`
followed by the unmapped `U+3002`: the `nil` buffer, the error, and `U+3002` left in
the lookahead. -/
theorem Encode_example_error :
    JNTAJISIncrementalEncoder.Encode exampleTables
        ⟨InvalidJISCode, liftPut (fun b c => some (putJISMen1 b c)), [], 0, 0⟩ []
        [0x3000, 0x3002] =
      some ⟨⟨InvalidJISCode, liftPut (fun b c => some (putJISMen1 b c)), [0x3002], 0, 0⟩, [],
        some (EncodeError.notConvertible 0x3002)⟩ := by
  have hsm0 : smRuneToJISMapping exampleTables.runePairsToJisMappings 0 0x3000 = (0, 0) := by
    decide
  have hsm1 : smRuneToJISMapping exampleTables.runePairsToJisMappings 0 0x3002 = (0, 0) := by
    decide
  simp [JNTAJISIncrementalEncoder.Encode, JNTAJISIncrementalEncoder.encodeStep,
    JNTAJISIncrementalEncoder.flushLookahead, JNTAJISIncrementalEncoder.flushLoop,
    JNTAJISIncrementalEncoder.flushOne, liftPut,
    hsm0, hsm1, lookupRevTable_example_3000, lookupRevTable_example_3002,
    putJISMen1_eq, wirePair, appendReplacement]

/-- C12 as stated fails: over `exampleTables` in Men1 mode without replacement, the
input `U+3000`, `U+3002` fails on `U+3002`; the encoding of the preceding prefix
`U+3000` is `0x21 0x21`, but the buffer returned with the error is `nil`, by the
batch encoder and by `Encode` alike. -/
theorem encoder_partial_output_counterexample :
    batchEncode exampleTables ConversionMode.ConversionModeMen1 InvalidJISCode [0x3000] =
        some ([0x21, 0x21], none) ∧
      batchEncode exampleTables ConversionMode.ConversionModeMen1 InvalidJISCode
          [0x3000, 0x3002] = some ([], some (EncodeError.notConvertible 0x3002)) ∧
      (JNTAJISIncrementalEncoder.Encode exampleTables
          ⟨InvalidJISCode, liftPut (fun b c => some (putJISMen1 b c)), [], 0, 0⟩ []
          [0x3000, 0x3002]).map (fun res => (res.b, res.err)) =
        some ([], some (EncodeError.notConvertible 0x3002)) ∧
      ([] : Bytes) ≠ [0x21, 0x21] := by
  refine ⟨batchEncode_example_first, batchEncode_example_error, ?_, by decide⟩
  rw [Encode_example_error]
  rfl

/-- C12, amended.  Whenever the batch encoder, or `Encode` of an incremental encoder,
fails on an inconvertible scalar, the buffer it returns alongside the error is `nil`
(the encoder has no replacement configured); the output appended for the scalars
before the failing one is not returned. -/
theorem encoder_error_returns_nil (t : Tables) (mode : ConversionMode) (replacement : Nat)
    (m : List Rune) (bs : Bytes) (err : EncodeError)
    (e : JNTAJISIncrementalEncoder) (b : Bytes) (m1 : List Rune) (res : EncodeResult)
    (h : batchEncode t mode replacement m = some (bs, some err))
    (h1 : e.Encode t b m1 = some res) (h2 : res.err ≠ none) :
    (bs = [] ∧ replacement = InvalidJISCode) ∧
      (res.b = [] ∧ e.Replacement = InvalidJISCode) := by
  constructor
  · exact batchEncode_error t mode replacement m bs err h
  · exact (Encode_frame t m1 e b res h1).2.2 h2

/-- C12 amended, at the concrete input of the counterexample. -/
theorem encoder_error_returns_nil_witness :
    batchEncode exampleTables ConversionMode.ConversionModeMen1 InvalidJISCode
        [0x3000, 0x3002] = some ([], some (EncodeError.notConvertible 0x3002)) ∧
      (([] : Bytes) = [] ∧ InvalidJISCode = InvalidJISCode) ∧
      (([] : Bytes) = [] ∧ InvalidJISCode = InvalidJISCode) :=
  ⟨batchEncode_example_error,
    encoder_error_returns_nil exampleTables ConversionMode.ConversionModeMen1 InvalidJISCode
      [0x3000, 0x3002] [] (EncodeError.notConvertible 0x3002)
      ⟨InvalidJISCode, liftPut (fun b c => some (putJISMen1 b c)), [], 0, 0⟩ []
      [0x3000, 0x3002] _ batchEncode_example_error Encode_example_error (by simp)⟩

theorem Encode_example_tainted :
    JNTAJISIncrementalEncoder.Encode exampleTables
        ⟨InvalidJISCode, liftPut (fun b c => some (putJISMen1 b c)), [0x3002], 0, 0⟩ []
        [0x3000] =
      some ⟨⟨InvalidJISCode, liftPut (fun b c => some (putJISMen1 b c)), [0x3002, 0x3000], 0, 0⟩,
        [], some (EncodeError.notConvertible 0x3002)⟩ := by
  have hsm0 : smRuneToJISMapping exampleTables.runePairsToJisMappings 0 0x3000 = (0, 0) := by
    decide
  simp [JNTAJISIncrementalEncoder.Encode, JNTAJISIncrementalEncoder.encodeStep,
    JNTAJISIncrementalEncoder.flushLookahead, JNTAJISIncrementalEncoder.flushLoop,
    JNTAJISIncrementalEncoder.flushOne, liftPut,
    hsm0, lookupRevTable_example_3000, lookupRevTable_example_3002,
    putJISMen1_eq, wirePair, appendReplacement]

theorem Encode_example_fresh :
    JNTAJISIncrementalEncoder.Encode exampleTables
        ⟨InvalidJISCode, liftPut (fun b c => some (putJISMen1 b c)), [], 0, 0⟩ [] [0x3000] =
      some ⟨⟨InvalidJISCode, liftPut (fun b c => some (putJISMen1 b c)), [], 0, 0⟩,
        [0x21, 0x21], none⟩ := by
  have hsm0 : smRuneToJISMapping exampleTables.runePairsToJisMappings 0 0x3000 = (0, 0) := by
    decide
  simp [JNTAJISIncrementalEncoder.Encode, JNTAJISIncrementalEncoder.encodeStep,
    JNTAJISIncrementalEncoder.flushLookahead, JNTAJISIncrementalEncoder.flushLoop,
    JNTAJISIncrementalEncoder.flushOne, liftPut,
    hsm0, lookupRevTable_example_3000, putJISMen1_eq, wirePair]

theorem encodeStep_example_error :
    JNTAJISIncrementalEncoder.encodeStep exampleTables
        ⟨InvalidJISCode, liftPut (fun b c => some (putJISMen1 b c)), [], 0, 0⟩ [] 0x3002 =
      some ⟨⟨InvalidJISCode, liftPut (fun b c => some (putJISMen1 b c)), [0x3002], 0, 0⟩, [],
        some (EncodeError.notConvertible 0x3002)⟩ := by
  have hsm1 : smRuneToJISMapping exampleTables.runePairsToJisMappings 0 0x3002 = (0, 0) := by
    decide
  simp [JNTAJISIncrementalEncoder.encodeStep,
    JNTAJISIncrementalEncoder.flushLookahead, JNTAJISIncrementalEncoder.flushLoop,
    JNTAJISIncrementalEncoder.flushOne, liftPut,
    hsm1, lookupRevTable_example_3002, appendReplacement]

theorem encodeStep_example_error_after :
    JNTAJISIncrementalEncoder.encodeStep exampleTables
        ⟨InvalidJISCode, liftPut (fun b c => some (putJISMen1 b c)), [], 0, 0⟩ [0x21, 0x21]
        0x3002 =
      some ⟨⟨InvalidJISCode, liftPut (fun b c => some (putJISMen1 b c)), [0x3002], 0, 0⟩, [],
        some (EncodeError.notConvertible 0x3002)⟩ := by
  have hsm1 : smRuneToJISMapping exampleTables.runePairsToJisMappings 0 0x3002 = (0, 0) := by
    decide
  simp [JNTAJISIncrementalEncoder.encodeStep,
    JNTAJISIncrementalEncoder.flushLookahead, JNTAJISIncrementalEncoder.flushLoop,
    JNTAJISIncrementalEncoder.flushOne, liftPut,
    hsm1, lookupRevTable_example_3002, appendReplacement]

/-- C13 as stated fails: the fresh incremental Men1 encoder over `exampleTables`,
without replacement, fails on the unmapped `U+3002`; its lookahead was empty before
that scalar and holds `U+3002` afterwards, and a following `Encode` of `U+3000` fails
again on `U+3002`, whereas an encoder that was never fed `U+3002` encodes `U+3000` to
`0x21 0x21`. -/
theorem Encode_no_taint_counterexample :
    (JNTAJISIncrementalEncoder.encodeStep exampleTables
        ⟨InvalidJISCode, liftPut (fun b c => some (putJISMen1 b c)), [], 0, 0⟩ []
        0x3002).map (fun res => (res.e.lookahead, res.e.state, res.e.shiftState, res.err)) =
      some ([0x3002], 0, 0, some (EncodeError.notConvertible 0x3002)) ∧
    ([0x3002] : List Rune) ≠ [] ∧
    (JNTAJISIncrementalEncoder.Encode exampleTables
        ⟨InvalidJISCode, liftPut (fun b c => some (putJISMen1 b c)), [0x3002], 0, 0⟩ []
        [0x3000]).map (fun res => (res.b, res.err)) =
      some ([], some (EncodeError.notConvertible 0x3002)) ∧
    (JNTAJISIncrementalEncoder.Encode exampleTables
        ⟨InvalidJISCode, liftPut (fun b c => some (putJISMen1 b c)), [], 0, 0⟩ []
        [0x3000]).map (fun res => (res.b, res.err)) =
      some ([0x21, 0x21], none) := by
  refine ⟨?_, by decide, ?_, ?_⟩
  · rw [encodeStep_example_error]; rfl
  · rw [Encode_example_tainted]; rfl
  · rw [Encode_example_fresh]; rfl

/-- C13, amended.  Whenever a call of `Encode` returns an error while processing the
scalar `r`, the encoder is not rolled back: it is left with automaton state `-1` and
the lookahead it had before `r` (the mode writer rejected an accepted pair), or with
automaton state 0 and `r` appended to the lookahead it had before `r` (the flush of
the lookahead failed); in the modes other than SISO `shiftState` is unchanged.  The
call returns at once, so a following call starts from this state. -/
theorem Encode_error_state (t : Tables) (e e1 : JNTAJISIncrementalEncoder) (b b1 : Bytes)
    (pre post : List Rune) (r : Rune) (res : EncodeResult)
    (hpre : e.Encode t b pre = some ⟨e1, b1, none⟩)
    (hstep : e1.encodeStep t b1 r = some res) (herr : res.err ≠ none) :
    e.Encode t b (pre ++ r :: post) = some res ∧
      ((res.e.state = -1 ∧ res.e.lookahead = e1.lookahead) ∨
        (res.e.state = 0 ∧ res.e.lookahead = e1.lookahead ++ [r])) ∧
      (∀ put : PutFunc, e1.putJIS = liftPut put → res.e.shiftState = e1.shiftState) := by
  refine ⟨?_, ?_, ?_⟩
  · rw [Encode_append, hpre]
    simp only [JNTAJISIncrementalEncoder.Encode, hstep]
    obtain ⟨e2, b2, err2⟩ := res
    cases err2 with
    | none => exact absurd rfl herr
    | some err => rfl
  · exact ((encodeStep_frame t e1 b1 r res hstep).2.2 herr).2.2
  · intro put hput
    have hs := encodeStep_liftPut t e1 put hput b1 r
    rw [hstep] at hs
    rcases hb : JNTAJISEncoder.encodeStep t ⟨e1.Replacement, put⟩ ⟨e1.state, e1.lookahead, b1⟩ r
      with _ | p
    · rw [hb] at hs; simp at hs
    · rw [hb] at hs
      simp only [Option.map_some', Option.some.injEq] at hs
      rw [hs]
      rfl

/-- C13 amended, at the concrete input of the counterexample. -/
theorem Encode_error_state_witness :
    JNTAJISIncrementalEncoder.Encode exampleTables
        ⟨InvalidJISCode, liftPut (fun b c => some (putJISMen1 b c)), [], 0, 0⟩ []
        ([0x3000] ++ 0x3002 :: []) =
      some ⟨⟨InvalidJISCode, liftPut (fun b c => some (putJISMen1 b c)), [0x3002], 0, 0⟩, [],
        some (EncodeError.notConvertible 0x3002)⟩ :=
  (Encode_error_state exampleTables _ _ [] [0x21, 0x21] [0x3000] [] 0x3002 _
    Encode_example_fresh encodeStep_example_error_after (by simp)).1

/-! ### A lead buffered at the end of a chunk -/

theorem sampleTables_pairwise :
    sampleTables.runeRangeToJISMappings.Pairwise (fun a b => a.end < b.start) := by
  simp [sampleTables]

theorem lookupRevTable_sample_30b8 :
    lookupRevTable sampleTables.runeRangeToJISMappings 0x30b8 = some (399, true) :=
  (lookupRevTable_of_pairwise sampleTables.runeRangeToJISMappings 0x30b8
    sampleTables_pairwise (by decide) (by decide) (by decide)).1 2 (by decide) (by decide)
    (by decide)

theorem lookupRevTable_sample_30e3 :
    lookupRevTable sampleTables.runeRangeToJISMappings 0x30e3 = some (442, true) :=
  (lookupRevTable_of_pairwise sampleTables.runeRangeToJISMappings 0x30e3
    sampleTables_pairwise (by decide) (by decide) (by decide)).1 3 (by decide) (by decide)
    (by decide)

theorem lookupRevTable_sample_30f3 :
    lookupRevTable sampleTables.runeRangeToJISMappings 0x30f3 = some (458, true) :=
  (lookupRevTable_of_pairwise sampleTables.runeRangeToJISMappings 0x30f3
    sampleTables_pairwise (by decide) (by decide) (by decide)).1 4 (by decide) (by decide)
    (by decide)

theorem lookupRevTable_sample_30af :
    lookupRevTable sampleTables.runeRangeToJISMappings 0x30af = some (390, true) :=
  (lookupRevTable_of_pairwise sampleTables.runeRangeToJISMappings 0x30af
    sampleTables_pairwise (by decide) (by decide) (by decide)).1 1 (by decide) (by decide)
    (by decide)

theorem lookupRevTable_sample_2e5 :
    lookupRevTable sampleTables.runeRangeToJISMappings 0x2e5 = some (1003, true) :=
  (lookupRevTable_of_pairwise sampleTables.runeRangeToJISMappings 0x2e5
    sampleTables_pairwise (by decide) (by decide) (by decide)).1 0 (by decide) (by decide)
    (by decide)

theorem lookupRevTable_example_304b :
    lookupRevTable exampleTables.runeRangeToJISMappings 0x304b = some (0, false) :=
  (lookupRevTable_of_pairwise exampleTables.runeRangeToJISMappings 0x304b
    (List.pairwise_singleton _ _) (by decide) (by decide) (by decide)).2 (by decide)

/-- `Encode` of the fresh incremental Men1 encoder over `sampleTables` on the three
katakana `U+30B8 U+30E3 U+30F3`. -/
theorem Encode_sample_katakana :
    JNTAJISIncrementalEncoder.Encode sampleTables
        ⟨InvalidJISCode, liftPut (fun b c => some (putJISMen1 b c)), [], 0, 0⟩ []
        [0x30b8, 0x30e3, 0x30f3] =
      some ⟨⟨InvalidJISCode, liftPut (fun b c => some (putJISMen1 b c)), [], 0, 0⟩,
        [0x25, 0x38, 0x25, 0x63, 0x25, 0x73], none⟩ := by
  have h1 : smRuneToJISMapping sampleTables.runePairsToJisMappings 0 0x30b8 = (0, 0) := by
    decide
  have h2 : smRuneToJISMapping sampleTables.runePairsToJisMappings 0 0x30e3 = (0, 0) := by
    decide
  have h3 : smRuneToJISMapping sampleTables.runePairsToJisMappings 0 0x30f3 = (0, 0) := by
    decide
  simp [JNTAJISIncrementalEncoder.Encode, JNTAJISIncrementalEncoder.encodeStep,
    JNTAJISIncrementalEncoder.flushLookahead, JNTAJISIncrementalEncoder.flushLoop,
    JNTAJISIncrementalEncoder.flushOne, liftPut, h1, h2, h3,
    lookupRevTable_sample_30b8, lookupRevTable_sample_30e3, lookupRevTable_sample_30f3,
    putJISMen1_eq, wirePair]

/-- `Encode` of the fresh incremental Men1 encoder over `sampleTables` on the two tone
letters `U+02E9 U+02E5`: the second is taken as the follow of the first. -/
theorem Encode_sample_tone_letters :
    JNTAJISIncrementalEncoder.Encode sampleTables
        ⟨InvalidJISCode, liftPut (fun b c => some (putJISMen1 b c)), [], 0, 0⟩ []
        [0x2e9, 0x2e5] =
      some ⟨⟨InvalidJISCode, liftPut (fun b c => some (putJISMen1 b c)), [], 0, 0⟩,
        [0x2b, 0x65], none⟩ := by
  have h1 : smRuneToJISMapping sampleTables.runePairsToJisMappings 0 0x2e9 = (2, 0) := by
    decide
  have h2 : smRuneToJISMapping sampleTables.runePairsToJisMappings 2 0x2e5 = (-1, 1008) := by
    decide
  simp [JNTAJISIncrementalEncoder.Encode, JNTAJISIncrementalEncoder.encodeStep,
    JNTAJISIncrementalEncoder.flushLookahead, JNTAJISIncrementalEncoder.flushLoop,
    liftPut, h1, h2, putJISMen1_eq, wirePair]

/-- C14 as stated fails.  Over `sampleTables`, for the fresh Men1 encoder (empty
lookahead, automaton state 0), the chunk `U+02E9 U+02E5` ends with the registered
lead `U+02E5`, but `Encode` takes it as the follow of `U+02E9`: the pair code 1008 is
written, the lookahead is left empty, and the following `Flush` appends nothing,
whereas the single-scalar encoding of `U+02E5` is `0x2b 0x60`.  And over
`exampleTables`, for a SISO encoder with replacement 1 that is in plane 2, `Flush`
after the chunk `U+304B` appends the replacement pair and then the byte `0x0e`. -/
theorem Encode_buffers_lead_counterexample :
    smRuneToJISMapping sampleTables.runePairsToJisMappings 0 0x2e5 = (1, 0) ∧
    (JNTAJISIncrementalEncoder.Encode sampleTables
        ⟨InvalidJISCode, liftPut (fun b c => some (putJISMen1 b c)), [], 0, 0⟩ []
        [0x2e9, 0x2e5]).map (fun res => (res.e.lookahead, res.e.state, res.b, res.err)) =
      some ([], 0, [0x2b, 0x65], none) ∧
    (JNTAJISIncrementalEncoder.Flush sampleTables
        ⟨InvalidJISCode, liftPut (fun b c => some (putJISMen1 b c)), [], 0, 0⟩
        [0x2b, 0x65]).map (fun res => (res.b, res.err)) = some ([0x2b, 0x65], none) ∧
    (JNTAJISIncrementalEncoder.flushOne sampleTables
        ⟨InvalidJISCode, liftPut (fun b c => some (putJISMen1 b c)), [], 0, 0⟩
        [0x2b, 0x65] 0x2e5).map (fun res => (res.b, res.err)) =
      some ([0x2b, 0x65, 0x2b, 0x60], none) ∧
    (JNTAJISIncrementalEncoder.Encode exampleTables ⟨1, putJISSISO, [], 1, 0⟩ []
        [0x304b]).map (fun res => (res.e.lookahead, res.e.state, res.e.shiftState, res.b, res.err)) =
      some ([0x304b], 1, 1, [], none) ∧
    (JNTAJISIncrementalEncoder.flushOne exampleTables ⟨1, putJISSISO, [0x304b], 1, 1⟩ []
        0x304b).map (fun res => (res.b, res.err)) = some ([0x21, 0x22], none) ∧
    (JNTAJISIncrementalEncoder.Flush exampleTables ⟨1, putJISSISO, [0x304b], 1, 1⟩
        []).map (fun res => (res.b, res.err)) = some ([0x21, 0x22, 0x0e], none) := by
  refine ⟨by decide, ?_, ?_, ?_, ?_, ?_, ?_⟩
  · rw [Encode_sample_tone_letters]; rfl
  · simp [JNTAJISIncrementalEncoder.Flush, JNTAJISIncrementalEncoder.flushLookahead,
      JNTAJISIncrementalEncoder.flushLoop, putShift]
  · simp [JNTAJISIncrementalEncoder.flushOne, liftPut, lookupRevTable_sample_2e5,
      putJISMen1_eq, wirePair]
  · have h1 : smRuneToJISMapping exampleTables.runePairsToJisMappings 0 0x304b = (1, 0) := by
      decide
    simp [JNTAJISIncrementalEncoder.Encode, JNTAJISIncrementalEncoder.encodeStep, h1]
  · simp [JNTAJISIncrementalEncoder.flushOne, lookupRevTable_example_304b,
      appendReplacement, InvalidJISCode, putJISMen1_eq, wirePair]
  · simp [JNTAJISIncrementalEncoder.Flush, JNTAJISIncrementalEncoder.flushLookahead,
      JNTAJISIncrementalEncoder.flushLoop, JNTAJISIncrementalEncoder.flushOne,
      lookupRevTable_example_304b, appendReplacement, InvalidJISCode, putJISMen1_eq,
      wirePair, putShift]

/-- C14, amended.  Let the pair list be in ascending order of its leads and `l` its
`j`-th lead.  If `Encode` reaches `l` as the last scalar of a chunk with an empty
lookahead and automaton state 0 (the scalars before `l` were encoded without error and
left no pending lead; in particular when the chunk is `l` alone and the encoder had an
empty lookahead and state 0), then `Encode` appends no bytes for `l` and leaves `l` as
the only scalar of the lookahead, in lead state `j + 1`.  A following `Flush` runs the
single-scalar path on `l` (`lookupRevTable`, the mode writer, or the replacement) and
then `putShift(b, 0)`: it appends the single-scalar encoding of `l`, and after it the
byte `0x0e` when `shiftState` is not 0 at that point. -/
theorem Encode_buffers_lead (t : Tables) (e e1 : JNTAJISIncrementalEncoder) (b b1 : Bytes)
    (pre : List Rune) (j : Nat) (hj : j < t.runePairsToJisMappings.length)
    (hasc : t.runePairsToJisMappings.Pairwise (fun a b => a.R < b.R))
    (hpre : e.Encode t b pre = some ⟨e1, b1, none⟩)
    (hst : e1.state = 0) (hla : e1.lookahead = []) :
    e.Encode t b (pre ++ [(t.runePairsToJisMappings.get ⟨j, hj⟩).R]) =
        some ⟨{ e1 with state := (j : Int) + 1,
                        lookahead := [(t.runePairsToJisMappings.get ⟨j, hj⟩).R] }, b1, none⟩ ∧
      JNTAJISIncrementalEncoder.Flush t
          { e1 with state := (j : Int) + 1,
                    lookahead := [(t.runePairsToJisMappings.get ⟨j, hj⟩).R] } b1 =
        (match JNTAJISIncrementalEncoder.flushOne t
            { e1 with state := (j : Int) + 1,
                      lookahead := [(t.runePairsToJisMappings.get ⟨j, hj⟩).R] } b1
            (t.runePairsToJisMappings.get ⟨j, hj⟩).R with
          | none => none
          | some ⟨e2, b2, some err⟩ => some ⟨e2, b2, some err⟩
          | some ⟨e2, b2, none⟩ =>
            some ⟨{ e2 with state := 0, lookahead := [], shiftState := 0 },
              b2 ++ (if e2.shiftState ≠ 0 then [0x0e] else []), none⟩) := by
  refine ⟨?_, ?_⟩
  · rw [Encode_append, hpre]
    obtain ⟨R, p, la, ss, st⟩ := e1
    simp only at hst hla
    subst hst hla
    have hsm : smRuneToJISMapping t.runePairsToJisMappings 0
        (t.runePairsToJisMappings.get ⟨j, hj⟩).R = ((j : Int) + 1, 0) := by
      unfold smRuneToJISMapping
      rw [if_pos rfl]
      exact smCase0_lead t.runePairsToJisMappings hasc j hj
    have hne1 : ¬ ((j : Int) + 1 = -1) := by omega
    have hne0 : ¬ ((j : Int) + 1 = 0) := by omega
    simp only [JNTAJISIncrementalEncoder.Encode, JNTAJISIncrementalEncoder.encodeStep, hsm,
      hne1, hne0, if_false, List.nil_append]
  · unfold JNTAJISIncrementalEncoder.Flush JNTAJISIncrementalEncoder.flushLookahead
    simp only [JNTAJISIncrementalEncoder.flushLoop]
    rcases JNTAJISIncrementalEncoder.flushOne t _ b1 _ with _ | ⟨e2, b2, err⟩
    · rfl
    · cases err with
      | some err => rfl
      | none =>
        by_cases hs : e2.shiftState = 0
        · simp [putShift, hs]
        · have hs' : ¬ (0 = e2.shiftState) := fun h => hs h.symm
          simp [putShift, hs, hs']

/-- C14, the witness of the specification: in Men1 mode over `sampleTables`, `Encode`
of `U+30B8 U+30E3 U+30F3 U+30AF` returns the six bytes of the first three scalars
and keeps the lead `U+30AF`; `Flush` then adds `0x25 0x2f`. -/
theorem Encode_buffers_lead_witness :
    JNTAJISIncrementalEncoder.Encode sampleTables
        ⟨InvalidJISCode, liftPut (fun b c => some (putJISMen1 b c)), [], 0, 0⟩ []
        ([0x30b8, 0x30e3, 0x30f3] ++ [0x30af]) =
      some ⟨⟨InvalidJISCode, liftPut (fun b c => some (putJISMen1 b c)), [0x30af], 0, 3⟩,
        [0x25, 0x38, 0x25, 0x63, 0x25, 0x73], none⟩ ∧
    (JNTAJISIncrementalEncoder.Flush sampleTables
        ⟨InvalidJISCode, liftPut (fun b c => some (putJISMen1 b c)), [0x30af], 0, 3⟩
        [0x25, 0x38, 0x25, 0x63, 0x25, 0x73]).map (fun res => (res.b, res.err)) =
      some ([0x25, 0x38, 0x25, 0x63, 0x25, 0x73, 0x25, 0x2f], none) := by
  have h := Encode_buffers_lead sampleTables
    ⟨InvalidJISCode, liftPut (fun b c => some (putJISMen1 b c)), [], 0, 0⟩
    ⟨InvalidJISCode, liftPut (fun b c => some (putJISMen1 b c)), [], 0, 0⟩ []
    [0x25, 0x38, 0x25, 0x63, 0x25, 0x73] [0x30b8, 0x30e3, 0x30f3] 2 (by decide)
    (by simp [sampleTables]) Encode_sample_katakana rfl rfl
  refine ⟨h.1, ?_⟩
  have h2 : JNTAJISIncrementalEncoder.Flush sampleTables
      ⟨InvalidJISCode, liftPut (fun b c => some (putJISMen1 b c)), [0x30af], 0, 3⟩
      [0x25, 0x38, 0x25, 0x63, 0x25, 0x73] =
      (match JNTAJISIncrementalEncoder.flushOne sampleTables
          ⟨InvalidJISCode, liftPut (fun b c => some (putJISMen1 b c)), [0x30af], 0, 3⟩
          [0x25, 0x38, 0x25, 0x63, 0x25, 0x73] 0x30af with
        | none => none
        | some ⟨e2, b2, some err⟩ => some ⟨e2, b2, some err⟩
        | some ⟨e2, b2, none⟩ =>
          some ⟨{ e2 with state := 0, lookahead := [], shiftState := 0 },
            b2 ++ (if e2.shiftState ≠ 0 then [0x0e] else []), none⟩) := h.2
  rw [h2]
  simp [JNTAJISIncrementalEncoder.flushOne, liftPut, lookupRevTable_sample_30af,
    putJISMen1_eq, wirePair]

/-! ### What the incremental encoder appends -/

theorem flushOne_appends (P : Bytes → Prop) (hP : PairClosed P) (t : Tables)
    (e : JNTAJISIncrementalEncoder) (hput : AppendsBy P e.putJIS) (b : Bytes) (r : Rune)
    (res : EncodeResult) (h : e.flushOne t b r = some res) (hok : res.err = none) :
    ∃ w, res.b = b ++ w ∧ P w := by
  unfold JNTAJISIncrementalEncoder.flushOne at h
  rcases hl : lookupRevTable t.runeRangeToJISMappings r with _ | ⟨jis, ok⟩
  · simp [hl] at h
  · simp only [hl] at h
    have hstep : ∀ s1 b1 ok1,
        (if ok = true then e.putJIS e.shiftState b jis else some (e.shiftState, b, false)) =
          some (s1, b1, ok1) → ∃ w, b1 = b ++ w ∧ P w := by
      intro s1 b1 ok1 hp
      cases ok
      · simp only [Bool.false_eq_true, if_false, Option.some.injEq, Prod.mk.injEq] at hp
        exact ⟨[], by rw [← hp.2.1]; simp, hP.1⟩
      · simp only [if_true] at hp
        exact hput _ _ _ _ _ _ hp
    rcases hp : (if ok = true then e.putJIS e.shiftState b jis else some (e.shiftState, b, false))
      with _ | ⟨s1, b1, ok1⟩
    · simp [hp] at h
    · simp only [hp] at h
      obtain ⟨w, hw, hPw⟩ := hstep s1 b1 ok1 hp
      cases ok1
      · simp only [Bool.not_false, if_true] at h
        rcases ha : appendReplacement b1 r e.Replacement with _ | ⟨b2, err⟩
        · simp [ha] at h
        · simp only [ha, Option.some.injEq] at h
          subst h
          simp only [] at hok
          rcases appendReplacement_cases b1 r e.Replacement b2 err ha with hc | hc
          · refine ⟨w ++ wirePair e.Replacement, ?_, hP.2.1 _ _ hPw (hP.2.2 _)⟩
            simp only []
            rw [hc.2.2.2, hw, List.append_assoc]
          · rw [hok] at hc
            simp at hc
      · simp only [Bool.not_true, Bool.false_eq_true, if_false, Option.some.injEq] at h
        subst h
        exact ⟨w, hw, hPw⟩

theorem flushLoop_appends (P : Bytes → Prop) (hP : PairClosed P) (t : Tables)
    (rs : List Rune) :
    ∀ (e : JNTAJISIncrementalEncoder) (b : Bytes) (res : EncodeResult),
      AppendsBy P e.putJIS → e.flushLoop t b rs = some res → res.err = none →
      ∃ w, res.b = b ++ w ∧ P w := by
  induction rs with
  | nil =>
    intro e b res _ h _
    simp only [JNTAJISIncrementalEncoder.flushLoop, Option.some.injEq] at h
    subst h
    exact ⟨[], by simp, hP.1⟩
  | cons r rs ih =>
    intro e b res hput h hok
    unfold JNTAJISIncrementalEncoder.flushLoop at h
    rcases h1 : e.flushOne t b r with _ | ⟨e1, b1, _ | err⟩
    · simp [h1] at h
    · simp only [h1] at h
      have hf := flushOne_frame t e b r _ h1
      simp only [] at hf
      obtain ⟨w1, hw1, hP1⟩ := flushOne_appends P hP t e hput b r _ h1 rfl
      simp only [] at hw1
      have hput1 : AppendsBy P e1.putJIS := by rw [hf.1]; exact hput
      obtain ⟨w2, hw2, hP2⟩ := ih e1 b1 res hput1 h hok
      exact ⟨w1 ++ w2, by rw [hw2, hw1, List.append_assoc], hP.2.1 _ _ hP1 hP2⟩
    · simp only [h1, Option.some.injEq] at h
      subst h
      simp at hok

theorem flushLookahead_appends (P : Bytes → Prop) (hP : PairClosed P) (t : Tables)
    (e : JNTAJISIncrementalEncoder) (hput : AppendsBy P e.putJIS) (b : Bytes)
    (res : EncodeResult) (h : e.flushLookahead t b = some res) (hok : res.err = none) :
    ∃ w, res.b = b ++ w ∧ P w := by
  unfold JNTAJISIncrementalEncoder.flushLookahead at h
  rcases h1 : e.flushLoop t b e.lookahead with _ | ⟨e1, b1, _ | err⟩
  · simp [h1] at h
  · simp only [h1, Option.some.injEq] at h
    subst h
    exact flushLoop_appends P hP t e.lookahead e b ⟨e1, b1, none⟩ hput h1 rfl
  · simp only [h1, Option.some.injEq] at h
    subst h
    simp at hok

theorem encodeStep_appends (P : Bytes → Prop) (hP : PairClosed P) (t : Tables)
    (e : JNTAJISIncrementalEncoder) (hput : AppendsBy P e.putJIS) (b : Bytes) (r : Rune)
    (res : EncodeResult) (h : e.encodeStep t b r = some res) (hok : res.err = none) :
    ∃ w, res.b = b ++ w ∧ P w := by
  unfold JNTAJISIncrementalEncoder.encodeStep at h
  simp only [] at h
  generalize smRuneToJISMapping t.runePairsToJisMappings e.state r = sj at h
  obtain ⟨s, jis⟩ := sj
  by_cases h1 : s = -1
  · subst h1
    simp only [if_true] at h
    rcases hp : e.putJIS e.shiftState b jis with _ | ⟨s1, b1, ok⟩
    · simp [hp] at h
    · simp only [hp] at h
      obtain ⟨w, hw, hPw⟩ := hput _ _ _ _ _ _ hp
      have hempty : ∀ (e2 : JNTAJISIncrementalEncoder) (b2 : Bytes), e2.lookahead = [] →
          e2.flushLookahead t b2 = some res → res.b = b2 := by
        intro e2 b2 hl2 h2
        simp only [JNTAJISIncrementalEncoder.flushLookahead, hl2,
          JNTAJISIncrementalEncoder.flushLoop, Option.some.injEq] at h2
        subst h2
        rfl
      cases ok
      · simp only [Bool.not_false, if_true] at h
        rcases ha : appendReplacement b1 r e.Replacement with _ | ⟨b2, _ | err⟩
        · simp [ha] at h
        · simp only [ha] at h
          have hb := hempty _ b2 rfl h
          rcases appendReplacement_cases b1 r e.Replacement b2 none ha with hc | hc
          · refine ⟨w ++ wirePair e.Replacement, ?_, hP.2.1 _ _ hPw (hP.2.2 _)⟩
            rw [hb, hc.2.2.2, hw, List.append_assoc]
          · simp at hc
        · simp only [ha, Option.some.injEq] at h
          subst h
          simp at hok
      · simp only [Bool.not_true, Bool.false_eq_true, if_false] at h
        have hb := hempty _ b1 rfl h
        exact ⟨w, by rw [hb, hw], hPw⟩
  · by_cases h0 : s = 0
    · subst h0
      simp only [h1, if_false, if_true] at h
      exact flushLookahead_appends P hP t
        { e with state := 0, lookahead := e.lookahead ++ [r] } hput b res h hok
    · simp only [h1, h0, if_false, Option.some.injEq] at h
      subst h
      exact ⟨[], by simp, hP.1⟩

theorem Encode_appends (P : Bytes → Prop) (hP : PairClosed P) (t : Tables) (m : List Rune) :
    ∀ (e : JNTAJISIncrementalEncoder) (b : Bytes) (res : EncodeResult),
      AppendsBy P e.putJIS → e.Encode t b m = some res → res.err = none →
      ∃ w, res.b = b ++ w ∧ P w := by
  induction m with
  | nil =>
    intro e b res _ h _
    simp only [JNTAJISIncrementalEncoder.Encode, Option.some.injEq] at h
    subst h
    exact ⟨[], by simp, hP.1⟩
  | cons r m ih =>
    intro e b res hput h hok
    unfold JNTAJISIncrementalEncoder.Encode at h
    rcases h1 : e.encodeStep t b r with _ | ⟨e1, b1, _ | err⟩
    · simp [h1] at h
    · simp only [h1] at h
      have hf := encodeStep_frame t e b r _ h1
      simp only [] at hf
      obtain ⟨w1, hw1, hP1⟩ := encodeStep_appends P hP t e hput b r _ h1 rfl
      simp only [] at hw1
      have hput1 : AppendsBy P e1.putJIS := by rw [hf.1]; exact hput
      obtain ⟨w2, hw2, hP2⟩ := ih e1 b1 res hput1 h hok
      exact ⟨w1 ++ w2, by rw [hw2, hw1, List.append_assoc], hP.2.1 _ _ hP1 hP2⟩
    · simp only [h1, Option.some.injEq] at h
      subst h
      simp at hok

/-! ### What the mode writers append -/

theorem pairsOnly_wirePair (c : Nat) : pairsOnly (wirePair c) := by
  refine ⟨by simp [wirePair], ?_⟩
  intro x hx
  simp only [wirePair, List.mem_cons, List.mem_singleton, List.not_mem_nil, or_false] at hx
  rcases hx with hx | hx <;> omega

theorem pairsOnly_append (u v : Bytes) (hu : pairsOnly u) (hv : pairsOnly v) :
    pairsOnly (u ++ v) := by
  refine ⟨?_, ?_⟩
  · have h1 := hu.1
    have h2 := hv.1
    rw [List.length_append]
    omega
  · intro x hx
    rcases List.mem_append.mp hx with h | h
    · exact hu.2 x h
    · exact hv.2 x h

theorem pairsOnly_closed : PairClosed pairsOnly :=
  ⟨⟨rfl, fun _ h => absurd h (List.not_mem_nil _)⟩, pairsOnly_append, pairsOnly_wirePair⟩

theorem pairsOnly_flatMap (l : List Nat) : pairsOnly (l.flatMap wirePair) := by
  induction l with
  | nil => exact pairsOnly_closed.1
  | cons c l ih =>
    rw [List.flatMap_cons]
    exact pairsOnly_append _ _ (pairsOnly_wirePair c) ih

/-- Each of the three plain mode writers appends pairs to the buffer it is handed,
and returns the buffer unchanged when it rejects the code. -/
theorem modeWriter_appends (t : Tables) (mode : ConversionMode) (put : PutFunc)
    (hmode : putFuncForConversionMode t mode = some put) (b : Bytes) (c : Nat)
    (b1 : Bytes) (ok : Bool) (h : put b c = some (b1, ok)) :
    (∃ w, b1 = b ++ w ∧ pairsOnly w) ∧ (ok = false → b1 = b) := by
  have hnil : ∃ w, b = b ++ w ∧ pairsOnly w := ⟨[], by simp, pairsOnly_closed.1⟩
  have hone : ∃ w, b ++ wirePair c = b ++ w ∧ pairsOnly w :=
    ⟨wirePair c, rfl, pairsOnly_wirePair c⟩
  cases mode with
  | ConversionModeSISO => simp [putFuncForConversionMode] at hmode
  | ConversionModeMen1 =>
    simp only [putFuncForConversionMode, Option.some.injEq] at hmode
    subst hmode
    simp only [putJISMen1_eq, Option.some.injEq] at h
    by_cases hc : c < 8836
    · simp only [hc, if_true, Prod.mk.injEq] at h
      obtain ⟨h1, h2⟩ := h
      subst h1 h2
      exact ⟨hone, fun hf => by simp at hf⟩
    · simp only [hc, if_false, Prod.mk.injEq] at h
      obtain ⟨h1, h2⟩ := h
      subst h1 h2
      exact ⟨hnil, fun _ => rfl⟩
  | ConversionModeJISX0208 =>
    simp only [putFuncForConversionMode, Option.some.injEq] at hmode
    subst hmode
    simp only [putJISX0208, kuTenBytes_eq_wirePair, Option.some.injEq] at h
    by_cases hc : c ≥ txMappingsLen
    · simp only [hc, if_true, Prod.mk.injEq] at h
      obtain ⟨h1, h2⟩ := h
      subst h1 h2
      exact ⟨hnil, fun _ => rfl⟩
    · simp only [hc, if_false] at h
      cases hcl : (t.txMappings c).class <;> simp only [hcl, Prod.mk.injEq] at h <;>
        obtain ⟨h1, h2⟩ := h <;> subst h1 h2 <;>
        first
          | exact ⟨hnil, fun _ => rfl⟩
          | exact ⟨hone, fun hf => by simp at hf⟩
  | ConversionModeTranslit =>
    simp only [putFuncForConversionMode, Option.some.injEq] at hmode
    subst hmode
    simp only [putJISX0208Translit, kuTenBytes_eq_wirePair] at h
    by_cases hc : c ≥ txMappingsLen
    · simp only [hc, if_true, Option.some.injEq, Prod.mk.injEq] at h
      obtain ⟨h1, h2⟩ := h
      subst h1 h2
      exact ⟨hnil, fun _ => rfl⟩
    · simp only [hc, if_false] at h
      have hrest : (if (t.txMappings c).txLen > 0 then
            if (t.txMappings c).txLen > 4 then none
            else some (((List.ofFn (t.txMappings c).txJIS).take (t.txMappings c).txLen).foldl
              (fun b c => b ++ wirePair c) b, true)
          else some (b, false)) = some (b1, ok) →
          (∃ w, b1 = b ++ w ∧ pairsOnly w) ∧ (ok = false → b1 = b) := by
        intro h
        by_cases h0 : (t.txMappings c).txLen > 0
        · by_cases h4 : (t.txMappings c).txLen > 4
          · simp [h0, h4] at h
          · simp only [h0, h4, if_true, if_false, Option.some.injEq, Prod.mk.injEq] at h
            obtain ⟨h1, h2⟩ := h
            subst h1 h2
            have hf := foldl_kuTenBytes
              ((List.ofFn (t.txMappings c).txJIS).take (t.txMappings c).txLen) b
            simp only [kuTenBytes_eq_wirePair] at hf
            exact ⟨⟨_, hf, pairsOnly_flatMap _⟩, fun hf => by simp at hf⟩
        · simp only [h0, if_false, Option.some.injEq, Prod.mk.injEq] at h
          obtain ⟨h1, h2⟩ := h
          subst h1 h2
          exact ⟨hnil, fun _ => rfl⟩
      cases hcl : (t.txMappings c).class <;> simp only [hcl] at h <;>
        first
          | exact hrest h
          | (simp only [Option.some.injEq, Prod.mk.injEq] at h
             obtain ⟨h1, h2⟩ := h
             subst h1 h2
             exact ⟨hone, fun hf => by simp at hf⟩)

theorem liftPut_appends (t : Tables) (mode : ConversionMode) (put : PutFunc)
    (hmode : putFuncForConversionMode t mode = some put) :
    AppendsBy pairsOnly (liftPut put) := by
  intro s b c s1 b1 ok h
  unfold liftPut at h
  rcases hp : put b c with _ | ⟨b2, ok2⟩
  · simp [hp] at h
  · simp only [hp, Option.some.injEq, Prod.mk.injEq] at h
    obtain ⟨_, h2, h3⟩ := h
    subst h2 h3
    exact (modeWriter_appends t mode put hmode b c _ _ hp).1

/-! ### The wire format of the modes other than SISO -/

theorem Encode_liftPut_shiftState (t : Tables) (put : PutFunc) (m : List Rune)
    (e : JNTAJISIncrementalEncoder) (b : Bytes) (res : EncodeResult)
    (he : e.putJIS = liftPut put) (h : e.Encode t b m = some res) :
    res.e.shiftState = e.shiftState := by
  rw [Encode_liftPut t put m e b he] at h
  obtain ⟨p, _, hres⟩ := Option.map_eq_some'.mp h
  subst hres
  rfl

theorem flushLookahead_liftPut_shiftState (t : Tables) (put : PutFunc)
    (e : JNTAJISIncrementalEncoder) (b : Bytes) (res : EncodeResult)
    (he : e.putJIS = liftPut put) (h : e.flushLookahead t b = some res) :
    res.e.shiftState = e.shiftState := by
  rw [flushLookahead_liftPut t e put he b] at h
  rcases hl : JNTAJISEncoder.flushLoop t ⟨e.Replacement, put⟩ b e.lookahead
    with _ | ⟨b1, _ | err⟩
  · simp [hl] at h
  · simp only [hl, Option.some.injEq] at h
    subst h
    rfl
  · simp only [hl, Option.some.injEq] at h
    subst h
    rfl

theorem Flush_liftPut_appends (t : Tables) (mode : ConversionMode) (put : PutFunc)
    (hmode : putFuncForConversionMode t mode = some put)
    (e : JNTAJISIncrementalEncoder) (b : Bytes) (res : EncodeResult)
    (he : e.putJIS = liftPut put) (hs : e.shiftState = 0)
    (h : e.Flush t b = some res) (hok : res.err = none) :
    (∃ w, res.b = b ++ w ∧ pairsOnly w) ∧ res.e.shiftState = 0 ∧ res.e.putJIS = e.putJIS := by
  have hput : AppendsBy pairsOnly e.putJIS := by
    rw [he]; exact liftPut_appends t mode put hmode
  unfold JNTAJISIncrementalEncoder.Flush at h
  rcases h1 : e.flushLookahead t b with _ | ⟨e1, b1, _ | err⟩
  · simp [h1] at h
  · simp only [h1] at h
    have hss := flushLookahead_liftPut_shiftState t put e b _ he h1
    have hf := flushLookahead_frame t e b _ h1
    have ha := flushLookahead_appends pairsOnly pairsOnly_closed t e hput b _ h1 rfl
    simp only [] at hss hf ha
    rw [hs] at hss
    simp only [putShift, hss, ne_eq, not_true_eq_false, if_false, Option.some.injEq] at h
    subst h
    exact ⟨ha, rfl, hf.1⟩
  · simp only [h1, Option.some.injEq] at h
    subst h
    simp at hok

theorem runCalls_liftPut (t : Tables) (mode : ConversionMode) (put : PutFunc)
    (hmode : putFuncForConversionMode t mode = some put) (calls : List EncoderCall) :
    ∀ (e : JNTAJISIncrementalEncoder) (b : Bytes) (res : EncodeResult),
      e.putJIS = liftPut put → e.shiftState = 0 → runCalls t e b calls = some res →
      res.err = none → ∃ w, res.b = b ++ w ∧ pairsOnly w ∧ res.e.shiftState = 0 := by
  induction calls with
  | nil =>
    intro e b res _ hs h _
    simp only [runCalls, Option.some.injEq] at h
    subst h
    exact ⟨[], by simp, pairsOnly_closed.1, hs⟩
  | cons c cs ih =>
    intro e b res he hs h hok
    have hput : AppendsBy pairsOnly e.putJIS := by
      rw [he]; exact liftPut_appends t mode put hmode
    have hcall : ∀ e1 b1, e.call t b c = some ⟨e1, b1, none⟩ →
        (∃ w, b1 = b ++ w ∧ pairsOnly w) ∧ e1.shiftState = 0 ∧ e1.putJIS = liftPut put := by
      intro e1 b1 hc
      cases c with
      | encode m =>
        simp only [JNTAJISIncrementalEncoder.call] at hc
        have h1 := Encode_appends pairsOnly pairsOnly_closed t m e b _ hput hc rfl
        have h2 := Encode_liftPut_shiftState t put m e b _ he hc
        have h3 := Encode_frame t m e b _ hc
        simp only [] at h1 h2 h3
        exact ⟨h1, h2.trans hs, h3.1.trans he⟩
      | flush =>
        simp only [JNTAJISIncrementalEncoder.call] at hc
        have h1 := Flush_liftPut_appends t mode put hmode e b _ he hs hc rfl
        simp only [] at h1
        exact ⟨h1.1, h1.2.1, h1.2.2.trans he⟩
    unfold runCalls at h
    rcases h1 : e.call t b c with _ | ⟨e1, b1, _ | err⟩
    · simp [h1] at h
    · simp only [h1] at h
      obtain ⟨⟨w1, hw1, hP1⟩, hs1, he1⟩ := hcall e1 b1 h1
      obtain ⟨w2, hw2, hP2, hs2⟩ := ih e1 b1 res he1 hs1 h hok
      exact ⟨w1 ++ w2, by rw [hw2, hw1, List.append_assoc], pairsOnly_append _ _ hP1 hP2, hs2⟩
    · simp only [h1, Option.some.injEq] at h
      subst h
      simp at hok

theorem batchEncode_pairsOnly (t : Tables) (mode : ConversionMode) (replacement : Nat)
    (m : List Rune) (bs : Bytes) (h : batchEncode t mode replacement m = some (bs, none)) :
    pairsOnly bs := by
  unfold batchEncode NewJNTAJISEncoder at h
  rcases hput : putFuncForConversionMode t mode with _ | put
  · simp [hput] at h
  · simp only [hput] at h
    unfold JNTAJISEncoder.EncodeAsJISX0213Men1 at h
    have hE := Encode_liftPut t put m ⟨replacement, liftPut put, [], 0, 0⟩ [] rfl
    simp only [] at hE
    have hap : AppendsBy pairsOnly (liftPut put) := liftPut_appends t mode put hput
    rcases hloop : JNTAJISEncoder.encodeLoop t ⟨replacement, put⟩ ⟨0, [], []⟩ m
      with _ | ⟨st, _ | err1⟩
    · simp [hloop] at h
    · simp only [hloop] at h
      rw [hloop] at hE
      simp only [Option.map_some'] at hE
      obtain ⟨w1, hw1, hP1⟩ := Encode_appends pairsOnly pairsOnly_closed t m _ [] _ hap hE rfl
      have hF := flushLoop_liftPut t ⟨replacement, liftPut put, st.rb, 0, st.s⟩ put rfl
        st.rb st.b
      simp only [h, Option.map_some'] at hF
      obtain ⟨w2, hw2, hP2⟩ := flushLoop_appends pairsOnly pairsOnly_closed t st.rb _ st.b _
        hap hF rfl
      simp only [JNTAJISIncrementalEncoder.withBatch, List.nil_append] at hw1
      simp only [] at hw2
      rw [hw2, hw1]
      exact pairsOnly_append _ _ hP1 hP2
    · simp [hloop] at h

theorem runCalls_example :
    runCalls exampleTables
        ⟨InvalidJISCode, liftPut (fun b c => some (putJISMen1 b c)), [], 0, 0⟩ []
        [EncoderCall.encode [0x3000], EncoderCall.flush] =
      some ⟨⟨InvalidJISCode, liftPut (fun b c => some (putJISMen1 b c)), [], 0, 0⟩,
        [0x21, 0x21], none⟩ := by
  simp [runCalls, JNTAJISIncrementalEncoder.call, Encode_example_fresh,
    JNTAJISIncrementalEncoder.Flush,
    JNTAJISIncrementalEncoder.flushLookahead, JNTAJISIncrementalEncoder.flushLoop, putShift]

/-- C20. Wire format of the modes other than SISO.  For every table, every mode in
{Men1, JISX0208, Translit}, every replacement and every input: the bytes returned by a
successful batch encode are two-byte pairs only (an even number of bytes, each in
`[0x21, 0x7e]`); and for a fresh incremental encoder, what a successful sequence of
`Encode` and `Flush` calls appends to the buffer it started from is two-byte pairs
only, so it holds neither `0x0e` nor `0x0f`, and `shiftState` is 0 at the end. -/
theorem nonSISO_wire_format (t : Tables) (mode : ConversionMode) (replacement : Nat)
    (hmode : mode ≠ ConversionMode.ConversionModeSISO) :
    (∀ (m : List Rune) (bs : Bytes),
        batchEncode t mode replacement m = some (bs, none) → pairsOnly bs) ∧
      (∀ (e : JNTAJISIncrementalEncoder) (b : Bytes) (calls : List EncoderCall)
          (res : EncodeResult),
        NewJNTAJISIncrementalEncoder t mode replacement = some e →
        runCalls t e b calls = some res → res.err = none →
        ∃ w, res.b = b ++ w ∧ pairsOnly w ∧ (∀ x ∈ w, x ≠ 0x0e ∧ x ≠ 0x0f) ∧
          res.e.shiftState = 0) := by
  refine ⟨fun m bs h => batchEncode_pairsOnly t mode replacement m bs h, ?_⟩
  intro e b calls res hnew hrun hok
  unfold NewJNTAJISIncrementalEncoder at hnew
  rw [if_neg hmode] at hnew
  rcases hput : putFuncForConversionMode t mode with _ | put
  · simp [hput] at hnew
  · simp only [hput, Option.some.injEq] at hnew
    subst hnew
    obtain ⟨w, hw, hP, hs⟩ := runCalls_liftPut t mode put hput calls _ b res rfl rfl hrun hok
    refine ⟨w, hw, hP, ?_, hs⟩
    intro x hx
    have := hP.2 x hx
    omega

/-- C20, at a concrete input: in Men1 mode over `exampleTables`, `Encode` of `U+3000`
followed by `Flush` returns `0x21 0x21`. -/
theorem nonSISO_wire_format_witness :
    ConversionMode.ConversionModeMen1 ≠ ConversionMode.ConversionModeSISO ∧
      ∃ w, ([0x21, 0x21] : Bytes) = [] ++ w ∧ pairsOnly w ∧ (∀ x ∈ w, x ≠ 0x0e ∧ x ≠ 0x0f) ∧
        (0 : Int) = 0 :=
  ⟨by decide,
    (nonSISO_wire_format exampleTables ConversionMode.ConversionModeMen1 InvalidJISCode
      (by decide)).2 _ [] [EncoderCall.encode [0x3000], EncoderCall.flush] _
      NewJNTAJISIncrementalEncoder_example runCalls_example rfl⟩

/-! ### Shift bytes in the output of the SISO mode -/

theorem shiftsLeadPairs_tail (c : Nat) (rest : Bytes) (h : shiftsLeadPairs (c :: rest) = true) :
    shiftsLeadPairs rest = true := by
  unfold shiftsLeadPairs at h
  by_cases hc : c = 0x0e ∨ c = 0x0f
  · rw [if_pos hc] at h
    exact (Bool.and_eq_true _ _ ▸ h).2
  · rw [if_neg hc] at h
    exact h

theorem shiftsLeadPairs_append (u v : Bytes) (hu : shiftsLeadPairs u = true)
    (hv : shiftsLeadPairs v = true) : shiftsLeadPairs (u ++ v) = true := by
  induction u with
  | nil => exact hv
  | cons c rest ih =>
    have hrest := ih (shiftsLeadPairs_tail c rest hu)
    rw [List.cons_append]
    unfold shiftsLeadPairs at hu ⊢
    by_cases hc : c = 0x0e ∨ c = 0x0f
    · rw [if_pos hc] at hu ⊢
      rw [hrest, Bool.and_true]
      have hu1 := (Bool.and_eq_true _ _ ▸ hu).1
      match rest, hu1 with
      | c1 :: c2 :: r, hu1 => exact hu1
    · rw [if_neg hc]
      exact hrest

theorem shiftsLeadPairs_pair (c1 c2 : Nat) (h1 : 0x21 ≤ c1 ∧ c1 ≤ 0x7e)
    (h2 : 0x21 ≤ c2 ∧ c2 ≤ 0x7e) :
    shiftsLeadPairs [c1, c2] = true ∧ ∀ x, shiftsLeadPairs [x, c1, c2] = true := by
  have n1 : ¬ (c1 = 0x0e ∨ c1 = 0x0f) := by omega
  have n2 : ¬ (c2 = 0x0e ∨ c2 = 0x0f) := by omega
  have hp : shiftsLeadPairs [c1, c2] = true := by
    simp only [shiftsLeadPairs, n1, n2, if_false]
  refine ⟨hp, ?_⟩
  intro x
  unfold shiftsLeadPairs
  by_cases hx : x = 0x0e ∨ x = 0x0f
  · rw [if_pos hx, hp, Bool.and_true]
    exact decide_eq_true ⟨h1, h2⟩
  · rw [if_neg hx]
    exact hp

theorem wirePair_printable (c : Nat) :
    (0x21 ≤ 0x21 + c / 94 % 94 ∧ 0x21 + c / 94 % 94 ≤ 0x7e) ∧
      (0x21 ≤ 0x21 + c % 94 ∧ 0x21 + c % 94 ≤ 0x7e) := by
  omega

theorem shiftsLeadPairs_closed : PairClosed (fun w => shiftsLeadPairs w = true) :=
  ⟨rfl, shiftsLeadPairs_append, fun c =>
    (shiftsLeadPairs_pair _ _ (wirePair_printable c).1 (wirePair_printable c).2).1⟩

/-- The SISO writer appends a pair, or a shift byte and a pair. -/
theorem putJISSISO_appends : AppendsBy (fun w => shiftsLeadPairs w = true) putJISSISO := by
  intro s b c s1 b1 ok h
  have hp := shiftsLeadPairs_pair _ _ (wirePair_printable c).1 (wirePair_printable c).2
  unfold putJISSISO at h
  rcases hsh : putShift s b ((c / (94 * 94) : Nat) : Int) with _ | ⟨s2, b2⟩
  · rw [hsh] at h
    exact absurd h (by simp)
  · rw [hsh] at h
    simp only [Option.some.injEq, Prod.mk.injEq] at h
    obtain ⟨_, h2, _⟩ := h
    subst h2
    rw [kuTenBytes_eq_wirePair]
    have hb2 : b2 = b ∨ ∃ x, b2 = b ++ [x] := by
      unfold putShift at hsh
      by_cases hne : ((c / (94 * 94) : Nat) : Int) ≠ s
      · rw [if_pos hne] at hsh
        by_cases h0 : ((c / (94 * 94) : Nat) : Int) = 0
        · rw [if_pos h0] at hsh
          simp only [Option.some.injEq, Prod.mk.injEq] at hsh
          exact Or.inr ⟨_, hsh.2.symm⟩
        · rw [if_neg h0] at hsh
          by_cases h1 : ((c / (94 * 94) : Nat) : Int) = 1
          · rw [if_pos h1] at hsh
            simp only [Option.some.injEq, Prod.mk.injEq] at hsh
            exact Or.inr ⟨_, hsh.2.symm⟩
          · rw [if_neg h1] at hsh
            simp at hsh
      · rw [if_neg hne] at hsh
        simp only [Option.some.injEq, Prod.mk.injEq] at hsh
        exact Or.inl hsh.2.symm
    rcases hb2 with hb2 | ⟨x, hb2⟩
    · exact ⟨wirePair c, by rw [hb2], hp.1⟩
    · refine ⟨x :: wirePair c, ?_, hp.2 x⟩
      rw [hb2, List.append_assoc]
      rfl

/-- What `shiftsLeadPairs` says of a shift byte at any position of the byte string. -/
theorem shiftsLeadPairs_split (u : Bytes) :
    ∀ (w : Bytes) (x : Nat) (v : Bytes), shiftsLeadPairs w = true → w = u ++ x :: v →
      (x = 0x0e ∨ x = 0x0f) →
      ∃ c1 c2 v', v = c1 :: c2 :: v' ∧ (0x21 ≤ c1 ∧ c1 ≤ 0x7e) ∧ (0x21 ≤ c2 ∧ c2 ≤ 0x7e) := by
  induction u with
  | nil =>
    intro w x v hw heq hx
    rw [List.nil_append] at heq
    subst heq
    unfold shiftsLeadPairs at hw
    rw [if_pos hx] at hw
    have h1 := (Bool.and_eq_true _ _ ▸ hw).1
    match v, h1 with
    | c1 :: c2 :: r, h1 =>
      have h2 := of_decide_eq_true h1
      exact ⟨c1, c2, r, rfl, h2.1, h2.2⟩
  | cons a u ih =>
    intro w x v hw heq hx
    rw [List.cons_append] at heq
    subst heq
    exact ih _ x v (shiftsLeadPairs_tail _ _ hw) rfl hx

theorem lookupRevTable_sample_20089 :
    lookupRevTable sampleTables.runeRangeToJISMappings 0x20089 = some (8836, true) :=
  (lookupRevTable_of_pairwise sampleTables.runeRangeToJISMappings 0x20089
    sampleTables_pairwise (by decide) (by decide) (by decide)).1 5 (by decide) (by decide)
    (by decide)

/-- `Encode` of the fresh incremental SISO encoder over `sampleTables` on the plane-2
kanji `U+20089` followed by the katakana `U+30B8`. -/
theorem Encode_sample_siso :
    JNTAJISIncrementalEncoder.Encode sampleTables ⟨InvalidJISCode, putJISSISO, [], 0, 0⟩ []
        [0x20089, 0x30b8] =
      some ⟨⟨InvalidJISCode, putJISSISO, [], 0, 0⟩, [0x0f, 0x21, 0x21, 0x0e, 0x25, 0x38],
        none⟩ := by
  have h1 : smRuneToJISMapping sampleTables.runePairsToJisMappings 0 0x20089 = (0, 0) := by
    decide
  have h2 : smRuneToJISMapping sampleTables.runePairsToJisMappings 0 0x30b8 = (0, 0) := by
    decide
  have p1 : putJISSISO 0 [] 8836 = some (1, [0x0f, 0x21, 0x21], true) := by decide
  have p2 : putJISSISO 1 [0x0f, 0x21, 0x21] 399 =
      some (0, [0x0f, 0x21, 0x21, 0x0e, 0x25, 0x38], true) := by decide
  simp [JNTAJISIncrementalEncoder.Encode, JNTAJISIncrementalEncoder.encodeStep,
    JNTAJISIncrementalEncoder.flushLookahead, JNTAJISIncrementalEncoder.flushLoop,
    JNTAJISIncrementalEncoder.flushOne, h1, h2, lookupRevTable_sample_20089,
    lookupRevTable_sample_30b8, p1, p2]

/-- C16. Shift bytes of the SISO mode.  For every table and every incremental
encoder whose writer is the SISO writer, what a successful call of `Encode` appends
to the buffer is such that every shift byte (`0x0e` or `0x0f`) in it is immediately
followed by two bytes that both lie in `[0x21, 0x7e]`; hence the byte after a shift
byte is not a shift byte, and the appended bytes do not end with a shift byte. -/
theorem Encode_siso_shift_bytes (t : Tables) (e : JNTAJISIncrementalEncoder) (b : Bytes)
    (m : List Rune) (res : EncodeResult) (he : e.putJIS = putJISSISO)
    (h : e.Encode t b m = some res) (hok : res.err = none) :
    ∃ w, res.b = b ++ w ∧ shiftsLeadPairs w = true ∧
      (∀ (u : Bytes) (x : Nat) (v : Bytes), w = u ++ x :: v → (x = 0x0e ∨ x = 0x0f) →
        ∃ c1 c2 v', v = c1 :: c2 :: v' ∧ (0x21 ≤ c1 ∧ c1 ≤ 0x7e) ∧ (0x21 ≤ c2 ∧ c2 ≤ 0x7e)) ∧
      (∀ (u : Bytes) (x y : Nat) (v : Bytes), w = u ++ x :: y :: v → (x = 0x0e ∨ x = 0x0f) →
        ¬ (y = 0x0e ∨ y = 0x0f)) ∧
      (∀ (u : Bytes) (x : Nat), w = u ++ [x] → ¬ (x = 0x0e ∨ x = 0x0f)) := by
  have hput : AppendsBy (fun w => shiftsLeadPairs w = true) e.putJIS := by
    rw [he]; exact putJISSISO_appends
  obtain ⟨w, hw, hP⟩ := Encode_appends (fun w => shiftsLeadPairs w = true)
    shiftsLeadPairs_closed t m e b res hput h hok
  have hsplit := fun u x v => shiftsLeadPairs_split u w x v hP
  refine ⟨w, hw, hP, hsplit, ?_, ?_⟩
  · intro u x y v heq hx
    obtain ⟨c1, c2, v', hv, h1, _⟩ := hsplit u x (y :: v) heq hx
    simp only [List.cons.injEq] at hv
    omega
  · intro u x heq hx
    obtain ⟨c1, c2, v', hv, _, _⟩ := hsplit u x [] heq hx
    simp at hv

/-- C16, at a concrete input: the fresh SISO encoder over `sampleTables` on `U+20089`
followed by `U+30B8` appends `0x0f 0x21 0x21 0x0e 0x25 0x38`. -/
theorem Encode_siso_shift_bytes_witness :
    ∃ w, ([0x0f, 0x21, 0x21, 0x0e, 0x25, 0x38] : Bytes) = [] ++ w ∧
      shiftsLeadPairs w = true ∧
      (∀ (u : Bytes) (x : Nat) (v : Bytes), w = u ++ x :: v → (x = 0x0e ∨ x = 0x0f) →
        ∃ c1 c2 v', v = c1 :: c2 :: v' ∧ (0x21 ≤ c1 ∧ c1 ≤ 0x7e) ∧ (0x21 ≤ c2 ∧ c2 ≤ 0x7e)) ∧
      (∀ (u : Bytes) (x y : Nat) (v : Bytes), w = u ++ x :: y :: v → (x = 0x0e ∨ x = 0x0f) →
        ¬ (y = 0x0e ∨ y = 0x0f)) ∧
      (∀ (u : Bytes) (x : Nat), w = u ++ [x] → ¬ (x = 0x0e ∨ x = 0x0f)) :=
  Encode_siso_shift_bytes sampleTables ⟨InvalidJISCode, putJISSISO, [], 0, 0⟩ []
    [0x20089, 0x30b8] _ rfl Encode_sample_siso rfl

/-! ### The postcondition of `Flush` -/

theorem Flush_sample_siso :
    JNTAJISIncrementalEncoder.Flush sampleTables ⟨InvalidJISCode, putJISSISO, [], 1, 0⟩
        [0x0f, 0x21, 0x21] =
      some ⟨⟨InvalidJISCode, putJISSISO, [], 0, 0⟩, [0x0f, 0x21, 0x21, 0x0e], none⟩ := by
  simp [JNTAJISIncrementalEncoder.Flush, JNTAJISIncrementalEncoder.flushLookahead,
    JNTAJISIncrementalEncoder.flushLoop, putShift]

/-- C15. Postcondition of `Flush`.  Every successful `Flush` runs the single-scalar
path on the buffered scalars in order (the loop of `flushLookahead`, which ends
without error in an encoder `e1` and a buffer `b1`), then appends the byte `0x0e` if
and only if `shiftState` is not 0 after that draining, and leaves the encoder with an
empty lookahead, automaton state 0 and `shiftState` 0; an immediately repeated `Flush`
succeeds and returns the same buffer and encoder.  When the writer of the encoder is
the SISO writer or a plain mode writer, the draining only appends to the buffer. -/
theorem Flush_postcondition (t : Tables) (e : JNTAJISIncrementalEncoder) (b : Bytes)
    (res : EncodeResult) (h : e.Flush t b = some res) (hok : res.err = none) :
    (∃ e1 b1, e.flushLoop t b e.lookahead = some ⟨e1, b1, none⟩ ∧
        res.b = b1 ++ (if e1.shiftState ≠ 0 then [0x0e] else []) ∧
        res.e = { e1 with lookahead := [], state := 0, shiftState := 0 } ∧
        ((e.putJIS = putJISSISO ∨ ∃ mode put, putFuncForConversionMode t mode = some put ∧
            e.putJIS = liftPut put) → ∃ w, b1 = b ++ w)) ∧
      res.e.lookahead = [] ∧ res.e.state = 0 ∧ res.e.shiftState = 0 ∧
      res.e.Flush t res.b = some ⟨res.e, res.b, none⟩ := by
  unfold JNTAJISIncrementalEncoder.Flush at h
  unfold JNTAJISIncrementalEncoder.flushLookahead at h
  rcases h1 : e.flushLoop t b e.lookahead with _ | ⟨e1, b1, _ | err⟩
  · simp [h1] at h
  · simp only [h1] at h
    have happ : (e.putJIS = putJISSISO ∨ ∃ mode put,
        putFuncForConversionMode t mode = some put ∧ e.putJIS = liftPut put) →
        ∃ w, b1 = b ++ w := by
      intro hw
      rcases hw with hw | ⟨mode, put, hmode, hw⟩
      · have hput : AppendsBy (fun w => shiftsLeadPairs w = true) e.putJIS := by
          rw [hw]; exact putJISSISO_appends
        obtain ⟨w, hw1, _⟩ := flushLoop_appends _ shiftsLeadPairs_closed t e.lookahead e b _
          hput h1 rfl
        exact ⟨w, hw1⟩
      · have hput : AppendsBy pairsOnly e.putJIS := by
          rw [hw]; exact liftPut_appends t mode put hmode
        obtain ⟨w, hw1, _⟩ := flushLoop_appends _ pairsOnly_closed t e.lookahead e b _
          hput h1 rfl
        exact ⟨w, hw1⟩
    by_cases hs : e1.shiftState = 0
    · have hres : res = ⟨{ e1 with lookahead := [], state := 0, shiftState := 0 }, b1, none⟩ := by
        simp only [putShift, hs, ne_eq, not_true_eq_false, if_false, Option.some.injEq] at h
        rw [← h]
      subst hres
      refine ⟨⟨e1, b1, rfl, by simp [hs], rfl, happ⟩, rfl, rfl, rfl, ?_⟩
      simp [JNTAJISIncrementalEncoder.Flush, JNTAJISIncrementalEncoder.flushLookahead,
        JNTAJISIncrementalEncoder.flushLoop, putShift]
    · have hs' : (0 : Int) ≠ e1.shiftState := fun hc => hs hc.symm
      have hres : res =
          ⟨{ e1 with lookahead := [], state := 0, shiftState := 0 }, b1 ++ [0x0e], none⟩ := by
        simp only [putShift, hs', ne_eq, not_false_eq_true, if_true,
          Option.some.injEq] at h
        rw [← h]
      subst hres
      refine ⟨⟨e1, b1, rfl, by simp [hs], rfl, happ⟩, rfl, rfl, rfl, ?_⟩
      simp [JNTAJISIncrementalEncoder.Flush, JNTAJISIncrementalEncoder.flushLookahead,
        JNTAJISIncrementalEncoder.flushLoop, putShift]
  · simp only [h1, Option.some.injEq] at h
    subst h
    simp at hok

/-- C15, at a concrete input: the SISO encoder over `sampleTables` that has written the
plane-2 kanji `U+20089` (buffer `0x0f 0x21 0x21`, `shiftState` 1) is flushed: `0x0e`
is appended, and a second `Flush` appends nothing. -/
theorem Flush_postcondition_witness :
    JNTAJISIncrementalEncoder.Flush sampleTables ⟨InvalidJISCode, putJISSISO, [], 1, 0⟩
        [0x0f, 0x21, 0x21] =
      some ⟨⟨InvalidJISCode, putJISSISO, [], 0, 0⟩, [0x0f, 0x21, 0x21, 0x0e], none⟩ ∧
    JNTAJISIncrementalEncoder.Flush sampleTables ⟨InvalidJISCode, putJISSISO, [], 0, 0⟩
        [0x0f, 0x21, 0x21, 0x0e] =
      some ⟨⟨InvalidJISCode, putJISSISO, [], 0, 0⟩, [0x0f, 0x21, 0x21, 0x0e], none⟩ :=
  ⟨Flush_sample_siso,
    (Flush_postcondition sampleTables ⟨InvalidJISCode, putJISSISO, [], 1, 0⟩
      [0x0f, 0x21, 0x21] _ Flush_sample_siso rfl).2.2.2.2⟩

/-! ### The replacement policy of the encoder -/

theorem NewJNTAJISEncoder_eq (t : Tables) (mode : ConversionMode) (replacement : Nat)
    (e : JNTAJISEncoder) (hnew : NewJNTAJISEncoder t mode replacement = some e) :
    ∃ put, putFuncForConversionMode t mode = some put ∧ e = ⟨replacement, put⟩ := by
  unfold NewJNTAJISEncoder at hnew
  rcases hput : putFuncForConversionMode t mode with _ | put
  · simp [hput] at hnew
  · simp only [hput, Option.some.injEq] at hnew
    exact ⟨put, rfl, hnew.symm⟩

theorem appendReplacement_plane1 (b : Bytes) (r : Rune) (c : Nat) (hc : c < 8836) :
    appendReplacement b r c = some (b ++ [0x21 + c / 94, 0x21 + c % 94], none) := by
  have hne : c ≠ InvalidJISCode := by unfold InvalidJISCode; omega
  have hmod : c / 94 % 94 = c / 94 := Nat.mod_eq_of_lt (by omega)
  simp [appendReplacement, hne, putJISMen1_eq, hc, wirePair, hmod]

/-- The single-scalar path on a scalar it does not resolve: the replacement. -/
theorem flushOne_unresolved (t : Tables) (mode : ConversionMode) (put : PutFunc)
    (replacement : Nat) (hmode : putFuncForConversionMode t mode = some put) (b : Bytes)
    (r : Rune) (hun : JNTAJISEncoder.unresolved t ⟨replacement, put⟩ b r) :
    JNTAJISEncoder.flushOne t ⟨replacement, put⟩ b r = appendReplacement b r replacement := by
  unfold JNTAJISEncoder.flushOne
  rcases hun with hl | ⟨jis, b1, hl, hp⟩
  · rw [hl]
    simp
  · have hb := (modeWriter_appends t mode put hmode b jis b1 false hp).2 rfl
    subst hb
    have hp' : put b1 jis = some (b1, false) := hp
    rw [hl]
    simp [hp']

theorem modeWriter_total (t : Tables) (mode : ConversionMode) (put : PutFunc)
    (hmode : putFuncForConversionMode t mode = some put)
    (hlen : ∀ c, (t.txMappings c).txLen ≤ 4) (b : Bytes) (c : Nat) : put b c ≠ none := by
  cases mode with
  | ConversionModeSISO => simp [putFuncForConversionMode] at hmode
  | ConversionModeMen1 =>
    simp only [putFuncForConversionMode, Option.some.injEq] at hmode
    subst hmode
    simp
  | ConversionModeJISX0208 =>
    simp only [putFuncForConversionMode, Option.some.injEq] at hmode
    subst hmode
    simp
  | ConversionModeTranslit =>
    simp only [putFuncForConversionMode, Option.some.injEq] at hmode
    subst hmode
    have h4 : ¬ (t.txMappings c).txLen > 4 := Nat.not_lt.mpr (hlen c)
    unfold putJISX0208Translit
    by_cases hc : c ≥ txMappingsLen
    · simp [hc]
    · simp only [hc, if_false, h4]
      by_cases h0 : (t.txMappings c).txLen > 0
      · cases hcl : (t.txMappings c).class <;> simp [h0]
      · cases hcl : (t.txMappings c).class <;> simp [h0]

theorem batch_flushOne_total (t : Tables) (e : JNTAJISEncoder)
    (hput : ∀ b c, e.putJIS b c ≠ none) (hrepl : e.Replacement < 8836) (b : Bytes) (r : Rune)
    (hl : lookupRevTable t.runeRangeToJISMappings r ≠ none) :
    ∃ b1, e.flushOne t b r = some (b1, none) := by
  unfold JNTAJISEncoder.flushOne
  rcases hlk : lookupRevTable t.runeRangeToJISMappings r with _ | ⟨jis, ok⟩
  · exact absurd hlk hl
  · simp only []
    have hstep : ∃ b1 ok1, (if ok = true then e.putJIS b jis else some (b, false)) =
        some (b1, ok1) := by
      cases ok
      · exact ⟨b, false, by simp⟩
      · rcases hp : e.putJIS b jis with _ | ⟨b1, ok1⟩
        · exact absurd hp (hput b jis)
        · exact ⟨b1, ok1, by simp [hp]⟩
    obtain ⟨b1, ok1, hs⟩ := hstep
    rw [hs]
    cases ok1
    · simp only [Bool.not_false, if_true]
      exact ⟨_, appendReplacement_plane1 b1 r e.Replacement hrepl⟩
    · exact ⟨b1, by simp⟩

theorem batch_flushLoop_total (t : Tables) (e : JNTAJISEncoder)
    (hput : ∀ b c, e.putJIS b c ≠ none) (hrepl : e.Replacement < 8836) (rs : List Rune) :
    ∀ b, (∀ r ∈ rs, lookupRevTable t.runeRangeToJISMappings r ≠ none) →
      ∃ b1, e.flushLoop t b rs = some (b1, none) := by
  induction rs with
  | nil => intro b _; exact ⟨b, rfl⟩
  | cons r rs ih =>
    intro b hl
    obtain ⟨b1, h1⟩ := batch_flushOne_total t e hput hrepl b r (hl r (List.mem_cons_self _ _))
    obtain ⟨b2, h2⟩ := ih b1 (fun x hx => hl x (List.mem_cons_of_mem _ hx))
    exact ⟨b2, by simp only [JNTAJISEncoder.flushLoop, h1]; exact h2⟩

theorem batch_encodeStep_total (t : Tables) (e : JNTAJISEncoder)
    (hput : ∀ b c, e.putJIS b c ≠ none) (hrepl : e.Replacement < 8836) (st : BatchState)
    (r : Rune) (hrb : ∀ x ∈ st.rb, lookupRevTable t.runeRangeToJISMappings x ≠ none)
    (hl : lookupRevTable t.runeRangeToJISMappings r ≠ none) :
    ∃ st1, e.encodeStep t st r = some (st1, none) ∧
      ∀ x ∈ st1.rb, lookupRevTable t.runeRangeToJISMappings x ≠ none := by
  have hrb1 : ∀ x ∈ st.rb ++ [r], lookupRevTable t.runeRangeToJISMappings x ≠ none := by
    intro x hx
    rcases List.mem_append.mp hx with h | h
    · exact hrb x h
    · rw [List.mem_singleton.mp h]; exact hl
  unfold JNTAJISEncoder.encodeStep
  simp only []
  generalize smRuneToJISMapping t.runePairsToJisMappings st.s r = sj
  obtain ⟨s, jis⟩ := sj
  by_cases h1 : s = -1
  · subst h1
    simp only [if_true]
    rcases hp : e.putJIS st.b jis with _ | ⟨b1, ok⟩
    · exact absurd hp (hput _ _)
    · simp only []
      cases ok
      · simp only [Bool.not_false, if_true, appendReplacement_plane1 b1 r e.Replacement hrepl,
          JNTAJISEncoder.flushLoop]
        exact ⟨_, rfl, fun x hx => absurd hx (List.not_mem_nil _)⟩
      · simp only [Bool.not_true, Bool.false_eq_true, if_false, JNTAJISEncoder.flushLoop]
        exact ⟨_, rfl, fun x hx => absurd hx (List.not_mem_nil _)⟩
  · by_cases h0 : s = 0
    · subst h0
      simp only [h1, if_false, if_true]
      obtain ⟨b3, h3⟩ := batch_flushLoop_total t e hput hrepl (st.rb ++ [r]) st.b hrb1
      rw [h3]
      exact ⟨_, rfl, fun x hx => absurd hx (List.not_mem_nil _)⟩
    · simp only [h1, h0, if_false]
      exact ⟨_, rfl, hrb1⟩

theorem batch_encodeLoop_total (t : Tables) (e : JNTAJISEncoder)
    (hput : ∀ b c, e.putJIS b c ≠ none) (hrepl : e.Replacement < 8836) (m : List Rune) :
    ∀ st, (∀ x ∈ st.rb, lookupRevTable t.runeRangeToJISMappings x ≠ none) →
      (∀ r ∈ m, lookupRevTable t.runeRangeToJISMappings r ≠ none) →
      ∃ st1, e.encodeLoop t st m = some (st1, none) ∧
        ∀ x ∈ st1.rb, lookupRevTable t.runeRangeToJISMappings x ≠ none := by
  induction m with
  | nil => intro st hrb _; exact ⟨st, rfl, hrb⟩
  | cons r m ih =>
    intro st hrb hl
    obtain ⟨st1, h1, hrb1⟩ := batch_encodeStep_total t e hput hrepl st r hrb
      (hl r (List.mem_cons_self _ _))
    obtain ⟨st2, h2, hrb2⟩ := ih st1 hrb1 (fun x hx => hl x (List.mem_cons_of_mem _ hx))
    exact ⟨st2, by simp only [JNTAJISEncoder.encodeLoop, h1]; exact h2, hrb2⟩

/-- On an input none of whose scalars is a registered lead, the main loop of the batch
encoder is the single-scalar loop over the input. -/
theorem batch_encodeLoop_leadfree (t : Tables) (e : JNTAJISEncoder) (m : List Rune) :
    ∀ b, (∀ r ∈ m, smRuneToJISMapping t.runePairsToJisMappings 0 r = (0, 0)) →
      (e.encodeLoop t ⟨0, [], b⟩ m).map (fun p => (p.1.b, p.2)) = e.flushLoop t b m ∧
      ∀ st, e.encodeLoop t ⟨0, [], b⟩ m = some (st, none) → st.rb = [] := by
  induction m with
  | nil => 
    intro b _
    refine ⟨rfl, ?_⟩
    intro st h
    simp only [JNTAJISEncoder.encodeLoop, Option.some.injEq, Prod.mk.injEq] at h
    rw [← h.1]
  | cons r m ih =>
    intro b hm
    have hr := hm r (List.mem_cons_self _ _)
    have ih1 := fun b1 => ih b1 (fun x hx => hm x (List.mem_cons_of_mem _ hx))
    have hstep : e.encodeStep t ⟨0, [], b⟩ r =
        match e.flushOne t b r with
        | none => none
        | some (b3, some err) => some (⟨0, [r], b3⟩, some err)
        | some (b3, none) => some (⟨0, [], b3⟩, none) := by
      unfold JNTAJISEncoder.encodeStep
      simp only [hr, List.nil_append, JNTAJISEncoder.flushLoop]
      rcases e.flushOne t b r with _ | ⟨b3, _ | err⟩ <;> simp
    simp only [JNTAJISEncoder.encodeLoop, JNTAJISEncoder.flushLoop, hstep]
    rcases e.flushOne t b r with _ | ⟨b3, _ | err⟩
    · exact ⟨rfl, fun st h => by simp at h⟩
    · exact ih1 b3
    · exact ⟨rfl, fun st h => by simp at h⟩

/-- From state 0 the automaton moves to state 0 or to a lead state. -/
theorem smCase0_cases (rpm : List outer) (r : Rune) :
    smCase0 rpm r = (0, 0) ∨ ∃ i : Nat, smCase0 rpm r = ((i : Int) + 1, 0) := by
  unfold smCase0
  split
  · split
    · exact Or.inl rfl
    · split
      · rename_i i _
        exact Or.inr ⟨i, rfl⟩
      · exact Or.inl rfl
  · exact Or.inl rfl

theorem batchEncode_single (t : Tables) (e : JNTAJISEncoder) (r : Rune) :
    e.EncodeAsJISX0213Men1 t [r] = e.flushOne t [] r := by
  have hsm : smRuneToJISMapping t.runePairsToJisMappings 0 r =
      smCase0 t.runePairsToJisMappings r := by
    unfold smRuneToJISMapping
    rw [if_pos rfl]
  unfold JNTAJISEncoder.EncodeAsJISX0213Men1
  simp only [JNTAJISEncoder.encodeLoop, JNTAJISEncoder.encodeStep, hsm]
  rcases smCase0_cases t.runePairsToJisMappings r with h0 | ⟨i, hi⟩
  · rw [h0]
    simp only [List.nil_append, JNTAJISEncoder.flushLoop]
    rcases e.flushOne t [] r with _ | ⟨b3, _ | err⟩ <;> simp [JNTAJISEncoder.flushLoop]
  · rw [hi]
    have hne1 : ¬ ((i : Int) + 1 = -1) := by omega
    have hne0 : ¬ ((i : Int) + 1 = 0) := by omega
    simp only [hne1, hne0, if_false, List.nil_append, JNTAJISEncoder.flushLoop]
    rcases e.flushOne t [] r with _ | ⟨b3, _ | err⟩ <;> simp

theorem NewJNTAJISEncoder_example :
    NewJNTAJISEncoder exampleTables ConversionMode.ConversionModeMen1 1 =
      some ⟨1, fun b c => some (putJISMen1 b c)⟩ := by
  simp [NewJNTAJISEncoder, putFuncForConversionMode]

/-- The part of the replacement policy of the batch encoder that holds for every
table, every mode for which the batch encoder exists, and every input: what each pass
of the loops does.  It says nothing of a scalar that never reaches the single-scalar
path.

With a plane-1 replacement (`Replacement < 8836`): a run never returns an error; it
returns when the reverse lookup stays inside the range table on the scalars of the
input and no cell has `txLen` above 4; whenever the single-scalar path meets a scalar
it does not resolve (the reverse lookup does not map it, or the mode writer rejects
its code) it appends exactly the two bytes `0x21 + Replacement/94`,
`0x21 + Replacement mod 94`, and so does the pair path when the mode writer rejects
the code of an accepted pair.  On an input without registered leads the whole run is
the single-scalar path applied to each scalar in order.

With `Replacement = InvalidJISCode`: encoding a one-scalar input that the
single-scalar path does not resolve returns the error for that scalar. -/
theorem replacement_policy (t : Tables) (mode : ConversionMode) (replacement : Nat)
    (e : JNTAJISEncoder) (hnew : NewJNTAJISEncoder t mode replacement = some e) :
    (replacement < 8836 →
      (∀ (m : List Rune) (bs : Bytes) (err : Option EncodeError),
        batchEncode t mode replacement m = some (bs, err) → err = none) ∧
      (∀ m : List Rune, (∀ r ∈ m, lookupRevTable t.runeRangeToJISMappings r ≠ none) →
        (∀ c, (t.txMappings c).txLen ≤ 4) →
        ∃ bs, batchEncode t mode replacement m = some (bs, none)) ∧
      (∀ (b : Bytes) (r : Rune), e.unresolved t b r →
        e.flushOne t b r =
          some (b ++ [0x21 + replacement / 94, 0x21 + replacement % 94], none)) ∧
      (∀ (st : BatchState) (r : Rune) (jis : Nat) (b1 : Bytes),
        smRuneToJISMapping t.runePairsToJisMappings st.s r = (-1, jis) →
        e.putJIS st.b jis = some (b1, false) →
        e.encodeStep t st r =
          some (⟨0, [], st.b ++ [0x21 + replacement / 94, 0x21 + replacement % 94]⟩,
            none))) ∧
    (∀ m : List Rune, (∀ r ∈ m, smRuneToJISMapping t.runePairsToJisMappings 0 r = (0, 0)) →
      batchEncode t mode replacement m = e.flushLoop t [] m) ∧
    (replacement = InvalidJISCode → ∀ r : Rune, e.unresolved t [] r →
      batchEncode t mode replacement [r] =
        some ([], some (EncodeError.notConvertible r))) := by
  obtain ⟨put, hmode, he⟩ := NewJNTAJISEncoder_eq t mode replacement e hnew
  subst he
  have hbatch : ∀ m, batchEncode t mode replacement m =
      JNTAJISEncoder.EncodeAsJISX0213Men1 t ⟨replacement, put⟩ m := by
    intro m
    unfold batchEncode
    rw [hnew]
  refine ⟨?_, ?_, ?_⟩
  · intro hrepl
    refine ⟨?_, ?_, ?_, ?_⟩
    · intro m bs err h
      cases err with
      | none => rfl
      | some err =>
        have := (batchEncode_error t mode replacement m bs err h).2
        unfold InvalidJISCode at this
        omega
    · intro m hl hlen
      have hput : ∀ b c, put b c ≠ none := modeWriter_total t mode put hmode hlen
      obtain ⟨st, h1, hrb⟩ := batch_encodeLoop_total t ⟨replacement, put⟩ hput hrepl m
        ⟨0, [], []⟩ (fun x hx => absurd hx (List.not_mem_nil _)) hl
      obtain ⟨b2, h2⟩ := batch_flushLoop_total t ⟨replacement, put⟩ hput hrepl st.rb st.b hrb
      refine ⟨b2, ?_⟩
      rw [hbatch]
      unfold JNTAJISEncoder.EncodeAsJISX0213Men1
      rw [h1]
      exact h2
    · intro b r hun
      rw [flushOne_unresolved t mode put replacement hmode b r hun]
      exact appendReplacement_plane1 b r replacement hrepl
    · intro st r jis b1 hsm hp
      have hb := (modeWriter_appends t mode put hmode st.b jis b1 false hp).2 rfl
      subst hb
      have hp' : put st.b jis = some (st.b, false) := hp
      unfold JNTAJISEncoder.encodeStep
      simp only [hsm, if_true, hp', Bool.not_false,
        appendReplacement_plane1 st.b r replacement hrepl, JNTAJISEncoder.flushLoop]
  · intro m hm
    rw [hbatch]
    obtain ⟨h1, h2⟩ := batch_encodeLoop_leadfree t ⟨replacement, put⟩ m [] hm
    unfold JNTAJISEncoder.EncodeAsJISX0213Men1
    rcases hloop : JNTAJISEncoder.encodeLoop t ⟨replacement, put⟩ ⟨0, [], []⟩ m
      with _ | ⟨st, _ | err⟩
    · rw [hloop] at h1
      exact h1
    · rw [hloop] at h1
      simp only [Option.map_some'] at h1
      simp only [h2 st hloop, JNTAJISEncoder.flushLoop]
      exact h1
    · rw [hloop] at h1
      exact h1
  · intro hrepl r hun
    rw [hbatch, batchEncode_single, flushOne_unresolved t mode put replacement hmode [] r hun,
      hrepl]
    simp [appendReplacement]

/-- The replacement at a concrete input: the batch encoder in Men1 mode over
`exampleTables` with the replacement code 1 appends `0x21 0x22` for the unmapped scalar `U+3002`. -/
theorem replacement_policy_witness :
    NewJNTAJISEncoder exampleTables ConversionMode.ConversionModeMen1 1 =
        some ⟨1, fun b c => some (putJISMen1 b c)⟩ ∧
      JNTAJISEncoder.flushOne exampleTables ⟨1, fun b c => some (putJISMen1 b c)⟩
          [0x21, 0x21] 0x3002 =
        some ([0x21, 0x21, 0x21, 0x22], none) :=
  ⟨NewJNTAJISEncoder_example,
    ((replacement_policy exampleTables ConversionMode.ConversionModeMen1 1 _
      NewJNTAJISEncoder_example).1 (by decide)).2.2.1 [0x21, 0x21] 0x3002
      (Or.inl lookupRevTable_example_3002)⟩

/-! ### The state invariant of the decoder -/

theorem decodePair_total (t : Tables) (d : JNTAJISDecoder) (b : Bytes) (c0 c1 i : Int)
    (hs : d.shiftOffset = 0 ∨ d.shiftOffset = 8836)
    (h0 : 0x21 ≤ c0 ∧ c0 ≤ 0x7e) (h1 : 0x21 ≤ c1 ∧ c1 ≤ 0x7e) :
    ∃ p, d.decodePair t b c0 c1 i = some p := by
  have hidx : 0 ≤ d.shiftOffset + (c0 - 0x21) * 94 + (c1 - 0x21) ∧
      d.shiftOffset + (c0 - 0x21) * 94 + (c1 - 0x21) < 17672 := by
    rcases hs with hs | hs <;> rw [hs] <;> omega
  unfold JNTAJISDecoder.decodePair
  simp only [txAt_of_lt t _ hidx]
  split_ifs <;> exact ⟨_, rfl⟩

/-- The loop of `Decode` keeps the state invariant and never indexes outside the
forward table. -/
theorem decodeLoop_inv (t : Tables) (repl : Rune) (siso : Bool) (n : Nat) :
    ∀ (z : List Nat) (d : JNTAJISDecoder) (b : Bytes) (i : Int),
      2 * z.length + (if d.upper > 0 then 1 else 0) ≤ n → decoderInv repl siso d →
      ∃ r, d.decodeLoop t b i z = some r ∧ decoderInv repl siso r.d := by
  induction n with
  | zero =>
    intro z d b i hm hinv
    have : z = [] := List.eq_nil_of_length_eq_zero (by omega)
    subst this
    exact ⟨_, decodeLoop_nil t d b i, hinv⟩
  | succ n ih =>
    intro z d b i hm hinv
    obtain ⟨hR, hS, hso, hns, hup⟩ := hinv
    match z, hm with
    | [], _ => exact ⟨_, decodeLoop_nil t d b i, hR, hS, hso, hns, hup⟩
    | a :: xs, hm =>
      simp only [List.length_cons] at hm
      by_cases hu : d.upper > 0
      · simp only [hu, if_true] at hm
        have h0 : 0x21 ≤ d.upper ∧ d.upper ≤ 0x7e := by
          rcases hup with h | h
          · omega
          · exact h
        have hinv0 : decoderInv repl siso { d with upper := 0 } :=
          ⟨hR, hS, hso, hns, Or.inl rfl⟩
        by_cases h1 : 0x21 ≤ a ∧ a ≤ 0x7e
        · have h1' : (0x21 : Int) ≤ (a : Int) ∧ (a : Int) ≤ 0x7e := by omega
          rw [decodeLoop_carry_pair t d b _ a xs h0 h1]
          obtain ⟨p, hp⟩ := decodePair_total t { d with upper := 0 } b d.upper a (i + 1)
            hso h0 h1'
          obtain ⟨b1, _ | e⟩ := p
          · rw [hp]
            exact ih xs _ b1 (i + 1) (by simp; omega) hinv0
          · rw [hp]
            exact ⟨_, rfl, hinv0⟩
        · rw [decodeLoop_carry_badSecond t d b _ a xs h0 h1]
          exact ⟨_, rfl, hinv0⟩
      · simp only [hu, if_false] at hm
        by_cases h0 : 0x21 ≤ a ∧ a ≤ 0x7e
        · have h0' : (0x21 : Int) ≤ (a : Int) ∧ (a : Int) ≤ 0x7e := by omega
          match xs, hm with
          | [], _ =>
            rw [decodeLoop_lead t d b _ a hu h0]
            exact ⟨_, rfl, hR, hS, hso, hns, Or.inr h0'⟩
          | c1 :: ys, hm =>
            simp only [List.length_cons] at hm
            by_cases h1 : 0x21 ≤ c1 ∧ c1 ≤ 0x7e
            · have h1' : (0x21 : Int) ≤ (c1 : Int) ∧ (c1 : Int) ≤ 0x7e := by omega
              rw [decodeLoop_pair t d b _ a c1 ys hu h0 h1]
              obtain ⟨p, hp⟩ := decodePair_total t d b a c1 (i + 1 + 1) hso h0' h1'
              obtain ⟨b1, _ | e⟩ := p
              · rw [hp]
                exact ih ys _ b1 (i + 1 + 1) (by simp [hu]; omega) ⟨hR, hS, hso, hns, hup⟩
              · rw [hp]
                exact ⟨_, rfl, hR, hS, hso, hns, hup⟩
            · rw [decodeLoop_badSecond t d b _ a c1 ys hu h0 h1]
              exact ⟨_, rfl, hR, hS, hso, hns, hup⟩
        · rw [decodeLoop_control t d b _ a xs hu h0]
          by_cases he : a = 0x0e ∧ d.siso = true
          · rw [if_pos he]
            refine ih xs _ b (i + 1) (by simp [hu]; omega)
              ⟨hR, hS, Or.inl rfl, fun _ => rfl, hup⟩
          · rw [if_neg he]
            by_cases hf : a = 0x0f ∧ d.siso = true
            · rw [if_pos hf]
              refine ih xs _ b (i + 1) (by simp [hu]; omega)
                ⟨hR, hS, Or.inr (by norm_num), ?_, hup⟩
              intro hsf
              rw [hS, hsf] at hf
              exact absurd hf.2 (by decide)
            · rw [if_neg hf]
              exact ⟨_, rfl, hR, hS, hso, hns, hup⟩

theorem decodeCalls_inv (t : Tables) (repl : Rune) (siso : Bool)
    (calls : List (Bytes × List Nat)) :
    ∀ d, decoderInv repl siso d →
      ∃ d1, decodeCalls t d calls = some d1 ∧ decoderInv repl siso d1 := by
  induction calls with
  | nil => intro d hinv; exact ⟨d, rfl, hinv⟩
  | cons c cs ih =>
    intro d hinv
    obtain ⟨r, hr, hinv1⟩ := decodeLoop_inv t repl siso _ c.2 d c.1 0 (le_refl _) hinv
    obtain ⟨d1, hd1, hinv2⟩ := ih r.d hinv1
    refine ⟨d1, ?_, hinv2⟩
    simp only [decodeCalls, JNTAJISDecoder.Decode, hr]
    exact hd1

/-- C27. State invariant and index safety of the decoder.  Starting from a fresh
decoder (`shiftOffset` 0, no carry), any sequence of `Decode` calls on any buffers and
inputs returns (no call indexes outside the forward table), and after it
`shiftOffset` is 0 or 8836 (0 when `siso` is off) and the carry is absent or in
`[0x21, 0x7e]`; hence for every two bytes `c0`, `c1` in `[0x21, 0x7e]` the index
`shiftOffset + (c0 - 0x21) * 94 + (c1 - 0x21)` the decoder computes lies in the
forward table: it is below 17672, and below 8836 when `siso` is off. -/
theorem Decode_state_invariant (t : Tables) (repl : Rune) (siso : Bool)
    (calls : List (Bytes × List Nat)) :
    ∃ d, decodeCalls t ⟨repl, siso, 0, 0⟩ calls = some d ∧
      (d.shiftOffset = 0 ∨ d.shiftOffset = 8836) ∧ (siso = false → d.shiftOffset = 0) ∧
      (d.upper = 0 ∨ (0x21 ≤ d.upper ∧ d.upper ≤ 0x7e)) ∧
      ∀ c0 c1 : Int, 0x21 ≤ c0 ∧ c0 ≤ 0x7e → 0x21 ≤ c1 ∧ c1 ≤ 0x7e →
        0 ≤ d.shiftOffset + (c0 - 0x21) * 94 + (c1 - 0x21) ∧
        d.shiftOffset + (c0 - 0x21) * 94 + (c1 - 0x21) < 17672 ∧
        (siso = false → d.shiftOffset + (c0 - 0x21) * 94 + (c1 - 0x21) < 8836) ∧
        t.txAt (d.shiftOffset + (c0 - 0x21) * 94 + (c1 - 0x21)) ≠ none := by
  obtain ⟨d, hd, hR, hS, hso, hns, hup⟩ := decodeCalls_inv t repl siso calls
    ⟨repl, siso, 0, 0⟩ ⟨rfl, rfl, Or.inl rfl, fun _ => rfl, Or.inl rfl⟩
  refine ⟨d, hd, hso, hns, hup, ?_⟩
  intro c0 c1 h0 h1
  have hidx : 0 ≤ d.shiftOffset + (c0 - 0x21) * 94 + (c1 - 0x21) ∧
      d.shiftOffset + (c0 - 0x21) * 94 + (c1 - 0x21) < 17672 := by
    rcases hso with hs | hs <;> rw [hs] <;> omega
  refine ⟨hidx.1, hidx.2, ?_, ?_⟩
  · intro hsf
    rw [hns hsf]
    omega
  · rw [txAt_of_lt t _ hidx]
    simp

/-! ### The replacement in SISO mode -/

/-- The single-scalar path of the incremental encoder on a scalar the reverse lookup
does not map, with a plane-1 replacement: the pair of the replacement is appended by
`putJISMen1`, whatever the writer of the encoder is, and `shiftState` is not touched. -/
theorem flushOne_unmapped (t : Tables) (e : JNTAJISIncrementalEncoder) (b : Bytes) (r : Rune)
    (hrepl : e.Replacement < 8836)
    (hl : lookupRevTable t.runeRangeToJISMappings r = some (0, false)) :
    e.flushOne t b r =
      some ⟨e, b ++ [0x21 + e.Replacement / 94, 0x21 + e.Replacement % 94], none⟩ := by
  unfold JNTAJISIncrementalEncoder.flushOne
  rw [hl]
  simp [appendReplacement_plane1 b r e.Replacement hrepl]

theorem lookupRevTable_sample_270b :
    lookupRevTable sampleTables.runeRangeToJISMappings 0x270b = some (0, false) :=
  (lookupRevTable_of_pairwise sampleTables.runeRangeToJISMappings 0x270b
    sampleTables_pairwise (by decide) (by decide) (by decide)).2 (by decide)

/-- `Encode` of the fresh SISO encoder with replacement code 399 over `sampleTables`
on the plane-2 kanji `U+20089` followed by the unmapped `U+270B`. -/
theorem Encode_sample_siso_replacement :
    JNTAJISIncrementalEncoder.Encode sampleTables ⟨399, putJISSISO, [], 0, 0⟩ []
        [0x20089, 0x270b] =
      some ⟨⟨399, putJISSISO, [], 1, 0⟩, [0x0f, 0x21, 0x21, 0x25, 0x38], none⟩ := by
  have h1 : smRuneToJISMapping sampleTables.runePairsToJisMappings 0 0x20089 = (0, 0) := by
    decide
  have h2 : smRuneToJISMapping sampleTables.runePairsToJisMappings 0 0x270b = (0, 0) := by
    decide
  have p1 : putJISSISO 0 [] 8836 = some (1, [0x0f, 0x21, 0x21], true) := by decide
  simp [JNTAJISIncrementalEncoder.Encode, JNTAJISIncrementalEncoder.encodeStep,
    JNTAJISIncrementalEncoder.flushLookahead, JNTAJISIncrementalEncoder.flushLoop,
    JNTAJISIncrementalEncoder.flushOne, h1, h2, lookupRevTable_sample_20089,
    lookupRevTable_sample_270b, p1, appendReplacement, InvalidJISCode, putJISMen1_eq,
    wirePair]

/-- A SISO decoder over `sampleTables` reads the bytes `0x0f 0x21 0x21 0x25 0x38`: the
second pair is looked up in plane 2, at the reserved cell 9235. -/
theorem Decode_sample_unshifted :
    JNTAJISDecoder.Decode sampleTables ⟨0xfffd, true, 0, 0⟩ []
        [0x0f, 0x21, 0x21, 0x25, 0x38] =
      some ⟨⟨0xfffd, true, 8836, 0⟩, [0xf0, 0xa0, 0x82, 0x89, 0xef, 0xbf, 0xbd], none⟩ := by
  unfold JNTAJISDecoder.Decode
  rw [decodeLoop_control sampleTables _ [] 0 0x0f _ (by decide) (by decide)]
  rw [if_neg (by decide), if_pos (by decide)]
  rw [decodeLoop_pair sampleTables _ [] _ 0x21 0x21 _ (by decide) (by decide) (by decide)]
  have hp1 : JNTAJISDecoder.decodePair sampleTables ⟨0xfffd, true, 94 * 94, 0⟩ []
      ((0x21 : Nat) : Int) ((0x21 : Nat) : Int) (0 + 1 + 1 + 1) =
      some ([0xf0, 0xa0, 0x82, 0x89], none) := by
    decide
  rw [hp1]
  simp only []
  rw [decodeLoop_pair sampleTables _ _ _ 0x25 0x38 _ (by decide) (by decide) (by decide)]
  have hp2 : JNTAJISDecoder.decodePair sampleTables ⟨0xfffd, true, 94 * 94, 0⟩
      [0xf0, 0xa0, 0x82, 0x89] ((0x25 : Nat) : Int) ((0x38 : Nat) : Int)
      (0 + 1 + 1 + 1 + 1 + 1) = some ([0xf0, 0xa0, 0x82, 0x89, 0xef, 0xbf, 0xbd], none) := by
    decide
  rw [hp2]
  exact decodeLoop_nil _ _ _ _

/-- A SISO decoder over `sampleTables` reads the bytes `0x0f 0x21 0x21 0x0e 0x25 0x38`:
`U+20089` and `U+30B8`. -/
theorem Decode_sample_shifted :
    JNTAJISDecoder.Decode sampleTables ⟨0xfffd, true, 0, 0⟩ []
        [0x0f, 0x21, 0x21, 0x0e, 0x25, 0x38] =
      some ⟨⟨0xfffd, true, 0, 0⟩, [0xf0, 0xa0, 0x82, 0x89, 0xe3, 0x82, 0xb8], none⟩ := by
  unfold JNTAJISDecoder.Decode
  rw [decodeLoop_control sampleTables _ [] 0 0x0f _ (by decide) (by decide)]
  rw [if_neg (by decide), if_pos (by decide)]
  rw [decodeLoop_pair sampleTables _ [] _ 0x21 0x21 _ (by decide) (by decide) (by decide)]
  have hp1 : JNTAJISDecoder.decodePair sampleTables ⟨0xfffd, true, 94 * 94, 0⟩ []
      ((0x21 : Nat) : Int) ((0x21 : Nat) : Int) (0 + 1 + 1 + 1) =
      some ([0xf0, 0xa0, 0x82, 0x89], none) := by
    decide
  rw [hp1]
  simp only []
  rw [decodeLoop_control sampleTables _ _ _ 0x0e _ (by decide) (by decide)]
  rw [if_pos (by decide)]
  rw [decodeLoop_pair sampleTables _ _ _ 0x25 0x38 _ (by decide) (by decide) (by decide)]
  have hp2 : JNTAJISDecoder.decodePair sampleTables ⟨0xfffd, true, 0, 0⟩
      [0xf0, 0xa0, 0x82, 0x89] ((0x25 : Nat) : Int) ((0x38 : Nat) : Int)
      (0 + 1 + 1 + 1 + 1 + 1 + 1) = some ([0xf0, 0xa0, 0x82, 0x89, 0xe3, 0x82, 0xb8], none) := by
    decide
  rw [hp2]
  exact decodeLoop_nil _ _ _ _

/-- C24 fails in the code.  Over `sampleTables`, the fresh SISO encoder with the
plane-1 replacement code 399 (`U+30B8`) encodes `U+20089` (plane 2) followed by the
unmapped `U+270B`: the replacement pair `0x25 0x38` is appended while `shiftState` is
1, no `0x0e` is written before it and `shiftState` stays 1.  A SISO decoder reads that
pair in plane 2 (the reserved cell 9235, hence its own replacement `U+FFFD`), whereas
with the `0x0e` the claim describes it reads `U+30B8`. -/
theorem siso_replacement_not_shifted :
    (JNTAJISIncrementalEncoder.Encode sampleTables ⟨399, putJISSISO, [], 0, 0⟩ []
        [0x20089, 0x270b]).map (fun res => (res.b, res.e.shiftState, res.err)) =
      some ([0x0f, 0x21, 0x21, 0x25, 0x38], 1, none) ∧
    JNTAJISDecoder.Decode sampleTables ⟨0xfffd, true, 0, 0⟩ []
        [0x0f, 0x21, 0x21, 0x25, 0x38] =
      some ⟨⟨0xfffd, true, 8836, 0⟩, encodeRune 0x20089 ++ encodeRune 0xfffd, none⟩ ∧
    JNTAJISDecoder.Decode sampleTables ⟨0xfffd, true, 0, 0⟩ []
        [0x0f, 0x21, 0x21, 0x0e, 0x25, 0x38] =
      some ⟨⟨0xfffd, true, 0, 0⟩, encodeRune 0x20089 ++ encodeRune 0x30b8, none⟩ := by
  refine ⟨?_, ?_, ?_⟩
  · rw [Encode_sample_siso_replacement]; rfl
  · rw [Decode_sample_unshifted]; decide
  · rw [Decode_sample_shifted]; decide

/-! ### A pending lead followed by another lead -/

/-- The batch encoder in Men1 mode with replacement code 399 over `sampleTables`, on
`U+30AF U+02E9 U+02E5`: only the pair `U+02E9 U+02E5` is written. -/
theorem batchEncode_sample_lost_lead :
    batchEncode sampleTables ConversionMode.ConversionModeMen1 399 [0x30af, 0x2e9, 0x2e5] =
      some ([0x2b, 0x65], none) := by
  have h1 : smRuneToJISMapping sampleTables.runePairsToJisMappings 0 0x30af = (3, 0) := by
    decide
  have h2 : smRuneToJISMapping sampleTables.runePairsToJisMappings 3 0x2e9 = (2, 0) := by
    decide
  have h3 : smRuneToJISMapping sampleTables.runePairsToJisMappings 2 0x2e5 = (-1, 1008) := by
    decide
  simp [batchEncode, NewJNTAJISEncoder, putFuncForConversionMode,
    JNTAJISEncoder.EncodeAsJISX0213Men1, JNTAJISEncoder.encodeLoop,
    JNTAJISEncoder.encodeStep, JNTAJISEncoder.flushLoop, h1, h2, h3, putJISMen1_eq, wirePair]

/-- The output the specification describes for `U+30AF U+02E9 U+02E5` in Men1 mode
over `sampleTables`: the single scalar `U+30AF`, then the pair. -/
theorem specSegmentedEncode_sample :
    specSegmentedEncode sampleTables ⟨399, fun b c => some (putJISMen1 b c)⟩
        [0x30af, 0x2e9, 0x2e5] [] =
      some ([0x25, 0x2f, 0x2b, 0x65], none) := by
  have h1 : pairCode sampleTables.runePairsToJisMappings 0x30af 0x2e9 = none := by decide
  have h2 : pairCode sampleTables.runePairsToJisMappings 0x2e9 0x2e5 = some 1008 := by decide
  simp [specSegmentedEncode, h1, h2, JNTAJISEncoder.flushOne, JNTAJISEncoder.putPair,
    lookupRevTable_sample_30af, putJISMen1_eq, wirePair]

/-- C22 fails in the code.  Over `sampleTables`, in Men1 mode with the plane-1
replacement code 399, the input `U+30AF U+02E9 U+02E5` (the lead `U+30AF`, the lead
`U+02E9` that is no follow of it, and the follow `U+02E5` of `U+02E9`) is encoded to
the pair code 1008 alone, `0x2b 0x65`: the buffered lead `U+30AF` is dropped.  The
greedy segmentation of the specification gives `0x25 0x2f 0x2b 0x65`. -/
theorem batchEncode_loses_lead :
    smRuneToJISMapping sampleTables.runePairsToJisMappings 0 0x30af = (3, 0) ∧
    smRuneToJISMapping sampleTables.runePairsToJisMappings 3 0x2e9 = (2, 0) ∧
    smRuneToJISMapping sampleTables.runePairsToJisMappings 2 0x2e5 = (-1, 1008) ∧
    batchEncode sampleTables ConversionMode.ConversionModeMen1 399 [0x30af, 0x2e9, 0x2e5] =
      some ([0x2b, 0x65], none) ∧
    specSegmentedEncode sampleTables ⟨399, fun b c => some (putJISMen1 b c)⟩
        [0x30af, 0x2e9, 0x2e5] [] =
      some ([0x25, 0x2f, 0x2b, 0x65], none) :=
  ⟨by decide, by decide, by decide, batchEncode_sample_lost_lead, specSegmentedEncode_sample⟩

/-! ### The size of the lookahead -/

/-- What a pass of the main loop of the batch encoder leaves in `rb`. -/
theorem batch_encodeStep_rb (t : Tables) (e : JNTAJISEncoder) (st : BatchState) (r : Rune)
    (st1 : BatchState) (h : e.encodeStep t st r = some (st1, none)) :
    (st1.s = 0 ∧ st1.rb = []) ∨ (st1.s ≠ 0 ∧ st1.s ≠ -1 ∧ st1.rb = st.rb ++ [r]) := by
  unfold JNTAJISEncoder.encodeStep at h
  simp only [] at h
  generalize smRuneToJISMapping t.runePairsToJisMappings st.s r = sj at h
  obtain ⟨s, jis⟩ := sj
  by_cases h1 : s = -1
  · subst h1
    simp only [if_true] at h
    rcases hp : e.putJIS st.b jis with _ | ⟨b1, ok⟩
    · simp [hp] at h
    · simp only [hp] at h
      cases ok
      · simp only [Bool.not_false, if_true] at h
        rcases ha : appendReplacement b1 r e.Replacement with _ | ⟨b2, _ | err⟩
        · simp [ha] at h
        · simp only [ha, JNTAJISEncoder.flushLoop, Option.some.injEq, Prod.mk.injEq,
            and_true] at h
          subst h
          exact Or.inl ⟨rfl, rfl⟩
        · simp [ha] at h
      · simp only [Bool.not_true, Bool.false_eq_true, if_false, JNTAJISEncoder.flushLoop,
          Option.some.injEq, Prod.mk.injEq, and_true] at h
        subst h
        exact Or.inl ⟨rfl, rfl⟩
  · by_cases h0 : s = 0
    · subst h0
      simp only [h1, if_false, if_true] at h
      rcases hf : e.flushLoop t st.b (st.rb ++ [r]) with _ | ⟨b3, _ | err⟩
      · simp [hf] at h
      · simp only [hf, Option.some.injEq, Prod.mk.injEq, and_true] at h
        subst h
        exact Or.inl ⟨rfl, rfl⟩
      · simp [hf] at h
    · simp only [h1, h0, if_false, Option.some.injEq, Prod.mk.injEq, and_true] at h
      subst h
      exact Or.inr ⟨h0, h1, rfl⟩

/-- What a pass of the loop of `Encode` leaves in the lookahead. -/
theorem encodeStep_lookahead (t : Tables) (e : JNTAJISIncrementalEncoder) (b : Bytes)
    (r : Rune) (res : EncodeResult) (h : e.encodeStep t b r = some res)
    (hok : res.err = none) :
    (res.e.state = 0 ∧ res.e.lookahead = []) ∨
      (res.e.state ≠ 0 ∧ res.e.state ≠ -1 ∧ res.e.lookahead = e.lookahead ++ [r]) := by
  unfold JNTAJISIncrementalEncoder.encodeStep at h
  simp only [] at h
  generalize smRuneToJISMapping t.runePairsToJisMappings e.state r = sj at h
  obtain ⟨s, jis⟩ := sj
  have hfl : ∀ (e2 : JNTAJISIncrementalEncoder) (b2 : Bytes),
      e2.flushLookahead t b2 = some res → res.e.state = 0 ∧ res.e.lookahead = [] := by
    intro e2 b2 h2
    have hf := (flushLookahead_frame t e2 b2 res h2).2.2.2 hok
    exact ⟨hf.2, hf.1⟩
  by_cases h1 : s = -1
  · subst h1
    simp only [if_true] at h
    rcases hp : e.putJIS e.shiftState b jis with _ | ⟨s1, b1, ok⟩
    · simp [hp] at h
    · simp only [hp] at h
      cases ok
      · simp only [Bool.not_false, if_true] at h
        rcases ha : appendReplacement b1 r e.Replacement with _ | ⟨b2, _ | err⟩
        · simp [ha] at h
        · simp only [ha] at h
          exact Or.inl (hfl _ b2 h)
        · simp only [ha, Option.some.injEq] at h
          subst h
          simp at hok
      · simp only [Bool.not_true, Bool.false_eq_true, if_false] at h
        exact Or.inl (hfl _ b1 h)
  · by_cases h0 : s = 0
    · subst h0
      simp only [h1, if_false, if_true] at h
      exact Or.inl (hfl _ b h)
    · simp only [h1, h0, if_false, Option.some.injEq] at h
      subst h
      exact Or.inr ⟨h0, h1, rfl⟩

theorem batch_encodeLoop_rb (t : Tables) (e : JNTAJISEncoder) (m : List Rune) :
    ∀ (st st1 : BatchState), e.encodeLoop t st m = some (st1, none) →
      (st.s = 0 → st.rb = []) →
      (st1.s = 0 → st1.rb = []) ∧ st1.rb.length ≤ st.rb.length + m.length := by
  induction m with
  | nil =>
    intro st st1 h hs
    simp only [JNTAJISEncoder.encodeLoop, Option.some.injEq, Prod.mk.injEq, and_true] at h
    subst h
    exact ⟨hs, by simp⟩
  | cons r m ih =>
    intro st st1 h hs
    unfold JNTAJISEncoder.encodeLoop at h
    rcases h1 : e.encodeStep t st r with _ | ⟨st2, _ | err⟩
    · simp [h1] at h
    · simp only [h1] at h
      have hstep := batch_encodeStep_rb t e st r st2 h1
      have hs2 : st2.s = 0 → st2.rb = [] := by
        rcases hstep with hc | hc
        · exact fun _ => hc.2
        · exact fun h0 => absurd h0 hc.1
      obtain ⟨ha, hb⟩ := ih st2 st1 h hs2
      refine ⟨ha, ?_⟩
      have hl : st2.rb.length ≤ st.rb.length + 1 := by
        rcases hstep with hc | hc
        · rw [hc.2]; simp
        · rw [hc.2.2]; simp
      simp only [List.length_cons]
      omega
    · simp [h1] at h

theorem batch_encodeLoop_sample_two_leads :
    JNTAJISEncoder.encodeLoop sampleTables ⟨399, fun b c => some (putJISMen1 b c)⟩
        ⟨0, [], []⟩ [0x30af, 0x2e9] =
      some (⟨2, [0x30af, 0x2e9], []⟩, none) := by
  have h1 : smRuneToJISMapping sampleTables.runePairsToJisMappings 0 0x30af = (3, 0) := by
    decide
  have h2 : smRuneToJISMapping sampleTables.runePairsToJisMappings 3 0x2e9 = (2, 0) := by
    decide
  simp [JNTAJISEncoder.encodeLoop, JNTAJISEncoder.encodeStep, h1, h2]

theorem batch_encodeLoop_sample_three_leads :
    JNTAJISEncoder.encodeLoop sampleTables ⟨399, fun b c => some (putJISMen1 b c)⟩
        ⟨0, [], []⟩ [0x30af, 0x30af, 0x30af] =
      some (⟨3, [0x30af, 0x30af, 0x30af], []⟩, none) := by
  have h1 : smRuneToJISMapping sampleTables.runePairsToJisMappings 0 0x30af = (3, 0) := by
    decide
  have h2 : smRuneToJISMapping sampleTables.runePairsToJisMappings 3 0x30af = (3, 0) := by
    decide
  simp [JNTAJISEncoder.encodeLoop, JNTAJISEncoder.encodeStep, h1, h2]

theorem batch_encodeStep_sample_lead_other :
    JNTAJISEncoder.encodeStep sampleTables ⟨399, fun b c => some (putJISMen1 b c)⟩
        ⟨3, [0x30af], []⟩ 0x30b8 =
      some (⟨0, [], [0x25, 0x2f, 0x25, 0x38]⟩, none) := by
  have h1 : smRuneToJISMapping sampleTables.runePairsToJisMappings 3 0x30b8 = (0, 0) := by
    decide
  simp [JNTAJISEncoder.encodeStep, JNTAJISEncoder.flushLoop, JNTAJISEncoder.flushOne, h1,
    lookupRevTable_sample_30af, lookupRevTable_sample_30b8, putJISMen1_eq, wirePair]

theorem Encode_sample_two_leads :
    JNTAJISIncrementalEncoder.Encode sampleTables
        ⟨399, liftPut (fun b c => some (putJISMen1 b c)), [], 0, 0⟩ [] [0x30af, 0x2e9] =
      some ⟨⟨399, liftPut (fun b c => some (putJISMen1 b c)), [0x30af, 0x2e9], 0, 2⟩, [],
        none⟩ := by
  have h1 : smRuneToJISMapping sampleTables.runePairsToJisMappings 0 0x30af = (3, 0) := by
    decide
  have h2 : smRuneToJISMapping sampleTables.runePairsToJisMappings 3 0x2e9 = (2, 0) := by
    decide
  simp [JNTAJISIncrementalEncoder.Encode, JNTAJISIncrementalEncoder.encodeStep, h1, h2]

/-- C23 as stated fails.  Over `sampleTables` in Men1 mode: after the two leads
`U+30AF U+02E9` the buffer `rb` of the batch loop holds both (appended in the
`new_state > 0` branch), and so does the lookahead of the incremental encoder when
`Encode` returns; after three times `U+30AF` it holds three scalars; and with the lead
`U+30AF` buffered, the scalar `U+30B8` is appended in the `new_state == 0` branch to
the buffer that still holds the lead, the two being flushed together. -/
theorem lookahead_bound_counterexample :
    (JNTAJISEncoder.encodeLoop sampleTables ⟨399, fun b c => some (putJISMen1 b c)⟩
        ⟨0, [], []⟩ [0x30af, 0x2e9]).map (fun p => (p.1.s, p.1.rb, p.2)) =
      some (2, [0x30af, 0x2e9], none) ∧
    (JNTAJISIncrementalEncoder.Encode sampleTables
        ⟨399, liftPut (fun b c => some (putJISMen1 b c)), [], 0, 0⟩ []
        [0x30af, 0x2e9]).map (fun res => (res.e.state, res.e.lookahead, res.err)) =
      some (2, [0x30af, 0x2e9], none) ∧
    (JNTAJISEncoder.encodeLoop sampleTables ⟨399, fun b c => some (putJISMen1 b c)⟩
        ⟨0, [], []⟩ [0x30af, 0x30af, 0x30af]).map (fun p => (p.1.s, p.1.rb, p.2)) =
      some (3, [0x30af, 0x30af, 0x30af], none) ∧
    smRuneToJISMapping sampleTables.runePairsToJisMappings 3 0x30b8 = (0, 0) ∧
    JNTAJISEncoder.encodeStep sampleTables ⟨399, fun b c => some (putJISMen1 b c)⟩
        ⟨3, [0x30af], []⟩ 0x30b8 =
      some (⟨0, [], [0x25, 0x2f, 0x25, 0x38]⟩, none) := by
  refine ⟨?_, ?_, ?_, by decide, batch_encodeStep_sample_lead_other⟩
  · rw [batch_encodeLoop_sample_two_leads]; rfl
  · rw [Encode_sample_two_leads]; rfl
  · rw [batch_encodeLoop_sample_three_leads]; rfl

/-- C23, amended.  At every point of batch and incremental encoding, for every input:
a pass of the loop that returns no error either leaves the automaton in state 0 with
an empty lookahead (after a pair, and in the `new_state == 0` branch, where the
scalar is appended to the buffer and the whole buffer is flushed), or leaves a state
other than 0 with the scalar appended to the lookahead it found (the `new_state > 0`
branch).  So the lookahead holds at most one scalar more than before the scalar, and
at most one scalar when the scalar is appended to an empty buffer; from the initial
state it is empty whenever the state is 0 and never longer than the input. -/
theorem lookahead_bound (t : Tables) (e : JNTAJISEncoder) (ei : JNTAJISIncrementalEncoder)
    (st st1 : BatchState) (b : Bytes) (r : Rune) (res : EncodeResult)
    (h : e.encodeStep t st r = some (st1, none))
    (hi : ei.encodeStep t b r = some res) (hok : res.err = none) :
    ((st1.s = 0 ∧ st1.rb = []) ∨ (st1.s ≠ 0 ∧ st1.rb = st.rb ++ [r])) ∧
      st1.rb.length ≤ st.rb.length + 1 ∧ (st.rb = [] → st1.rb.length ≤ 1) ∧
      ((res.e.state = 0 ∧ res.e.lookahead = []) ∨
        (res.e.state ≠ 0 ∧ res.e.lookahead = ei.lookahead ++ [r])) ∧
      res.e.lookahead.length ≤ ei.lookahead.length + 1 ∧
      (ei.lookahead = [] → res.e.lookahead.length ≤ 1) ∧
      (∀ (m : List Rune) (st2 : BatchState), e.encodeLoop t ⟨0, [], []⟩ m = some (st2, none) →
        (st2.s = 0 → st2.rb = []) ∧ st2.rb.length ≤ m.length) := by
  have hb := batch_encodeStep_rb t e st r st1 h
  have hinc := encodeStep_lookahead t ei b r res hi hok
  refine ⟨?_, ?_, ?_, ?_, ?_, ?_, ?_⟩
  · rcases hb with hc | hc
    · exact Or.inl hc
    · exact Or.inr ⟨hc.1, hc.2.2⟩
  · rcases hb with hc | hc
    · rw [hc.2]; simp
    · rw [hc.2.2]; simp
  · intro he
    rcases hb with hc | hc
    · rw [hc.2]; simp
    · rw [hc.2.2, he]; simp
  · rcases hinc with hc | hc
    · exact Or.inl hc
    · exact Or.inr ⟨hc.1, hc.2.2⟩
  · rcases hinc with hc | hc
    · rw [hc.2]; simp
    · rw [hc.2.2]; simp
  · intro he
    rcases hinc with hc | hc
    · rw [hc.2]; simp
    · rw [hc.2.2, he]; simp
  · intro m st2 hm
    have := batch_encodeLoop_rb t e m ⟨0, [], []⟩ st2 hm (fun _ => rfl)
    simpa using this

theorem batch_encodeStep_sample_first :
    JNTAJISEncoder.encodeStep sampleTables ⟨399, fun b c => some (putJISMen1 b c)⟩
        ⟨0, [], []⟩ 0x30af = some (⟨3, [0x30af], []⟩, none) := by
  have h1 : smRuneToJISMapping sampleTables.runePairsToJisMappings 0 0x30af = (3, 0) := by
    decide
  simp [JNTAJISEncoder.encodeStep, h1]

theorem encodeStep_sample_first :
    JNTAJISIncrementalEncoder.encodeStep sampleTables
        ⟨399, liftPut (fun b c => some (putJISMen1 b c)), [], 0, 0⟩ [] 0x30af =
      some ⟨⟨399, liftPut (fun b c => some (putJISMen1 b c)), [0x30af], 0, 3⟩, [], none⟩ := by
  have h1 : smRuneToJISMapping sampleTables.runePairsToJisMappings 0 0x30af = (3, 0) := by
    decide
  simp [JNTAJISIncrementalEncoder.encodeStep, h1]

/-- C23 amended, at a concrete input: the lead `U+30AF` appended to an empty buffer,
by the batch loop and by `Encode`, over `sampleTables`. -/
theorem lookahead_bound_witness :
    JNTAJISEncoder.encodeStep sampleTables ⟨399, fun b c => some (putJISMen1 b c)⟩
        ⟨0, [], []⟩ 0x30af = some (⟨3, [0x30af], []⟩, none) ∧
    (([0x30af] : List Rune).length ≤ ([] : List Rune).length + 1) ∧
    (([] : List Rune) = [] → ([0x30af] : List Rune).length ≤ 1) :=
  ⟨batch_encodeStep_sample_first,
    (lookahead_bound sampleTables _ _ ⟨0, [], []⟩ _ [] 0x30af _
      batch_encodeStep_sample_first encodeStep_sample_first rfl).2.1,
    (lookahead_bound sampleTables _ _ ⟨0, [], []⟩ _ [] 0x30af _
      batch_encodeStep_sample_first encodeStep_sample_first rfl).2.2.1⟩

/-! ### The reserved cells of the generated forward table -/

/-- What the reserved cells that `readExcelFile` inserts do satisfy, when no row is of
class `Reserved`: `srs` is `InvalidRune`, `txLen` is 0, and `rs` is the `rs` of a row. -/
theorem readRows_reserved (rows : List shrinkingTransliterationMapping)
    (hrows : ∀ row ∈ rows, row.class ≠ JISCharacterClass.Reserved) :
    ∀ (next : Nat), ∀ c ∈ readRows next rows, c.class = JISCharacterClass.Reserved →
      c.srs = (InvalidRune, InvalidRune) ∧ c.txLen = 0 ∧ ∃ row ∈ rows, c.rs = row.rs := by
  induction rows with
  | nil => intro next c hc; simp [readRows] at hc
  | cons row rows ih =>
    intro next c hc hres
    simp only [readRows, List.mem_append, List.mem_map, List.mem_cons] at hc
    rcases hc with ⟨i, _, hi⟩ | hc | hc
    · subst hi
      exact ⟨rfl, rfl, row, List.mem_cons_self _ _, rfl⟩
    · subst hc
      exact absurd hres (hrows c (List.mem_cons_self _ _))
    · obtain ⟨h1, h2, r, hr, h3⟩ :=
        ih (fun r hr => hrows r (List.mem_cons_of_mem _ hr)) (row.jis + 1) c hc hres
      exact ⟨h1, h2, r, List.mem_cons_of_mem _ hr, h3⟩

/-- C26 fails in the code.  For the two rows 1-1-1 (`U+3000`) and 1-1-3 (`U+3002`),
both of class `JISX0208NonKanji` and in strictly ascending order, `readExcelFile`
returns three cells; the cell of code 1, inserted before the second row, is
`Reserved` and has `rs[0] = U+3002`, the scalar of that row; and the cell of index 3
of the generated array, after the last row, is the zero value: `Reserved` with
`rs[0] = srs[0] = 0`.  Neither has `rs[0] = InvalidRune`. -/
theorem reserved_cells_keep_scalars :
    (readExcelFile
        [sampleCell 0 0x3000 InvalidRune JISCharacterClass.JISX0208NonKanji,
          sampleCell 2 0x3002 InvalidRune JISCharacterClass.JISX0208NonKanji]).map
        (fun c => (c.jis, c.rs, c.srs, c.class, c.txLen)) =
      [(0, (0x3000, InvalidRune), (InvalidRune, InvalidRune),
          JISCharacterClass.JISX0208NonKanji, 0),
        (1, (0x3002, InvalidRune), (InvalidRune, InvalidRune),
          JISCharacterClass.Reserved, 0),
        (2, (0x3002, InvalidRune), (InvalidRune, InvalidRune),
          JISCharacterClass.JISX0208NonKanji, 0)] ∧
    (generatedTxMappings (readExcelFile
        [sampleCell 0 0x3000 InvalidRune JISCharacterClass.JISX0208NonKanji,
          sampleCell 2 0x3002 InvalidRune JISCharacterClass.JISX0208NonKanji]) 1).class =
      JISCharacterClass.Reserved ∧
    (generatedTxMappings (readExcelFile
        [sampleCell 0 0x3000 InvalidRune JISCharacterClass.JISX0208NonKanji,
          sampleCell 2 0x3002 InvalidRune JISCharacterClass.JISX0208NonKanji]) 1).rs.1 =
      0x3002 ∧
    (0x3002 : Rune) ≠ InvalidRune ∧
    (generatedTxMappings (readExcelFile
        [sampleCell 0 0x3000 InvalidRune JISCharacterClass.JISX0208NonKanji,
          sampleCell 2 0x3002 InvalidRune JISCharacterClass.JISX0208NonKanji]) 3).class =
      JISCharacterClass.Reserved ∧
    (generatedTxMappings (readExcelFile
        [sampleCell 0 0x3000 InvalidRune JISCharacterClass.JISX0208NonKanji,
          sampleCell 2 0x3002 InvalidRune JISCharacterClass.JISX0208NonKanji]) 3).rs.1 = 0 ∧
    (generatedTxMappings (readExcelFile
        [sampleCell 0 0x3000 InvalidRune JISCharacterClass.JISX0208NonKanji,
          sampleCell 2 0x3002 InvalidRune JISCharacterClass.JISX0208NonKanji]) 3).srs.1 = 0 ∧
    (0 : Rune) ≠ InvalidRune := by
  refine ⟨by decide, by decide, by decide, by decide, by decide, by decide, by decide,
    by decide⟩

/-! ### The generated range table -/

theorem foldl_rangeStep (x : List shrinkingTransliterationMapping) :
    ∀ st : RangeState, x.foldl rangeStep st =
      (mappedScalars x).foldl (fun st p => rangeAdd st p.1 p.2) st := by
  induction x with
  | nil => intro st; rfl
  | cons m x ih =>
    intro st
    simp only [List.foldl_cons, mappedScalars, List.filter_cons]
    by_cases hs : singleScalar m = true
    · have hs' := of_decide_eq_true hs
      have hstep : rangeStep st m = rangeAdd st m.rs.1 m.jis := by
        unfold rangeStep
        rw [if_neg hs'.1, if_neg (not_not.mpr hs'.2)]
      rw [hstep, ih]
      simp only [hs, if_true, List.map_cons, List.foldl_cons, mappedScalars]
    · have hs' : ¬ (m.class ≠ JISCharacterClass.Reserved ∧ m.rs.2 = InvalidRune) := by
        intro hc
        exact hs (decide_eq_true hc)
      have hstep : rangeStep st m = st := by
        unfold rangeStep
        by_cases hc : m.class = JISCharacterClass.Reserved
        · rw [if_pos hc]
        · rw [if_neg hc]
          have h2 : m.rs.2 ≠ InvalidRune := fun h => hs' ⟨hc, h⟩
          rw [if_pos h2]
      rw [hstep, ih]
      simp only [hs, mappedScalars]
      rfl

theorem rangeAdd_first (r : Rune) (c : Nat) : rangeAdd rangeInit r c = ⟨r, r, [c], []⟩ := by
  simp [rangeAdd, rangeInit]

theorem rangeAdd_far (st : RangeState) (r : Rune) (c : Nat) (h0 : 0 ≤ st.lr)
    (h1 : st.lr + 256 ≤ r) (h2 : r < 2147483648) :
    rangeAdd st r c = ⟨r, r, [c], st.rm ++ [⟨st.sr, st.lr, st.js⟩]⟩ := by
  have hne : ¬ st.lr = -1 := by first | omega | (unfold Rune at *; omega)
  have hg : int32 (r - st.lr) = r - st.lr :=
    int32_of_range _ (by first | omega | (unfold Rune at *; omega))
  have hge : r - st.lr ≥ 256 := by first | omega | (unfold Rune at *; omega)
  unfold rangeAdd
  simp only [hne, if_false, hg, hge, if_true]

theorem rangeAdd_near (st : RangeState) (r : Rune) (c : Nat) (h0 : 0 ≤ st.lr)
    (h1 : st.lr ≤ r) (h2 : r < st.lr + 256) (h3 : st.lr < 2147483648) :
    rangeAdd st r c =
      ⟨r, st.sr, st.js ++ List.replicate (r - st.lr - 1).toNat 0xffffffff ++ [c], st.rm⟩ := by
  have hne : ¬ st.lr = -1 := by first | omega | (unfold Rune at *; omega)
  have hg : int32 (r - st.lr) = r - st.lr :=
    int32_of_range _ (by first | omega | (unfold Rune at *; omega))
  have hge : ¬ r - st.lr ≥ 256 := by first | omega | (unfold Rune at *; omega)
  unfold rangeAdd
  simp only [hne, if_false, hg, hge]

/-- An adjacent pair of a list extended by one element lies in the list, or is its
last element and the new one. -/
theorem adjacent_concat (s l1 l2 : List Rune) (a a' r : Rune)
    (h : s ++ [r] = l1 ++ a :: a' :: l2) :
    (∃ l2', l2 = l2' ++ [r] ∧ s = l1 ++ a :: a' :: l2') ∨ (l2 = [] ∧ a' = r ∧ s = l1 ++ [a]) := by
  rcases List.eq_nil_or_concat l2 with hl | ⟨l2', b, hl⟩
  · subst hl
    right
    have h' : s ++ [r] = (l1 ++ [a]) ++ [a'] := by simp [h]
    have := List.append_inj' h' rfl
    exact ⟨rfl, (List.cons.inj this.2).1.symm, this.1⟩
  · left
    rw [List.concat_eq_append] at hl
    subst hl
    have h' : s ++ [r] = (l1 ++ a :: a' :: l2') ++ [b] := by simp [h]
    have := List.append_inj' h' rfl
    have hb : r = b := (List.cons.inj this.2).1
    subst hb
    exact ⟨l2', rfl, this.1⟩

theorem sameEntry_far (tbl : List runeRangeToJISMapping) (r a a' : Rune) (js : List Nat)
    (ha : a < r) :
    sameEntry (tbl ++ [⟨r, r, js⟩]) a a' ↔ sameEntry tbl a a' := by
  constructor
  · rintro ⟨e, he, h1, h2, h3, h4⟩
    rcases List.mem_append.mp he with he | he
    · exact ⟨e, he, h1, h2, h3, h4⟩
    · rw [List.mem_singleton.mp he] at h1
      dsimp only at h1
      exact absurd h1 (by first | omega | (unfold Rune at *; omega))
  · rintro ⟨e, he, h⟩
    exact ⟨e, List.mem_append_left _ he, h⟩

theorem sameEntry_near (rm : List runeRangeToJISMapping) (sr lr r a a' : Rune)
    (js js' : List Nat) (hlr : lr ≤ r) (ha : a ≤ lr) (ha' : a' ≤ lr) :
    sameEntry (rm ++ [⟨sr, r, js'⟩]) a a' ↔ sameEntry (rm ++ [⟨sr, lr, js⟩]) a a' := by
  constructor
  · rintro ⟨e, he, h1, h2, h3, h4⟩
    rcases List.mem_append.mp he with he | he
    · exact ⟨e, List.mem_append_left _ he, h1, h2, h3, h4⟩
    · rw [List.mem_singleton.mp he] at h1 h3
      exact ⟨⟨sr, lr, js⟩, List.mem_append_right _ (List.mem_singleton_self _), h1, ha, h3, ha'⟩
  · rintro ⟨e, he, h1, h2, h3, h4⟩
    rcases List.mem_append.mp he with he | he
    · exact ⟨e, List.mem_append_left _ he, h1, h2, h3, h4⟩
    · rw [List.mem_singleton.mp he] at h1 h2 h3 h4
      dsimp only at h1 h2 h3 h4
      exact ⟨⟨sr, r, js'⟩, List.mem_append_right _ (List.mem_singleton_self _), h1,
        le_trans ha hlr, h3, le_trans ha' hlr⟩

theorem RangeInv_first (r : Rune) (c : Nat) (h0 : 0 ≤ r) (h1 : r < 2147483648) :
    RangeInv [r] (rangeAdd rangeInit r c) := by
  rw [rangeAdd_first]
  refine ⟨rfl, ⟨h0, le_refl _, h1⟩, ?_, ?_, List.Pairwise.nil, ?_, ?_⟩
  · intro q hq
    rw [List.mem_singleton.mp hq]
  · intro e he
    exact absurd he (List.not_mem_nil _)
  · intro q hq
    rw [List.mem_singleton.mp hq]
    exact ⟨⟨r, r, [c]⟩, by simp, le_refl _, le_refl _, le_refl _, le_refl _⟩
  · intro l1 a a' l2 h
    have hlen := congrArg List.length h
    simp at hlen
    omega

theorem RangeInv_step (s : List Rune) (st : RangeState) (r : Rune) (c : Nat)
    (hinv : RangeInv s st) (h1 : st.lr ≤ r) (h2 : r < 2147483648) :
    RangeInv (s ++ [r]) (rangeAdd st r c) := by
  obtain ⟨hlast, ⟨hsr0, hsrlr, hlr⟩, hle, hrm, hpw, hcov, hadj⟩ := hinv
  have hlr0 : 0 ≤ st.lr := le_trans hsr0 hsrlr
  have hlastS : ∀ l1 a, s = l1 ++ [a] → a = st.lr := by
    intro l1 a hs
    rw [hs, List.getLast?_concat] at hlast
    exact Option.some.inj hlast
  by_cases hfar : st.lr + 256 ≤ r
  · rw [rangeAdd_far st r c hlr0 hfar h2]
    refine ⟨List.getLast?_concat _, ⟨le_trans hlr0 h1, le_refl _, h2⟩, ?_, ?_, ?_, ?_, ?_⟩
    · intro q hq
      rcases List.mem_append.mp hq with hq | hq
      · exact le_trans (hle q hq) h1
      · rw [List.mem_singleton.mp hq]
    · intro e he
      rcases List.mem_append.mp he with he | he
      · obtain ⟨e1, e2, e3⟩ := hrm e he
        refine ⟨e1, e2, ?_⟩
        show e.end + 256 ≤ r
        first | omega | (unfold Rune at *; omega)
      · rw [List.mem_singleton.mp he]
        exact ⟨hsr0, hsrlr, hfar⟩
    · rw [List.pairwise_append]
      refine ⟨hpw, List.pairwise_singleton _ _, ?_⟩
      intro a ha b hb
      rw [List.mem_singleton.mp hb]
      exact (hrm a ha).2.2
    · intro q hq
      rcases List.mem_append.mp hq with hq | hq
      · obtain ⟨e, he, h⟩ := hcov q hq
        exact ⟨e, List.mem_append_left _ he, h⟩
      · rw [List.mem_singleton.mp hq]
        exact ⟨⟨r, r, [c]⟩, List.mem_append_right _ (List.mem_singleton_self _),
          le_refl _, le_refl _, le_refl _, le_refl _⟩
    · intro l1 a a' l2 hs
      rcases adjacent_concat s l1 l2 a a' r hs with ⟨l2', _, hs'⟩ | ⟨_, ha', hs'⟩
      · have ha : a ≤ st.lr := hle a (by rw [hs']; simp)
        rw [sameEntry_far _ r a a' [c] (by first | omega | (unfold Rune at *; omega))]
        exact hadj l1 a a' l2' hs'
      · have ha : a = st.lr := hlastS l1 a hs'
        subst ha ha'
        rw [sameEntry_far _ a' st.lr a' [c] (by first | omega | (unfold Rune at *; omega))]
        constructor
        · rintro ⟨e, he, _, _, _, h4⟩
          exfalso
          rcases List.mem_append.mp he with he | he
          · have := (hrm e he).2.2
            first | omega | (unfold Rune at *; omega)
          · rw [List.mem_singleton.mp he] at h4
            dsimp only at h4
            first | omega | (unfold Rune at *; omega)
        · intro hlt
          exfalso
          first | omega | (unfold Rune at *; omega)
  · have hnear : r < st.lr + 256 := not_le.mp hfar
    rw [rangeAdd_near st r c hlr0 h1 hnear hlr]
    refine ⟨List.getLast?_concat _, ⟨hsr0, le_trans hsrlr h1, h2⟩, ?_, ?_, hpw, ?_, ?_⟩
    · intro q hq
      rcases List.mem_append.mp hq with hq | hq
      · exact le_trans (hle q hq) h1
      · rw [List.mem_singleton.mp hq]
    · exact hrm
    · intro q hq
      rcases List.mem_append.mp hq with hq | hq
      · exact (sameEntry_near st.rm st.sr st.lr r q q st.js _ h1 (hle q hq) (hle q hq)).mpr
          (hcov q hq)
      · rw [List.mem_singleton.mp hq]
        exact ⟨⟨st.sr, r, _⟩, List.mem_append_right _ (List.mem_singleton_self _),
          le_trans hsrlr h1, le_refl _, le_trans hsrlr h1, le_refl _⟩
    · intro l1 a a' l2 hs
      rcases adjacent_concat s l1 l2 a a' r hs with ⟨l2', _, hs'⟩ | ⟨_, ha', hs'⟩
      · have ha : a ≤ st.lr := hle a (by rw [hs']; simp)
        have ha2 : a' ≤ st.lr := hle a' (by rw [hs']; simp)
        rw [sameEntry_near st.rm st.sr st.lr r a a' st.js _ h1 ha ha2]
        exact hadj l1 a a' l2' hs'
      · have ha : a = st.lr := hlastS l1 a hs'
        subst ha ha'
        constructor
        · intro _
          first | omega | (unfold Rune at *; omega)
        · intro _
          exact ⟨⟨st.sr, a', _⟩, List.mem_append_right _ (List.mem_singleton_self _),
            hsrlr, h1, le_trans hsrlr h1, le_refl _⟩

theorem rangeAdd_lr (st : RangeState) (r : Rune) (c : Nat) : (rangeAdd st r c).lr = r := by
  simp only [rangeAdd]
  split_ifs <;> rfl

theorem RangeInv_foldl (p : List (Rune × Nat)) :
    ∀ (s : List Rune) (st : RangeState), RangeInv s st →
      (∀ q ∈ p, st.lr ≤ q.1 ∧ q.1 < 2147483648) →
      p.Pairwise (fun a b => a.1 ≤ b.1) →
      RangeInv (s ++ p.map Prod.fst) (p.foldl (fun st q => rangeAdd st q.1 q.2) st) := by
  induction p with
  | nil => intro s st hinv _ _; simpa using hinv
  | cons q p ih =>
    intro s st hinv hb hpw
    have hq := hb q (List.mem_cons_self _ _)
    have hstep := RangeInv_step s st q.1 q.2 hinv hq.1 hq.2
    have hpw' := List.pairwise_cons.mp hpw
    have := ih (s ++ [q.1]) (rangeAdd st q.1 q.2) hstep
      (fun x hx => ⟨by rw [rangeAdd_lr]; exact hpw'.1 x hx,
        (hb x (List.mem_cons_of_mem _ hx)).2⟩)
      hpw'.2
    simpa using this

theorem mappedScalars_sorted (x : List shrinkingTransliterationMapping)
    (hsorted : x.Pairwise (fun a b => a.rs.1 ≤ b.rs.1)) :
    (mappedScalars x).Pairwise (fun a b => a.1 ≤ b.1) := by
  unfold mappedScalars
  rw [List.pairwise_map]
  exact List.Pairwise.sublist (List.filter_sublist x) hsorted

theorem mappedScalars_rune (x : List shrinkingTransliterationMapping)
    (hrune : ∀ m ∈ x, singleScalar m = true → 0 ≤ m.rs.1 ∧ m.rs.1 < 2147483648) :
    ∀ q ∈ mappedScalars x, 0 ≤ q.1 ∧ q.1 < 2147483648 := by
  intro q hq
  unfold mappedScalars at hq
  obtain ⟨m, hm, rfl⟩ := List.mem_map.mp hq
  obtain ⟨hm1, hm2⟩ := List.mem_filter.mp hm
  exact hrune m hm1 hm2

/-- The range table built from a sorted list: it is empty when no scalar is mapped,
and otherwise it is the closed entries followed by the open one of a state that
satisfies the invariant for all the mapped scalars. -/
theorem buildRangeTable_inv (x : List shrinkingTransliterationMapping)
    (hsorted : x.Pairwise (fun a b => a.rs.1 ≤ b.rs.1))
    (hrune : ∀ m ∈ x, singleScalar m = true → 0 ≤ m.rs.1 ∧ m.rs.1 < 2147483648) :
    (mappedScalars x = [] ∧ buildRangeTable x = []) ∨
      ∃ st : RangeState,
        st = (mappedScalars x).foldl (fun st p => rangeAdd st p.1 p.2) rangeInit ∧
        buildRangeTable x = st.rm ++ [⟨st.sr, st.lr, st.js⟩] ∧
        RangeInv ((mappedScalars x).map Prod.fst) st := by
  have hp := mappedScalars_sorted x hsorted
  have hr := mappedScalars_rune x hrune
  unfold buildRangeTable
  rw [foldl_rangeStep]
  rcases hP : mappedScalars x with _ | ⟨q, p⟩
  · left
    exact ⟨rfl, by simp [rangeFinish, rangeInit]⟩
  · right
    rw [hP] at hp hr
    have hq := hr q (List.mem_cons_self _ _)
    have hpw := List.pairwise_cons.mp hp
    have hinv := RangeInv_foldl p [q.1] (rangeAdd rangeInit q.1 q.2)
      (RangeInv_first q.1 q.2 hq.1 hq.2)
      (fun y hy => ⟨by rw [rangeAdd_lr]; exact hpw.1 y hy, (hr y (List.mem_cons_of_mem _ hy)).2⟩)
      hpw.2
    refine ⟨_, rfl, ?_, ?_⟩
    · simp only [List.foldl_cons]
      have hlr := hinv.2.1
      have hne : (p.foldl (fun st q => rangeAdd st q.1 q.2) (rangeAdd rangeInit q.1 q.2)).lr ≠
          -1 := by
        intro hc
        rw [hc] at hlr
        obtain ⟨h1, h2, _⟩ := hlr
        first | omega | (unfold Rune at *; omega)
      unfold rangeFinish
      rw [if_pos hne]
    · simpa using hinv

/-- C21. The generated range table is monotone.  For every list `x` sorted ascending
by first scalar (the mapped scalars being runes, from 0 up to `2^31 - 1`), the range
table the generator builds from the non-Reserved single-scalar mappings has
`start ≤ end` in every entry and `end[i] < start[j]`, `start[j] - end[i] ≥ 256` for
all `i < j`, in particular for `j = i + 1`; and two consecutive mapped scalars lie in
the same entry exactly when they differ by less than 256. -/
theorem buildRangeTable_monotone (x : List shrinkingTransliterationMapping)
    (hsorted : x.Pairwise (fun a b => a.rs.1 ≤ b.rs.1))
    (hrune : ∀ m ∈ x, singleScalar m = true → 0 ≤ m.rs.1 ∧ m.rs.1 < 2147483648) :
    (∀ e ∈ buildRangeTable x, e.start ≤ e.end) ∧
      (buildRangeTable x).Pairwise (fun a b => a.end < b.start ∧ b.start - a.end ≥ 256) ∧
      (∀ (i : Nat) (h : i + 1 < (buildRangeTable x).length),
        ((buildRangeTable x).get ⟨i, Nat.lt_of_succ_lt h⟩).start ≤
            ((buildRangeTable x).get ⟨i, Nat.lt_of_succ_lt h⟩).end ∧
          ((buildRangeTable x).get ⟨i, Nat.lt_of_succ_lt h⟩).end <
            ((buildRangeTable x).get ⟨i + 1, h⟩).start ∧
          ((buildRangeTable x).get ⟨i + 1, h⟩).start -
            ((buildRangeTable x).get ⟨i, Nat.lt_of_succ_lt h⟩).end ≥ 256) ∧
      (∀ (l1 : List Rune) (a a' : Rune) (l2 : List Rune),
        (mappedScalars x).map Prod.fst = l1 ++ a :: a' :: l2 →
        (sameEntry (buildRangeTable x) a a' ↔ a' - a < 256)) := by
  have hmain : (∀ e ∈ buildRangeTable x, e.start ≤ e.end) ∧
      (buildRangeTable x).Pairwise (fun a b => a.end < b.start ∧ b.start - a.end ≥ 256) ∧
      (∀ (l1 : List Rune) (a a' : Rune) (l2 : List Rune),
        (mappedScalars x).map Prod.fst = l1 ++ a :: a' :: l2 →
        (sameEntry (buildRangeTable x) a a' ↔ a' - a < 256)) := by
    rcases buildRangeTable_inv x hsorted hrune with ⟨hnil, hT⟩ | ⟨st, _, hT, hinv⟩
    · rw [hT]
      refine ⟨fun e he => absurd he (List.not_mem_nil _), List.Pairwise.nil, ?_⟩
      intro l1 a a' l2 h
      rw [hnil] at h
      simp at h
    · obtain ⟨_, ⟨hsr0, hsrlr, _⟩, _, hrm, hpw, _, hadj⟩ := hinv
      rw [hT]
      refine ⟨?_, ?_, hadj⟩
      · intro e he
        rcases List.mem_append.mp he with he | he
        · exact (hrm e he).2.1
        · rw [List.mem_singleton.mp he]
          exact hsrlr
      · rw [List.pairwise_append]
        refine ⟨?_, List.pairwise_singleton _ _, ?_⟩
        · refine List.Pairwise.imp ?_ hpw
          intro a b hab
          constructor <;> first | omega | (unfold Rune at *; omega)
        · intro a ha b hb
          rw [List.mem_singleton.mp hb]
          have := (hrm a ha).2.2
          constructor
          · show a.end < st.sr
            first | omega | (unfold Rune at *; omega)
          · show st.sr - a.end ≥ 256
            first | omega | (unfold Rune at *; omega)
  refine ⟨hmain.1, hmain.2.1, ?_, hmain.2.2⟩
  intro i h
  have hpw := List.pairwise_iff_get.mp hmain.2.1 ⟨i, Nat.lt_of_succ_lt h⟩ ⟨i + 1, h⟩
    (by simp)
  exact ⟨hmain.1 _ (List.get_mem _ _ _), hpw.1, hpw.2⟩

theorem buildRangeTable_sampleSorted :
    (buildRangeTable sampleSorted).map (fun e => (e.start, e.end, e.jis)) =
      [(0x2e5, 0x2e9, [1003, 0xffffffff, 0xffffffff, 0xffffffff, 1007]),
        (0x30af, 0x30b8, [390, 0xffffffff, 0xffffffff, 0xffffffff, 0xffffffff, 0xffffffff,
          0xffffffff, 0xffffffff, 0xffffffff, 399])] := by
  decide

/-- C21, at a concrete input: the list `sampleSorted`, whose range table has the two
entries `[U+02E5, U+02E9]` and `[U+30AF, U+30B8]`. -/
theorem buildRangeTable_monotone_witness :
    sampleSorted.Pairwise (fun a b => a.rs.1 ≤ b.rs.1) ∧
      (∀ m ∈ sampleSorted, singleScalar m = true → 0 ≤ m.rs.1 ∧ m.rs.1 < 2147483648) ∧
      (buildRangeTable sampleSorted).Pairwise
        (fun a b => a.end < b.start ∧ b.start - a.end ≥ 256) ∧
      (sameEntry (buildRangeTable sampleSorted) 0x2e5 0x2e9 ↔ (0x2e9 : Rune) - 0x2e5 < 256) ∧
      (sameEntry (buildRangeTable sampleSorted) 0x2e9 0x30af ↔
        (0x30af : Rune) - 0x2e9 < 256) :=
  ⟨by decide, by decide,
    (buildRangeTable_monotone sampleSorted (by decide) (by decide)).2.1,
    (buildRangeTable_monotone sampleSorted (by decide) (by decide)).2.2.2
      [] 0x2e5 0x2e9 [0x30af, 0x30b8] (by decide),
    (buildRangeTable_monotone sampleSorted (by decide) (by decide)).2.2.2
      [0x2e5] 0x2e9 0x30af [0x30b8] (by decide)⟩

/-! ### The slots of the generated range table -/

theorem codeOf_none (q : List (Rune × Nat)) (r : Rune) (h : ∀ p ∈ q, p.1 ≠ r) :
    codeOf q r = InvalidJISCode := by
  unfold codeOf
  have : q.find? (fun p => decide (p.1 = r)) = none := by
    rw [List.find?_eq_none]
    intro p hp
    simpa using h p hp
  rw [this]

theorem codeOf_append_ne (q : List (Rune × Nat)) (r r0 : Rune) (c : Nat) (h : r0 ≠ r) :
    codeOf (q ++ [(r, c)]) r0 = codeOf q r0 := by
  unfold codeOf
  rw [List.find?_append]
  have hne : ¬ r = r0 := fun hc => h hc.symm
  rcases hf : q.find? (fun p => decide (p.1 = r0)) with _ | p
  · simp [hf, hne]
  · simp [hf]

theorem codeOf_append_self (q : List (Rune × Nat)) (r : Rune) (c : Nat)
    (h : ∀ p ∈ q, p.1 ≠ r) : codeOf (q ++ [(r, c)]) r = c := by
  unfold codeOf
  rw [List.find?_append]
  have : q.find? (fun p => decide (p.1 = r)) = none := by
    rw [List.find?_eq_none]
    intro p hp
    simpa using h p hp
  rw [this]
  simp

theorem codeOf_of_mem (q : List (Rune × Nat)) (hq : q.Pairwise (fun a b => a.1 ≠ b.1))
    (r : Rune) (c : Nat) (h : (r, c) ∈ q) : codeOf q r = c := by
  induction q with
  | nil => exact absurd h (List.not_mem_nil _)
  | cons p q ih =>
    have hp := List.pairwise_cons.mp hq
    rcases List.mem_cons.mp h with h | h
    · subst h
      simp [codeOf]
    · have hne : ¬ p.1 = r := hp.1 (r, c) h
      have := ih hp.2 h
      unfold codeOf at this ⊢
      rw [List.find?_cons]
      simp only [hne, decide_False]
      exact this

theorem getD_three (js : List Nat) (n s c d i : Nat) :
    (js ++ List.replicate n s ++ [c]).getD i d =
      if i < js.length then js.getD i d
      else if i < js.length + n then s
      else if i = js.length + n then c else d := by
  rw [List.append_assoc]
  by_cases h1 : i < js.length
  · rw [if_pos h1, List.getD_append _ _ _ _ h1]
  · rw [if_neg h1, List.getD_append_right _ _ _ _ (Nat.le_of_not_lt h1)]
    by_cases h2 : i < js.length + n
    · rw [if_pos h2]
      have h3 : i - js.length < (List.replicate n s).length := by
        rw [List.length_replicate]; omega
      rw [List.getD_append _ _ _ _ h3, List.getD_eq_getElem _ _ h3, List.getElem_replicate]
    · rw [if_neg h2]
      have h3 : (List.replicate n s).length ≤ i - js.length := by
        rw [List.length_replicate]; omega
      rw [List.getD_append_right _ _ _ _ h3, List.length_replicate]
      by_cases h4 : i = js.length + n
      · rw [if_pos h4]
        have : i - js.length - n = 0 := by omega
        rw [this]
        rfl
      · rw [if_neg h4]
        apply List.getD_eq_default
        simp only [List.length_singleton]
        omega

theorem RangeContent_first (r : Rune) (c : Nat) :
    RangeContent [(r, c)] (rangeAdd rangeInit r c) := by
  rw [rangeAdd_first]
  constructor
  · intro e he
    simp only [List.nil_append, List.mem_singleton] at he
    subst he
    simp
  · intro e he r0 h1 h2
    simp only [List.nil_append, List.mem_singleton] at he
    subst he
    dsimp only at h1 h2
    have hr : r0 = r := le_antisymm h2 h1
    subst hr
    simp [runeRangeToJISMapping.slot, codeOf]

theorem RangeContent_step (q : List (Rune × Nat)) (st : RangeState) (r : Rune) (c : Nat)
    (hinv : RangeInv (q.map Prod.fst) st) (hc : RangeContent q st)
    (h1 : st.lr < r) (h2 : r < 2147483648) :
    RangeContent (q ++ [(r, c)]) (rangeAdd st r c) := by
  obtain ⟨_, ⟨hsr0, hsrlr, hlr⟩, hle, hrm, _, _, _⟩ := hinv
  obtain ⟨hlen, hcont⟩ := hc
  have hlr0 : 0 ≤ st.lr := le_trans hsr0 hsrlr
  have hq : ∀ p ∈ q, p.1 ≤ st.lr := fun p hp => hle p.1 (List.mem_map_of_mem _ hp)
  have hend : ∀ e ∈ st.rm ++ [⟨st.sr, st.lr, st.js⟩], e.end ≤ st.lr := by
    intro e he
    rcases List.mem_append.mp he with he | he
    · have := hrm e he
      first | omega | (unfold Rune at *; omega)
    · rw [List.mem_singleton.mp he]
  have hnew : ∀ p ∈ q, p.1 ≠ r := by
    intro p hp hc
    have := hq p hp
    first | omega | (unfold Rune at *; omega)
  have hold : ∀ e ∈ st.rm ++ [⟨st.sr, st.lr, st.js⟩], ∀ r0 : Rune, e.start ≤ r0 → r0 ≤ e.end →
      e.slot r0 = codeOf (q ++ [(r, c)]) r0 := by
    intro e he r0 h3 h4
    have h5 := hend e he
    rw [codeOf_append_ne q r r0 c (by first | omega | (unfold Rune at *; omega))]
    exact hcont e he r0 h3 h4
  by_cases hfar : st.lr + 256 ≤ r
  · rw [rangeAdd_far st r c hlr0 hfar h2]
    constructor
    · intro e he
      rcases List.mem_append.mp he with he | he
      · exact hlen e he
      · rw [List.mem_singleton.mp he]
        simp
    · intro e he r0 h3 h4
      rcases List.mem_append.mp he with he | he
      · exact hold e he r0 h3 h4
      · rw [List.mem_singleton.mp he] at h3 h4 ⊢
        dsimp only at h3 h4
        have hr : r0 = r := le_antisymm h4 h3
        subst hr
        rw [codeOf_append_self q r0 c hnew]
        simp [runeRangeToJISMapping.slot]
  · have hnear : r < st.lr + 256 := not_le.mp hfar
    rw [rangeAdd_near st r c hlr0 (le_of_lt h1) hnear hlr]
    have hjs : (st.js.length : Int) = st.lr - st.sr + 1 :=
      hlen ⟨st.sr, st.lr, st.js⟩ (List.mem_append_right _ (List.mem_singleton_self _))
    have hn : (((r - st.lr - 1).toNat : Nat) : Int) = r - st.lr - 1 :=
      Int.toNat_of_nonneg (by first | omega | (unfold Rune at *; omega))
    constructor
    · intro e he
      rcases List.mem_append.mp he with he | he
      · exact hlen e (List.mem_append_left _ he)
      · rw [List.mem_singleton.mp he]
        simp only [List.length_append, List.length_replicate, List.length_singleton]
        push_cast
        rw [hn, hjs]
        ring
    · intro e he r0 h3 h4
      rcases List.mem_append.mp he with he | he
      · exact hold e (List.mem_append_left _ he) r0 h3 h4
      · rw [List.mem_singleton.mp he] at h3 h4 ⊢
        dsimp only at h3 h4
        unfold runeRangeToJISMapping.slot
        dsimp only
        rw [getD_three]
        have hidx : (((r0 - st.sr).toNat : Nat) : Int) = r0 - st.sr :=
          Int.toNat_of_nonneg (by first | omega | (unfold Rune at *; omega))
        by_cases hA : r0 ≤ st.lr
        · have hlt : (r0 - st.sr).toNat < st.js.length := by
            first | omega | (unfold Rune at *; omega)
          rw [if_pos hlt]
          have := hold ⟨st.sr, st.lr, st.js⟩
            (List.mem_append_right _ (List.mem_singleton_self _)) r0 h3 hA
          unfold runeRangeToJISMapping.slot at this
          exact this
        · have hnlt : ¬ (r0 - st.sr).toNat < st.js.length := by
            first | omega | (unfold Rune at *; omega)
          rw [if_neg hnlt]
          by_cases hB : r0 < r
          · have hlt2 : (r0 - st.sr).toNat < st.js.length + (r - st.lr - 1).toNat := by
              first | omega | (unfold Rune at *; omega)
            rw [if_pos hlt2, codeOf_append_ne q r r0 c (ne_of_lt hB)]
            rw [codeOf_none q r0]
            · rfl
            · intro p hp hcp
              have := hq p hp
              first | omega | (unfold Rune at *; omega)
          · have hr : r0 = r := le_antisymm h4 (not_lt.mp hB)
            subst hr
            have hnlt2 : ¬ (r0 - st.sr).toNat < st.js.length + (r0 - st.lr - 1).toNat := by
              first | omega | (unfold Rune at *; omega)
            have heq : (r0 - st.sr).toNat = st.js.length + (r0 - st.lr - 1).toNat := by
              first | omega | (unfold Rune at *; omega)
            rw [if_neg hnlt2, if_pos heq, codeOf_append_self q r0 c hnew]

theorem RangeContent_foldl (p : List (Rune × Nat)) :
    ∀ (q : List (Rune × Nat)) (st : RangeState), RangeInv (q.map Prod.fst) st →
      RangeContent q st →
      (∀ y ∈ p, st.lr < y.1 ∧ y.1 < 2147483648) →
      p.Pairwise (fun a b => a.1 < b.1) →
      RangeContent (q ++ p) (p.foldl (fun st y => rangeAdd st y.1 y.2) st) := by
  induction p with
  | nil => intro q st _ hc _ _; simpa using hc
  | cons y p ih =>
    intro q st hinv hc hb hpw
    have hy := hb y (List.mem_cons_self _ _)
    have hinv1 := RangeInv_step (q.map Prod.fst) st y.1 y.2 hinv (le_of_lt hy.1) hy.2
    have hc1 := RangeContent_step q st y.1 y.2 hinv hc hy.1 hy.2
    have hpw' := List.pairwise_cons.mp hpw
    have hinv1' : RangeInv ((q ++ [y]).map Prod.fst) (rangeAdd st y.1 y.2) := by
      simpa using hinv1
    have := ih (q ++ [y]) (rangeAdd st y.1 y.2) hinv1' hc1
      (fun x hx => ⟨by rw [rangeAdd_lr]; exact hpw'.1 x hx,
        (hb x (List.mem_cons_of_mem _ hx)).2⟩)
      hpw'.2
    simpa using this

/-- The range table built from a sorted list whose mapped scalars are strictly
ascending: the invariant on the entries and on their slots. -/
theorem buildRangeTable_content (x : List shrinkingTransliterationMapping)
    (hsorted : x.Pairwise (fun a b => a.rs.1 ≤ b.rs.1))
    (hstrict : (mappedScalars x).Pairwise (fun a b => a.1 < b.1))
    (hrune : ∀ m ∈ x, singleScalar m = true → 0 ≤ m.rs.1 ∧ m.rs.1 < 2147483648) :
    (mappedScalars x = [] ∧ buildRangeTable x = []) ∨
      ∃ st : RangeState, buildRangeTable x = st.rm ++ [⟨st.sr, st.lr, st.js⟩] ∧
        RangeInv ((mappedScalars x).map Prod.fst) st ∧ RangeContent (mappedScalars x) st := by
  rcases buildRangeTable_inv x hsorted hrune with h | ⟨st, hst, hT, hinv⟩
  · exact Or.inl h
  · right
    refine ⟨st, hT, hinv, ?_⟩
    have hr := mappedScalars_rune x hrune
    rcases hP : mappedScalars x with _ | ⟨q, p⟩
    · rw [hP] at hinv
      have := hinv.1
      simp at this
    · rw [hP] at hst hstrict hr
      have hq := hr q (List.mem_cons_self _ _)
      have hpw := List.pairwise_cons.mp hstrict
      have := RangeContent_foldl p [q] (rangeAdd rangeInit q.1 q.2)
        (RangeInv_first q.1 q.2 hq.1 hq.2) (RangeContent_first q.1 q.2)
        (fun y hy => ⟨by rw [rangeAdd_lr]; exact hpw.1 y hy,
          (hr y (List.mem_cons_of_mem _ hy)).2⟩)
        hpw.2
      rw [hst]
      simpa using this

theorem mem_expandSecondary (mappings : List shrinkingTransliterationMapping)
    (c : shrinkingTransliterationMapping) :
    c ∈ expandSecondary mappings ↔
      ∃ m ∈ mappings, c = m ∨ (m.srs.1 ≠ InvalidRune ∧ c = { m with rs := m.srs }) := by
  unfold expandSecondary
  rw [List.mem_flatMap]
  constructor
  · rintro ⟨m, hm, hc⟩
    refine ⟨m, hm, ?_⟩
    by_cases hs : m.srs.1 ≠ InvalidRune
    · rw [if_pos hs] at hc
      simp only [List.mem_cons, List.mem_singleton, List.not_mem_nil, or_false] at hc
      rcases hc with hc | hc
      · exact Or.inl hc
      · exact Or.inr ⟨hs, hc⟩
    · rw [if_neg hs] at hc
      exact Or.inl (List.mem_singleton.mp hc)
  · rintro ⟨m, hm, hc | ⟨hs, hc⟩⟩
    · refine ⟨m, hm, ?_⟩
      subst hc
      by_cases hs : c.srs.1 ≠ InvalidRune
      · rw [if_pos hs]; simp
      · rw [if_neg hs]; simp
    · refine ⟨m, hm, ?_⟩
      rw [if_pos hs, hc]
      simp

/-- Over a range table with the invariants, the reverse lookup of a mapped scalar
returns its code. -/
theorem lookupRevTable_generated (x : List shrinkingTransliterationMapping)
    (hsorted : x.Pairwise (fun a b => a.rs.1 ≤ b.rs.1))
    (hstrict : (mappedScalars x).Pairwise (fun a b => a.1 < b.1))
    (hrune : ∀ m ∈ x, singleScalar m = true → 0 ≤ m.rs.1 ∧ m.rs.1 < 2147483648)
    (c : shrinkingTransliterationMapping) (hc : c ∈ x) (hs : singleScalar c = true)
    (hcode : c.jis ≠ InvalidJISCode) :
    lookupRevTable (buildRangeTable x) c.rs.1 = some (c.jis, true) := by
  have hmem : (c.rs.1, c.jis) ∈ mappedScalars x := by
    unfold mappedScalars
    exact List.mem_map_of_mem _ (List.mem_filter.mpr ⟨hc, hs⟩)
  rcases buildRangeTable_content x hsorted hstrict hrune with ⟨hnil, _⟩ | ⟨st, hT, hinv, hcont⟩
  · rw [hnil] at hmem
    exact absurd hmem (List.not_mem_nil _)
  · obtain ⟨_, ⟨hsr0, hsrlr, _⟩, _, hrm, hpw, hcov, _⟩ := hinv
    have hpwT : (buildRangeTable x).Pairwise (fun a b => a.end < b.start) := by
      rw [hT, List.pairwise_append]
      refine ⟨?_, List.pairwise_singleton _ _, ?_⟩
      · refine List.Pairwise.imp ?_ hpw
        intro a b hab
        first | omega | (unfold Rune at *; omega)
      · intro a ha b hb
        rw [List.mem_singleton.mp hb]
        have := (hrm a ha).2.2
        show a.end < st.sr
        first | omega | (unfold Rune at *; omega)
    have hnn : ∀ e ∈ buildRangeTable x, 0 ≤ e.start := by
      intro e he
      rw [hT] at he
      rcases List.mem_append.mp he with he | he
      · exact (hrm e he).1
      · rw [List.mem_singleton.mp he]
        exact hsr0
    have hlenT : ∀ e ∈ buildRangeTable x, (e.jis.length : Int) = e.end - e.start + 1 := by
      rw [hT]
      exact hcont.1
    obtain ⟨e, he, h1, h2, _, _⟩ := hcov c.rs.1 (List.mem_map_of_mem Prod.fst hmem)
    have hslot : e.slot c.rs.1 = c.jis := by
      rw [hcont.2 e he c.rs.1 h1 h2]
      exact codeOf_of_mem _ (List.Pairwise.imp (fun h => ne_of_lt h) hstrict) _ _ hmem
    rw [← hT] at he
    obtain ⟨⟨i, hi⟩, hget⟩ := List.mem_iff_get.mp he
    have hlook := (lookupRevTable_of_pairwise (buildRangeTable x) c.rs.1 hpwT hlenT hnn
      (hrune c hc hs).2).1 i hi (by rw [hget]; exact h1) (by rw [hget]; exact h2)
    rw [hlook, hget]
    unfold runeRangeToJISMapping.found
    rw [hslot, if_neg hcode]

/-- C25, amended.  The generated range table agrees with the forward data.  Let `xs`
be the list `x` of `doIt` after `sort.Sort`: a permutation of the forward cells and
of the copies made for their secondary scalars, ascending by first scalar.  If the
scalars of the non-Reserved single-scalar elements of that list (the `rs[0]` of the
non-Reserved single-scalar cells and the `srs[0]` of the non-Reserved cells that have
one) are pairwise distinct runes and no code is `0xFFFFFFFF`, then every entry has
`len(jis) = end - start + 1`; for every `r` in `[start, end]` the slot
`jis[r - start]` is the code of the element whose scalar is `r`, and `0xFFFFFFFF`
when there is none; and `lookupRevTable` over the generated table returns `c.jis` for
the scalar of every such element, so for `c.rs[0]` of every non-Reserved
single-scalar cell `c` and for its `srs[0]`. -/
theorem buildRangeTable_agrees (mappings xs : List shrinkingTransliterationMapping)
    (hperm : xs.Perm (expandSecondary mappings))
    (hsorted : xs.Pairwise (fun a b => a.rs.1 ≤ b.rs.1))
    (hdistinct : ((mappedScalars (expandSecondary mappings)).map Prod.fst).Nodup)
    (hrune : ∀ m ∈ expandSecondary mappings, singleScalar m = true →
      0 ≤ m.rs.1 ∧ m.rs.1 < 2147483648)
    (hcode : ∀ m ∈ mappings, m.jis ≠ InvalidJISCode) :
    (∀ e ∈ buildRangeTable xs, (e.jis.length : Int) = e.end - e.start + 1) ∧
      (∀ e ∈ buildRangeTable xs, ∀ r : Rune, e.start ≤ r → r ≤ e.end →
        (∀ c ∈ xs, singleScalar c = true → c.rs.1 = r → e.slot r = c.jis) ∧
        ((∀ c ∈ xs, singleScalar c = true → c.rs.1 ≠ r) → e.slot r = 0xffffffff)) ∧
      (∀ c ∈ xs, singleScalar c = true →
        lookupRevTable (buildRangeTable xs) c.rs.1 = some (c.jis, true)) ∧
      (∀ c ∈ mappings, c.class ≠ JISCharacterClass.Reserved →
        (c.rs.2 = InvalidRune →
          lookupRevTable (buildRangeTable xs) c.rs.1 = some (c.jis, true)) ∧
        (c.srs.1 ≠ InvalidRune → c.srs.2 = InvalidRune →
          lookupRevTable (buildRangeTable xs) c.srs.1 = some (c.jis, true))) := by
  have hrune' : ∀ m ∈ xs, singleScalar m = true → 0 ≤ m.rs.1 ∧ m.rs.1 < 2147483648 :=
    fun m hm => hrune m (hperm.mem_iff.mp hm)
  have hpermP : ((mappedScalars xs).map Prod.fst).Perm
      ((mappedScalars (expandSecondary mappings)).map Prod.fst) := by
    unfold mappedScalars
    exact ((hperm.filter _).map _).map _
  have hnodup : ((mappedScalars xs).map Prod.fst).Nodup := hpermP.nodup_iff.mpr hdistinct
  have hne : (mappedScalars xs).Pairwise (fun a b => a.1 ≠ b.1) := List.pairwise_map.mp hnodup
  have hstrict : (mappedScalars xs).Pairwise (fun a b => a.1 < b.1) := by
    refine List.Pairwise.imp ?_ ((mappedScalars_sorted xs hsorted).and hne)
    intro a b hab
    exact lt_of_le_of_ne hab.1 hab.2
  have hcode' : ∀ c ∈ xs, c.jis ≠ InvalidJISCode := by
    intro c hc
    obtain ⟨m, hm, h | ⟨_, h⟩⟩ := (mem_expandSecondary mappings c).mp (hperm.mem_iff.mp hc)
    · rw [h]; exact hcode m hm
    · rw [h]; exact hcode m hm
  have hlook : ∀ c ∈ xs, singleScalar c = true →
      lookupRevTable (buildRangeTable xs) c.rs.1 = some (c.jis, true) :=
    fun c hc hs => lookupRevTable_generated xs hsorted hstrict hrune' c hc hs (hcode' c hc)
  refine ⟨?_, ?_, hlook, ?_⟩
  · rcases buildRangeTable_content xs hsorted hstrict hrune' with ⟨_, hT⟩ | ⟨st, hT, _, hcont⟩
    · rw [hT]
      intro e he
      exact absurd he (List.not_mem_nil _)
    · rw [hT]
      exact hcont.1
  · rcases buildRangeTable_content xs hsorted hstrict hrune' with ⟨_, hT⟩ | ⟨st, hT, _, hcont⟩
    · rw [hT]
      intro e he
      exact absurd he (List.not_mem_nil _)
    · rw [hT]
      intro e he r h1 h2
      have hslot := hcont.2 e he r h1 h2
      constructor
      · intro c hc hs hr
        rw [hslot]
        apply codeOf_of_mem _ hne
        rw [← hr]
        unfold mappedScalars
        exact List.mem_map_of_mem _ (List.mem_filter.mpr ⟨hc, hs⟩)
      · intro hno
        rw [hslot]
        apply codeOf_none
        intro p hp
        unfold mappedScalars at hp
        obtain ⟨m, hm, rfl⟩ := List.mem_map.mp hp
        obtain ⟨hm1, hm2⟩ := List.mem_filter.mp hm
        exact hno m hm1 hm2
  · intro c hc hcl
    constructor
    · intro h2
      have hx : c ∈ xs :=
        hperm.mem_iff.mpr ((mem_expandSecondary mappings c).mpr ⟨c, hc, Or.inl rfl⟩)
      exact hlook c hx (decide_eq_true ⟨hcl, h2⟩)
    · intro h1 h2
      have hx : ({ c with rs := c.srs } : shrinkingTransliterationMapping) ∈ xs :=
        hperm.mem_iff.mpr ((mem_expandSecondary mappings _).mpr ⟨c, hc, Or.inr ⟨h1, rfl⟩⟩)
      exact hlook _ hx (decide_eq_true ⟨hcl, h2⟩)

theorem clashSorted1_perm : clashSorted1.Perm (expandSecondary clashCells) :=
  List.Perm.swap _ _ _

theorem clashSorted2_perm : clashSorted2.Perm (expandSecondary clashCells) :=
  (List.Perm.cons _ (List.Perm.swap _ _ _)).trans (List.Perm.swap _ _ _)

theorem secondarySorted_perm : secondarySorted.Perm (expandSecondary secondaryCells) :=
  List.Perm.cons _ (List.Perm.swap _ _ _)

theorem buildRangeTable_clashSorted2 :
    buildRangeTable clashSorted2 = [⟨0x304c, 0x304c, [368, 293]⟩] := by
  rfl

theorem lookupRevTable_clashSorted2 :
    lookupRevTable (buildRangeTable clashSorted2) 0x304c = some (368, true) := by
  rw [buildRangeTable_clashSorted2]
  unfold lookupRevTable
  rw [lookupRevLoop_eq]
  decide

/-- C25 as stated fails.  In `clashCells` the only non-Reserved single-scalar cell is
the cell of `U+304C` (code 293), so the scalars `rs[0]` and `srs[0]` of such cells are
pairwise distinct; but the pair cell of code 368 has the secondary scalar `U+304C`,
and its copy is a single-scalar element of `x`.  In either order `sort.Sort` may leave
the two elements of scalar `U+304C`, the entry `[U+304C, U+304C]` has two slots, not
`end - start + 1 = 1`; in the second order `lookupRevTable` returns 368 for `U+304C`,
not the code 293 of its cell. -/
theorem buildRangeTable_agrees_counterexample :
    (clashCells.filter singleScalar).flatMap
        (fun c => if c.srs.1 ≠ InvalidRune then [c.rs.1, c.srs.1] else [c.rs.1]) =
      [0x304c] ∧
    clashSorted1.Perm (expandSecondary clashCells) ∧
    clashSorted1.Pairwise (fun a b => a.rs.1 ≤ b.rs.1) ∧
    (buildRangeTable clashSorted1).map (fun e => (e.start, e.end, e.jis)) =
      [(0x304c, 0x304c, [293, 368])] ∧
    clashSorted2.Perm (expandSecondary clashCells) ∧
    clashSorted2.Pairwise (fun a b => a.rs.1 ≤ b.rs.1) ∧
    (buildRangeTable clashSorted2).map (fun e => (e.start, e.end, e.jis)) =
      [(0x304c, 0x304c, [368, 293])] ∧
    (([368, 293] : List Nat).length : Int) ≠ (0x304c : Rune) - 0x304c + 1 ∧
    lookupRevTable (buildRangeTable clashSorted2) 0x304c = some (368, true) :=
  ⟨by decide, clashSorted1_perm, by decide, by decide, clashSorted2_perm, by decide,
    by decide, by decide, lookupRevTable_clashSorted2⟩

/-- C25 amended, at a concrete input: `secondaryCells`, where the cell of `U+30B8` has
the secondary scalar `U+30B7`; the generated table maps both to the code 399. -/
theorem buildRangeTable_agrees_witness :
    secondarySorted.Perm (expandSecondary secondaryCells) ∧
      secondarySorted.Pairwise (fun a b => a.rs.1 ≤ b.rs.1) ∧
      ((mappedScalars (expandSecondary secondaryCells)).map Prod.fst).Nodup ∧
      (∀ m ∈ expandSecondary secondaryCells, singleScalar m = true →
        0 ≤ m.rs.1 ∧ m.rs.1 < 2147483648) ∧
      (∀ m ∈ secondaryCells, m.jis ≠ InvalidJISCode) ∧
      lookupRevTable (buildRangeTable secondarySorted) 0x30af = some (390, true) ∧
      lookupRevTable (buildRangeTable secondarySorted) 0x30b7 = some (399, true) ∧
      lookupRevTable (buildRangeTable secondarySorted) 0x30b8 = some (399, true) :=
  ⟨secondarySorted_perm, by decide, by decide, by decide, by decide,
    ((buildRangeTable_agrees secondaryCells secondarySorted secondarySorted_perm (by decide)
      (by decide) (by decide) (by decide)).2.2.2
      (sampleCell 390 0x30af InvalidRune JISCharacterClass.JISX0208NonKanji)
      (by simp [secondaryCells]) (by decide)).1 rfl,
    ((buildRangeTable_agrees secondaryCells secondarySorted secondarySorted_perm (by decide)
      (by decide) (by decide) (by decide)).2.2.2
      ⟨399, (0x30b8, InvalidRune), (0x30b7, InvalidRune),
        JISCharacterClass.JISX0208NonKanji, 0, ![0, 0, 0, 0], ![0, 0, 0, 0]⟩
      (by simp [secondaryCells]) (by decide)).2 (by decide) rfl,
    ((buildRangeTable_agrees secondaryCells secondarySorted secondarySorted_perm (by decide)
      (by decide) (by decide) (by decide)).2.2.2
      ⟨399, (0x30b8, InvalidRune), (0x30b7, InvalidRune),
        JISCharacterClass.JISX0208NonKanji, 0, ![0, 0, 0, 0], ![0, 0, 0, 0]⟩
      (by simp [secondaryCells]) (by decide)).1 rfl⟩

/-! ### The replacement policy and a pending lead -/

/-- The batch encoder in JISX0208 mode with replacement code 399 over `sampleTables`, on
`U+02E5` alone: the writer rejects its code 1003 and the replacement pair is written. -/
theorem batchEncode_sample_x0208_tone :
    batchEncode sampleTables ConversionMode.ConversionModeJISX0208 399 [0x2e5] =
      some ([0x25, 0x38], none) := by
  have h1 : smRuneToJISMapping sampleTables.runePairsToJisMappings 0 0x2e5 = (1, 0) := by
    decide
  have p1 : putJISX0208 sampleTables [] 1003 = ([], false) := by decide
  simp [batchEncode, NewJNTAJISEncoder, putFuncForConversionMode,
    JNTAJISEncoder.EncodeAsJISX0213Men1, JNTAJISEncoder.encodeLoop,
    JNTAJISEncoder.encodeStep, JNTAJISEncoder.flushLoop, JNTAJISEncoder.flushOne, h1, p1,
    lookupRevTable_sample_2e5, appendReplacement, InvalidJISCode, putJISMen1_eq, wirePair]

/-- The batch encoder in JISX0208 mode with replacement code 399 over `sampleTables`, on
`U+02E5 U+30AF U+309A`: one replacement pair, written for the pair `U+30AF U+309A`. -/
theorem batchEncode_sample_x0208_lost_lead :
    batchEncode sampleTables ConversionMode.ConversionModeJISX0208 399
        [0x2e5, 0x30af, 0x309a] =
      some ([0x25, 0x38], none) := by
  have h1 : smRuneToJISMapping sampleTables.runePairsToJisMappings 0 0x2e5 = (1, 0) := by
    decide
  have h2 : smRuneToJISMapping sampleTables.runePairsToJisMappings 1 0x30af = (3, 0) := by
    decide
  have h3 : smRuneToJISMapping sampleTables.runePairsToJisMappings 3 0x309a = (-1, 464) := by
    decide
  have p1 : putJISX0208 sampleTables [] 464 = ([], false) := by decide
  simp [batchEncode, NewJNTAJISEncoder, putFuncForConversionMode,
    JNTAJISEncoder.EncodeAsJISX0213Men1, JNTAJISEncoder.encodeLoop,
    JNTAJISEncoder.encodeStep, JNTAJISEncoder.flushLoop, h1, h2, h3, p1,
    appendReplacement, InvalidJISCode, putJISMen1_eq, wirePair]

/-- The output the specification describes for `U+02E5 U+30AF U+309A` in JISX0208 mode
over `sampleTables` with replacement code 399: the replacement pair for the single
scalar `U+02E5`, then the replacement pair for the pair `U+30AF U+309A`. -/
theorem specSegmentedEncode_sample_x0208 :
    specSegmentedEncode sampleTables ⟨399, fun b c => some (putJISX0208 sampleTables b c)⟩
        [0x2e5, 0x30af, 0x309a] [] =
      some ([0x25, 0x38, 0x25, 0x38], none) := by
  have h1 : pairCode sampleTables.runePairsToJisMappings 0x2e5 0x30af = none := by decide
  have h2 : pairCode sampleTables.runePairsToJisMappings 0x30af 0x309a = some 464 := by decide
  have p1 : putJISX0208 sampleTables [] 1003 = ([], false) := by decide
  have p2 : putJISX0208 sampleTables [0x25, 0x38] 464 = ([0x25, 0x38], false) := by decide
  simp [specSegmentedEncode, h1, h2, p1, p2, JNTAJISEncoder.flushOne, JNTAJISEncoder.putPair,
    lookupRevTable_sample_2e5, appendReplacement, InvalidJISCode, putJISMen1_eq, wirePair]

/-- C11 fails in the code.  Over `sampleTables`, the batch encoder in JISX0208 mode
with the plane-1 replacement code 399 (bytes `0x25 0x38`) is given `U+02E5 U+30AF U+309A`.
The reverse lookup maps `U+02E5` to the code 1003, which the JISX0208 writer rejects,
and alone that scalar is encoded to the replacement pair; the pair `U+30AF U+309A` has
the code 464, which the writer rejects too.  The run returns the one replacement pair
`0x25 0x38`, appended when the pair is accepted: the scalar `U+02E5`, buffered as a lead
when `U+30AF` arrives, contributes nothing.  One replacement pair for `U+02E5` and one
for the pair, as the specification describes, is `0x25 0x38 0x25 0x38`. -/
theorem replacement_missing_for_lead :
    lookupRevTable sampleTables.runeRangeToJISMappings 0x2e5 = some (1003, true) ∧
    putJISX0208 sampleTables [] 1003 = ([], false) ∧
    batchEncode sampleTables ConversionMode.ConversionModeJISX0208 399 [0x2e5] =
      some ([0x21 + 399 / 94, 0x21 + 399 % 94], none) ∧
    smRuneToJISMapping sampleTables.runePairsToJisMappings 0 0x2e5 = (1, 0) ∧
    smRuneToJISMapping sampleTables.runePairsToJisMappings 1 0x30af = (3, 0) ∧
    smRuneToJISMapping sampleTables.runePairsToJisMappings 3 0x309a = (-1, 464) ∧
    putJISX0208 sampleTables [] 464 = ([], false) ∧
    batchEncode sampleTables ConversionMode.ConversionModeJISX0208 399
        [0x2e5, 0x30af, 0x309a] =
      some ([0x21 + 399 / 94, 0x21 + 399 % 94], none) ∧
    specSegmentedEncode sampleTables ⟨399, fun b c => some (putJISX0208 sampleTables b c)⟩
        [0x2e5, 0x30af, 0x309a] [] =
      some ([0x25, 0x38, 0x25, 0x38], none) :=
  ⟨lookupRevTable_sample_2e5, by decide, batchEncode_sample_x0208_tone, by decide, by decide,
    by decide, by decide, batchEncode_sample_x0208_lost_lead, specSegmentedEncode_sample_x0208⟩

end Jntajis
